import Mathlib

/-!
Verification development for the libfyaml core: the atom decoder
(`src/lib/fy-atom.c`), the UTF-8 codec (`src/lib/fy-utf8.h`) and the
emitter primitives (`src/lib/fy-emit.c`).

Byte buffers are modelled as `List Nat` (each element a byte value),
pointers into a buffer as `Nat` offsets, C `int` results as `Int`
(so that the `-1` sentinels of the source can be represented), and
structs as Lean structures mirroring the C structs field by field.
Heap allocation is assumed to succeed (the out-of-memory paths of the
source are not modelled).  Functions declared in headers that are not
part of the provided sources (`fy-parse.h` character classes,
`fy_utf8_get_generic`, `fy_utf8_parse_escape`, `fy_uri_esc`) are
modelled from the specification and marked as such.
-/

set_option linter.unusedVariables false

/-- Modelled from the spec: character classification helpers of
`fy-parse.h` (not among the provided sources).  The line analyzer
"classif[ies] each code point as line-break, whitespace (space or
tab), or other"; line breaks are LF and CR (the emitter spec speaks
of CR-LF pairs). -/
def fy_is_ws (c : Int) : Bool := c = 0x20 ∨ c = 0x09

/-- Modelled from the spec: space classification (`fy-parse.h`). -/
def fy_is_space (c : Int) : Bool := c = 0x20

/-- Modelled from the spec: tab classification (`fy-parse.h`). -/
def fy_is_tab (c : Int) : Bool := c = 0x09

/-- Modelled from the spec: line-break classification (`fy-parse.h`). -/
def fy_is_lb (c : Int) : Bool := c = 0x0a ∨ c = 0x0d

/-- Modelled from the spec: whitespace-or-line-break (`fy-parse.h`). -/
def fy_is_ws_lb (c : Int) : Bool := fy_is_ws c ∨ fy_is_lb c

/-- Modelled from the spec: printability test used by the
double-quoted-manual re-escaper (`fy-parse.h`): control characters
are not printable, everything else is. -/
def fy_is_print (c : Int) : Bool :=
  (0x20 ≤ c ∧ c < 0x7f) ∨ c = 0x09 ∨ (0xa0 ≤ c)

/-- `fy_utf8_width_by_first_octet` (fy-utf8.h:21-28): width of a UTF-8
sequence determined from its first octet, 0 for an invalid lead byte. -/
def fy_utf8_width_by_first_octet (c : Nat) : Nat :=
  if c &&& 0x80 = 0x00 then 1
  else if c &&& 0xe0 = 0xc0 then 2
  else if c &&& 0xf0 = 0xe0 then 3
  else if c &&& 0xf8 = 0xf0 then 4
  else 0

/-- `fy_utf8_width` (fy-utf8.h:31-37): encoded width of a valid code point. -/
def fy_utf8_width (c : Int) : Nat :=
  if c < 0x80 then 1
  else if c < 0x800 then 2
  else if c < 0x10000 then 3
  else 4

/-- `fy_utf8_is_valid` (fy-utf8.h:39-43). -/
def fy_utf8_is_valid (c : Int) : Bool :=
  0 ≤ c ∧ ¬((0xd800 ≤ c ∧ c ≤ 0xdfff) ∨ 0x110000 ≤ c)

/-- Modelled from the spec: `fy_utf8_get_generic` is declared in
fy-utf8.h:46 but its definition is not among the provided sources.
Per the spec (§4.1) the decoder returns value and consumed width,
width determined from the first octet; an invalid lead byte or a
truncated sequence yields the no-character result (-1 with width 0). -/
def fy_utf8_get_generic (l : List Nat) : Int × Nat :=
  match l with
  | [] => (-1, 0)
  | b0 :: rest =>
    let w := fy_utf8_width_by_first_octet b0
    if w = 0 then (-1, 0)
    else if l.length < w then (-1, 0)
    else match w, rest with
      | 1, _ => (((b0 &&& 0x7f : Nat) : Int), 1)
      | 2, b1 :: _ => ((((b0 &&& 0x1f) <<< 6) ||| (b1 &&& 0x3f) : Nat), 2)
      | 3, b1 :: b2 :: _ =>
          ((((b0 &&& 0x0f) <<< 12) ||| ((b1 &&& 0x3f) <<< 6) ||| (b2 &&& 0x3f) : Nat), 3)
      | 4, b1 :: b2 :: b3 :: _ =>
          ((((b0 &&& 0x07) <<< 18) ||| ((b1 &&& 0x3f) <<< 12) |||
            ((b2 &&& 0x3f) <<< 6) ||| (b3 &&& 0x3f) : Nat), 4)
      | _, _ => (-1, 0)

/-- `fy_utf8_get` (fy-utf8.h:48-63) on the remaining byte slice: the
empty slice (`left <= 0`) yields no character; a single byte with the
high bit clear is decoded directly; otherwise the generic decoder runs. -/
def fy_utf8_get (l : List Nat) : Int × Nat :=
  match l with
  | [] => (-1, 0)
  | b0 :: _ =>
    if b0 &&& 0x80 = 0 then (((b0 &&& 0x7f : Nat) : Int), 1)
    else fy_utf8_get_generic l

/-- `fy_utf8_put_unchecked` (fy-utf8.h:82-103): encode a valid code
point (assumed non-negative, hence taken as `Nat`) into 1-4 bytes. -/
def fy_utf8_put_unchecked (c : Nat) : List Nat :=
  if c < 0x80 then [c]
  else if c < 0x800 then
    [(c >>> 6) ||| 0xc0, (c &&& 0x3f) ||| 0x80]
  else if c < 0x10000 then
    [(c >>> 12) ||| 0xe0, ((c >>> 6) &&& 0x3f) ||| 0x80, (c &&& 0x3f) ||| 0x80]
  else
    [(c >>> 18) ||| 0xf0, ((c >>> 12) &&& 0x3f) ||| 0x80,
     ((c >>> 6) &&& 0x3f) ||| 0x80, (c &&& 0x3f) ||| 0x80]

/-- `fy_utf8_put` (fy-utf8.h:105-111): checked encode, `none` for an
invalid code point or insufficient room. -/
def fy_utf8_put (left : Nat) (c : Int) : Option (List Nat) :=
  if ¬fy_utf8_is_valid c ∨ left < fy_utf8_width c then none
  else some (fy_utf8_put_unchecked c.toNat)

/-- `struct fy_mark` (libfyaml.h, used by fy-atom.h): input position. -/
structure FyMark where
  input_pos : Nat
  line : Nat
  column : Nat
deriving DecidableEq, Repr

/-- `enum fy_atom_style` (fy-atom.h:28-37). -/
inductive FyAtomStyle where
  | FYAS_PLAIN
  | FYAS_SINGLE_QUOTED
  | FYAS_DOUBLE_QUOTED
  | FYAS_LITERAL
  | FYAS_FOLDED
  | FYAS_URI
  | FYAS_DOUBLE_QUOTED_MANUAL
  | FYAS_COMMENT
deriving DecidableEq, Repr

/-- `fy_atom_style_is_quoted` (fy-atom.h:39-42). -/
def fy_atom_style_is_quoted (style : FyAtomStyle) : Bool :=
  style = .FYAS_SINGLE_QUOTED ∨ style = .FYAS_DOUBLE_QUOTED

/-- `fy_atom_style_is_block` (fy-atom.h:44-47). -/
def fy_atom_style_is_block (style : FyAtomStyle) : Bool :=
  style = .FYAS_LITERAL ∨ style = .FYAS_FOLDED

/-- `enum fy_atom_chomp` (fy-atom.h:49-53). -/
inductive FyAtomChomp where
  | FYAC_STRIP
  | FYAC_CLIP
  | FYAC_KEEP
deriving DecidableEq, Repr

/-- `struct fy_atom` (fy-atom.h:55-75).  The input reference `fyi`
together with the span delimited by the marks is modelled by the
`data` field carrying the raw bytes of the span directly, so
`fy_atom_data`/`fy_atom_size` become projections. -/
structure FyAtom where
  start_mark : FyMark
  end_mark : FyMark
  storage_hint : Nat
  data : List Nat
  increment : Nat
  style : FyAtomStyle
  chomp : FyAtomChomp
  direct_output : Bool
  storage_hint_valid : Bool
  empty : Bool
  has_lb : Bool
  has_ws : Bool
  starts_with_ws : Bool
  starts_with_lb : Bool
  ends_with_ws : Bool
  ends_with_lb : Bool
  trailing_lb : Bool
  size0 : Bool
deriving DecidableEq, Repr

/-- `fy_atom_data` (the raw bytes of the atom's span). -/
def fy_atom_data (atom : FyAtom) : List Nat := atom.data

/-- `fy_atom_size` (the length of the atom's span). -/
def fy_atom_size (atom : FyAtom) : Nat := atom.data.length

/-- `struct fy_atom_iter_line_info` (fy-atom.h:119-139); pointers into
the input are modelled as `Nat` offsets into the atom's data. -/
structure LineInfo where
  start : Nat
  end_ : Nat
  nws_start : Nat
  nws_end : Nat
  chomp_start : Nat
  trailing_ws : Bool
  empty : Bool
  trailing_breaks : Bool
  trailing_breaks_ws : Bool
  first : Bool
  last : Bool
  final : Bool
  indented : Bool
  lb_end : Bool
  need_nl : Bool
  need_sep : Bool
  start_ws : Nat
  end_ws : Nat
  s : Nat
  e : Nat
deriving DecidableEq, Repr

/-- The all-zero line info (the iterator `memset`s its slots). -/
def LineInfo.zero : LineInfo :=
  { start := 0, end_ := 0, nws_start := 0, nws_end := 0, chomp_start := 0,
    trailing_ws := false, empty := false, trailing_breaks := false,
    trailing_breaks_ws := false, first := false, last := false, final := false,
    indented := false, lb_end := false, need_nl := false, need_sep := false,
    start_ws := 0, end_ws := 0, s := 0, e := 0 }

/-- The byte slice `[ss, e)` of a buffer. -/
def fy_slice (d : List Nat) (ss e : Nat) : List Nat := (d.drop ss).take (e - ss)

/-- Mutable locals of the first scan loop of `fy_atom_iter_line_analyze`
(fy-atom.c:201-286): the partially-filled line info (`none` models the
NULL / `(size_t)-1` "unset" markers) together with `col`, `cws` and
`last_was_ws`. -/
structure FyScanSt where
  col : Nat
  cws : Nat
  last_was_ws : Bool
  chomp_start : Option Nat
  indented : Bool
  end_ : Option Nat
  trailing_ws : Bool
  end_ws : Option Nat
  lb_end : Bool
  nws_start : Option Nat
  nws_end : Option Nat
  empty : Bool
  start_ws : Option Nat
deriving DecidableEq, Repr

/-- The first scan loop of `fy_atom_iter_line_analyze` (fy-atom.c:225-286).
Returns the updated state, the final scan position, and the code point
and width at loop exit.  Since `iter->chomp` is unsigned, the
`li->end && iter->chomp >= 0` exit condition reduces to `li->end` being
set, i.e. the loop exits at the first line break.  The `1 ≤ w ∧ ss < e`
guard only discharges termination; it holds whenever the decoder
returns a character.  `fy_scan_step` is the loop body for one decoded
character `c` at position `ss`. -/
def fy_scan_step (is_block : Bool) (chomp ts : Nat) (st : FyScanSt)
    (ss : Nat) (c : Int) : FyScanSt :=
  let st := if is_block ∧ st.chomp_start = none ∧ chomp ≤ st.col then
      { st with chomp_start := some ss, indented := fy_is_ws c } else st
  if fy_is_lb c then
    let st := { st with col := 0 }
    let st := if st.end_ = none then
        { st with
          end_ := some ss, trailing_ws := st.last_was_ws,
          end_ws := some st.cws, lb_end := true } else st
    let st := if is_block ∧ st.chomp_start = none then
        { st with chomp_start := some ss } else st
    if ¬st.last_was_ws then
      { st with cws := 0, nws_end := some ss, last_was_ws := true } else st
  else if fy_is_ws c then
    let advws := if fy_is_space c then 1 else ts - (st.col % ts)
    let st := { st with col := st.col + advws, cws := st.cws + advws }
    if ¬st.last_was_ws then
      { st with nws_end := some ss, last_was_ws := true } else st
  else
    let st := if st.nws_start = none then { st with nws_start := some ss } else st
    let st := if st.empty then { st with empty := false } else st
    let st := if st.start_ws = none then { st with start_ws := some st.cws } else st
    { st with last_was_ws := false, col := st.col + 1 }

def fy_scan (d : List Nat) (is_block : Bool) (chomp ts e : Nat)
    (st : FyScanSt) (ss : Nat) : FyScanSt × Nat × Int × Nat :=
  let cw := fy_utf8_get (fy_slice d ss e)
  let c := cw.1
  let w := cw.2
  if c = -1 then (st, ss, c, w)
  else
    let st := fy_scan_step is_block chomp ts st ss c
    if st.end_.isSome then (st, ss, c, w)
    else if h : 1 ≤ w ∧ ss < e then
      fy_scan d is_block chomp ts e st (ss + w)
    else (st, ss, c, w)
termination_by e - ss
decreasing_by unfold w cw at h; omega

/-- The trailing-break scan loop of `fy_atom_iter_line_analyze`
(fy-atom.c:333-351).  Returns `trailing_breaks`, `trailing_breaks_ws`
and the final scan position. -/
def fy_trailing_scan (d : List Nat) (is_block : Bool) (chomp ts e : Nat)
    (col : Nat) (tb tbws : Bool) (ss : Nat) : Bool × Bool × Nat :=
  let cw := fy_utf8_get (fy_slice d ss e)
  let c := cw.1
  let w := cw.2
  if c = -1 ∨ ¬fy_is_ws_lb c then (tb, tbws, ss)
  else
    let tb := if ¬tb ∧ fy_is_lb c then true else tb
    let tbws := if ¬tbws ∧ is_block ∧ chomp < col then true else tbws
    let col := if fy_is_lb c then 0
      else if fy_is_tab c then col + (ts - col % ts) else col + 1
    if h : 1 ≤ w ∧ ss < e then
      fy_trailing_scan d is_block chomp ts e col tb tbws (ss + w)
    else (tb, tbws, ss + w)
termination_by e - ss
decreasing_by unfold w cw at h; omega

/-- The post-loop marker fixups of `fy_atom_iter_line_analyze`
(fy-atom.c:288-331): close the non-whitespace run and default the
still-unset markers at the final scan position `ss`. -/
def fy_scan_fixup (is_block : Bool) (st : FyScanSt) (ss : Nat) : FyScanSt :=
  let st := if ¬st.last_was_ws then { st with nws_end := some ss } else st
  let st := if st.nws_start = none then { st with nws_start := some ss } else st
  let st := if st.nws_end = none then { st with nws_end := some ss } else st
  let st := if is_block ∧ st.chomp_start = none then
      { st with chomp_start := some ss } else st
  if st.start_ws = none then { st with start_ws := some 0 } else st

/-- `fy_atom_iter_line_analyze` (fy-atom.c:168-362).  `prev` is the
previous content of the line-info slot being written: the source fills
the caller's slot field by field, so fields it does not assign (and in
the short-circuit path it assigns only a subset) keep their old value.
`chomp` is `iter->chomp`, `e` the atom end offset (the `len` argument
of the source is `e - line_start`). -/
def fy_atom_iter_line_analyze (atom : FyAtom) (chomp e : Nat)
    (prev : LineInfo) (line_start : Nat) : LineInfo :=
  let d := atom.data
  let s := line_start
  let is_block := atom.style = .FYAS_LITERAL ∨ atom.style = .FYAS_FOLDED
  if atom.direct_output ∧ ¬atom.has_lb ∧ ¬atom.has_ws then
    { prev with
      start := s, end_ := e, nws_start := s, nws_end := e,
      chomp_start := s, final := true, empty := atom.empty,
      trailing_breaks := false, trailing_breaks_ws := false,
      start_ws := 0, end_ws := 0, indented := false,
      lb_end := atom.ends_with_lb }
  else
    let ts := 8
    let st0 : FyScanSt :=
      { col := 0, cws := 0, last_was_ws := false, chomp_start := none,
        indented := false, end_ := none, trailing_ws := false, end_ws := none,
        lb_end := false, nws_start := none, nws_end := none, empty := true,
        start_ws := none }
    let r := fy_scan d is_block chomp ts e st0 s
    let ss := r.2.1
    let c := r.2.2.1
    let w := r.2.2.2
    let final := c = -1
    let st := fy_scan_fixup is_block r.1 ss
    match st.end_ with
    | none =>
      { prev with
        start := s, end_ := e, nws_start := st.nws_start.getD 0,
        nws_end := st.nws_end.getD 0, chomp_start := st.chomp_start.getD ss,
        trailing_ws := st.last_was_ws, empty := st.empty,
        trailing_breaks := false, trailing_breaks_ws := false,
        first := false, last := true, final := final,
        indented := st.indented, lb_end := false,
        start_ws := st.start_ws.getD 0, end_ws := st.cws }
    | some endPos =>
      let ss2 := if 0 ≤ c then ss + w else ss
      let col2 := if 0 ≤ c then
          (if fy_is_lb c then 0
           else if fy_is_tab c then st.col + (ts - st.col % ts)
           else st.col + 1)
        else st.col
      if ss2 ≥ e then
        { prev with
          start := s, end_ := endPos, nws_start := st.nws_start.getD 0,
          nws_end := st.nws_end.getD 0, chomp_start := st.chomp_start.getD ss,
          trailing_ws := st.trailing_ws, empty := st.empty,
          trailing_breaks := false, trailing_breaks_ws := false,
          first := false, last := true, final := final,
          indented := st.indented, lb_end := st.lb_end,
          start_ws := st.start_ws.getD 0, end_ws := st.end_ws.getD 0 }
      else
        let t := fy_trailing_scan d is_block chomp ts e col2 false false ss2
        { prev with
          start := s, end_ := endPos, nws_start := st.nws_start.getD 0,
          nws_end := st.nws_end.getD 0, chomp_start := st.chomp_start.getD ss,
          trailing_ws := st.trailing_ws, empty := st.empty,
          trailing_breaks := t.1, trailing_breaks_ws := t.2.1,
          first := false, last := t.2.2 ≥ e, final := final,
          indented := st.indented, lb_end := st.lb_end,
          start_ws := st.start_ws.getD 0, end_ws := st.end_ws.getD 0 }

/-- `struct fy_atom_iter` (fy-atom.h:152-169).  The two-slot line-info
array `li[2]` is modelled by `li0`/`li1` indexed through the `current`
bit; the chunk array (`chunks`/`alloc`/`top` plus the startup array) is
modelled as a list of byte lists (`top` is its length; allocation is
assumed to succeed, so the inline/heap distinction and `alloc`
disappear), with `read` the index of the first unconsumed chunk. -/
structure FyAtomIter where
  atom : FyAtom
  e : Nat
  chomp : Nat
  tabsize : Nat
  single_line : Bool
  dangling_end_quote : Bool
  empty : Bool
  current : Bool
  done : Bool
  li0 : LineInfo
  li1 : LineInfo
  chunks : List (List Nat)
  read : Nat
  unget_c : Int
deriving DecidableEq, Repr

/-- The line-info slot `iter->li[b]`. -/
def FyAtomIter.li (it : FyAtomIter) (b : Bool) : LineInfo :=
  if b then it.li1 else it.li0

/-- Writing the line-info slot `iter->li[b]`. -/
def FyAtomIter.setLi (it : FyAtomIter) (b : Bool) (v : LineInfo) : FyAtomIter :=
  if b then { it with li1 := v } else { it with li0 := v }

/-- `fy_atom_iter_start` (fy-atom.c:364-403). -/
def fy_atom_iter_start (atom : FyAtom) : FyAtomIter :=
  let len := fy_atom_size atom
  let li1 := fy_atom_iter_line_analyze atom atom.increment len LineInfo.zero 0
  let li1 := { li1 with first := true }
  { atom := atom, e := len, chomp := atom.increment, tabsize := 8,
    dangling_end_quote := atom.end_mark.column = 0,
    single_line := atom.start_mark.line = atom.end_mark.line,
    empty := atom.empty, current := false, done := false,
    li0 := LineInfo.zero, li1 := li1,
    chunks := [], read := 0, unget_c := -1 }

/-- The `need_nl`/`need_sep` computation of `fy_atom_iter_line`
(fy-atom.c:467-510), on the current line `li` and the lookahead line
`nli` (`none` models the NULL pointer).  `iterEmpty` and `dangling`
are `iter->empty` and `iter->dangling_end_quote`. -/
def fy_line_need_flags (style : FyAtomStyle) (iterEmpty dangling : Bool)
    (d : List Nat) (li : LineInfo) (nli : Option LineInfo) : LineInfo :=
  let li := { li with need_nl := false, need_sep := false }
  match style with
  | .FYAS_PLAIN | .FYAS_URI | .FYAS_DOUBLE_QUOTED_MANUAL =>
    let nnl : Bool := !li.last && li.empty
    { li with
      need_nl := nnl,
      need_sep := !nnl && (match nli with | some n => !n.empty | none => false) }
  | .FYAS_COMMENT =>
    { li with need_nl := !li.final, need_sep := false }
  | .FYAS_SINGLE_QUOTED | .FYAS_DOUBLE_QUOTED =>
    let nnl : Bool := (!li.last && !li.first && li.empty) ||
               (nli.isSome && iterEmpty && !li.first)
    if nnl then { li with need_nl := true }
    else
      let nsep : Bool := (match nli with | some n => !n.empty | none => false) ||
                  (nli.isNone && li.last && dangling) ||
                  (match nli with | some n => n.final && n.empty | none => false)
      let nsep : Bool := if style = FyAtomStyle.FYAS_DOUBLE_QUOTED ∧ nsep = true ∧
                     li.nws_start < li.nws_end ∧ d.getD (li.nws_end - 1) 0 = 0x5c
                  then false else nsep
      { li with need_sep := nsep }
  | .FYAS_LITERAL => { li with need_nl := true }
  | .FYAS_FOLDED =>
    let nnl : Bool := !li.last && (li.empty || li.indented || li.trailing_breaks_ws ||
               (match nli with | some n => n.indented | none => false))
    if nnl then { li with need_nl := true }
    else
      { li with
        need_sep := match nli with | some n => !n.indented && !n.empty | none => false }

/-- The effective-slice selection of `fy_atom_iter_line`
(fy-atom.c:442-465): set `li->s`/`li->e` according to style, with the
empty-first-last collapse and the final `s > e` clamp. -/
def fy_line_slice (style : FyAtomStyle) (single_line : Bool) (li : LineInfo) : LineInfo :=
  let li : LineInfo :=
    if style = .FYAS_SINGLE_QUOTED ∨ style = .FYAS_DOUBLE_QUOTED then
      let li := { li with
        s := if li.first then li.start else li.nws_start,
        e := if li.last then li.end_ else li.nws_end }
      if li.empty ∧ li.first ∧ li.last ∧ ¬single_line then
        { li with s := li.e } else li
    else if style = .FYAS_LITERAL ∨ style = .FYAS_FOLDED then
      let li := { li with s := li.chomp_start, e := li.end_ }
      if li.empty ∧ li.first ∧ li.last ∧ ¬single_line then
        { li with s := li.e } else li
    else
      { li with s := li.nws_start, e := li.nws_end }
  if li.e < li.s then { li with s := li.e } else li

/-- `fy_atom_iter_line` (fy-atom.c:411-513): flip the slot bit, return
the (already analyzed) new current line unless it is exhausted, analyze
the following line into the other slot, select the effective output
slice `[s, e)` by style, and compute `need_nl`/`need_sep`.  The source
reads the byte after the current line (`li->end[0]`) even when the line
ends at the atom end, in which case that byte lies outside the span;
`List.getD _ _ 0` models it (the next start is then past the atom end
whatever the byte, so the result does not depend on the default). -/
def fy_atom_iter_line (it : FyAtomIter) : FyAtomIter × Option LineInfo :=
  let atom := it.atom
  let cur := !it.current
  let it := { it with current := cur }
  let li := it.li cur
  if li.start ≥ it.e then (it, none)
  else
    let d := atom.data
    let ss := li.end_ + fy_utf8_width_by_first_octet (d.getD li.end_ 0)
    let nli0 := fy_atom_iter_line_analyze atom it.chomp it.e (it.li (!cur)) ss
    let it := it.setLi (!cur) nli0
    let nli : Option LineInfo := if nli0.start ≥ it.e then none else some nli0
    let li := fy_line_slice atom.style it.single_line li
    let li := fy_line_need_flags atom.style it.empty it.dangling_end_quote d li nli
    let it := it.setLi cur li
    (it, some li)

/-- `add_chunk`/`add_chunk_copy` discipline (fy-atom.c:117-166): a
zero-length chunk is not recorded.  In the model a chunk is the byte
sequence it denotes, whether it aliases the input or an inline copy. -/
def addC (c : List Nat) : List (List Nat) :=
  if c = [] then [] else [c]

/-- `memchr` on a byte slice, as an index into it. -/
def fy_memchr (l : List Nat) (b : Nat) : Option Nat :=
  l.findIdx? (fun x => x = b)

/-- Value of a hexadecimal digit character. -/
def hexDigit (b : Nat) : Option Nat :=
  if 0x30 ≤ b ∧ b ≤ 0x39 then some (b - 0x30)
  else if 0x41 ≤ b ∧ b ≤ 0x46 then some (b - 0x41 + 10)
  else if 0x61 ≤ b ∧ b ≤ 0x66 then some (b - 0x61 + 10)
  else none

/-- Value of a big-endian string of hexadecimal digit characters. -/
def hexVal (l : List Nat) : Option Nat :=
  l.foldl (fun acc b =>
    match acc, hexDigit b with
    | some a, some dg => some (a * 16 + dg)
    | _, _ => none) (some 0)

/-- Modelled from the spec: `fy_utf8_parse_escape` (declared in
fy-utf8.h:185, definition not among the provided sources).  Parses one
of the YAML 1.2 escapes listed in spec §4.4 (`\0 \a \b \t \n \v \f \r
\e \" \\ \/ \  \N \_ \L \P`, numeric `\xHH \uHHHH \UHHHHHHHH`) at the
start of the slice, returning the code point and the number of bytes
consumed (backslash included), or `none` for a malformed escape. -/
def fy_utf8_parse_escape (l : List Nat) : Option (Nat × Nat) :=
  match l with
  | 0x5c :: esc :: rest =>
    if esc = 0x30 then some (0x00, 2)
    else if esc = 0x61 then some (0x07, 2)
    else if esc = 0x62 then some (0x08, 2)
    else if esc = 0x74 then some (0x09, 2)
    else if esc = 0x6e then some (0x0a, 2)
    else if esc = 0x76 then some (0x0b, 2)
    else if esc = 0x66 then some (0x0c, 2)
    else if esc = 0x72 then some (0x0d, 2)
    else if esc = 0x65 then some (0x1b, 2)
    else if esc = 0x22 then some (0x22, 2)
    else if esc = 0x5c then some (0x5c, 2)
    else if esc = 0x2f then some (0x2f, 2)
    else if esc = 0x20 then some (0x20, 2)
    else if esc = 0x4e then some (0x85, 2)
    else if esc = 0x5f then some (0xa0, 2)
    else if esc = 0x4c then some (0x2028, 2)
    else if esc = 0x50 then some (0x2029, 2)
    else if esc = 0x78 then
      (if rest.length < 2 then none else (hexVal (rest.take 2)).map (fun v => (v, 4)))
    else if esc = 0x75 then
      (if rest.length < 4 then none else (hexVal (rest.take 4)).map (fun v => (v, 6)))
    else if esc = 0x55 then
      (if rest.length < 8 then none else (hexVal (rest.take 8)).map (fun v => (v, 10)))
    else none
  | _ => none

/-- Modelled from the spec: `fy_uri_esc` (not among the provided
sources).  Decodes percent escapes `%HH`, "possibly multiple for a
multi-byte code point" (spec §4.4): the first escaped octet determines
the UTF-8 width, that many `%HH` groups are consumed and their octets
returned; `maxlen` is the size of the output buffer.  Returns the
decoded octets and the bytes consumed, or `none` when malformed. -/
def fy_uri_esc (l : List Nat) (maxlen : Nat) : Option (List Nat × Nat) :=
  match l with
  | 0x25 :: h1 :: h2 :: _ =>
    match hexDigit h1, hexDigit h2 with
    | some a, some b =>
      let b0 := a * 16 + b
      let w := fy_utf8_width_by_first_octet b0
      if w = 0 ∨ maxlen < w then none
      else
        let groups := (List.range w).map (fun k => (l.drop (3 * k)).take 3)
        if groups.all (fun g =>
            match g with
            | [p, x, y] => p = 0x25 ∧ (hexDigit x).isSome ∧ (hexDigit y).isSome
            | _ => false) then
          some (groups.map (fun g =>
            match g with
            | [_, x, y] => (hexDigit x).getD 0 * 16 + (hexDigit y).getD 0
            | _ => 0), 3 * w)
        else none
    | _, _ => none
  | _ => none

/-- The single-quoted chunk loop of `fy_atom_iter_format`
(fy-atom.c:549-571): emit runs up to each single quote; an embedded
`''` contributes one quote chunk; the quote itself is skipped. -/
def fy_sq_chunks (d : List Nat) (s e : Nat) : List (List Nat) :=
  if h : s < e then
    match fy_memchr (fy_slice d s e) 0x27 with
    | none => addC (fy_slice d s e)
    | some i =>
      let t := s + i
      let run := addC (fy_slice d s t)
      let quote := if 2 ≤ e - t ∧ d.getD (t + 1) 0 = 0x27 then
          addC (fy_slice d t (t + 1)) else []
      run ++ quote ++ fy_sq_chunks d (t + 1) e
  else []
termination_by e - s
decreasing_by omega

/-- The double-quoted chunk loop of `fy_atom_iter_format`
(fy-atom.c:573-601): emit runs up to each backslash, parse the escape
and emit its UTF-8 encoding as a copied chunk.  Returns the chunks
produced together with the return code (negative on a malformed escape
or an unencodable code point; the chunks produced before the error
have already been added, as in the source). -/
def fy_dq_chunks (d : List Nat) (s e : Nat) : List (List Nat) × Int :=
  if h : s < e then
    match fy_memchr (fy_slice d s e) 0x5c with
    | none => (addC (fy_slice d s e), 0)
    | some i =>
      let t := s + i
      let run := addC (fy_slice d s t)
      if e - t < 2 then (run, 0)
      else
        match fy_utf8_parse_escape (fy_slice d t e) with
        | none => (run, -1)
        | some vc =>
          match fy_utf8_put 4 (vc.1 : Int) with
          | none => (run, -1)
          | some code =>
            if hc : 0 < vc.2 then
              let rest := fy_dq_chunks d (t + vc.2) e
              (run ++ [code] ++ rest.1, rest.2)
            else (run ++ [code], -1)
  else ([], 0)
termination_by e - s
decreasing_by omega

/-- The URI chunk loop of `fy_atom_iter_format` (fy-atom.c:604-631):
emit runs up to each `%`, decode the percent escape into a copied
chunk. -/
def fy_uri_chunks (d : List Nat) (s e : Nat) : List (List Nat) × Int :=
  if h : s < e then
    match fy_memchr (fy_slice d s e) 0x25 with
    | none => (addC (fy_slice d s e), 0)
    | some i =>
      let t := s + i
      let run := addC (fy_slice d s t)
      match fy_uri_esc (fy_slice d t e) 4 with
      | none => (run, -1)
      | some code =>
        if hc : 0 < code.2 then
          let rest := fy_uri_chunks d (t + code.2) e
          (run ++ addC code.1 ++ rest.1, rest.2)
        else (run ++ addC code.1, -1)
  else ([], 0)
termination_by e - s
decreasing_by omega

/-- One hexadecimal digit character (lower case), as in `snprintf %x`. -/
def toHexChar (n : Nat) : Nat :=
  if n < 10 then 0x30 + n else 0x61 + (n - 10)

/-- `k` hexadecimal digit characters of `v`, big endian with leading
zeros, as in `snprintf %0kx`. -/
def hexDigits (v k : Nat) : List Nat :=
  (List.range k).map (fun i => toHexChar (v / 16 ^ (k - 1 - i) % 16))

/-- The numeric-escape buffer of the double-quoted-manual writer
(fy-atom.c:695-703): `x%02x`, `x%04x` or `U%08x` depending on the
magnitude of the code point. -/
def fy_dqm_digitbuf (c : Int) : List Nat :=
  if c ≤ 0xff then 0x78 :: hexDigits c.toNat 2
  else if c ≤ 0xffff then 0x78 :: hexDigits c.toNat 4
  else 0x55 :: hexDigits c.toNat 8

/-- The escape-letter chunk of the double-quoted-manual writer
(fy-atom.c:649-704), emitted after the backslash chunk. -/
def fy_dqm_esc (c : Int) : List Nat :=
  if c = 0x5c then [0x5c]
  else if c = 0x22 then [0x22]
  else if c = 0x00 then [0x30]
  else if c = 0x07 then [0x61]
  else if c = 0x08 then [0x62]
  else if c = 0x09 then [0x74]
  else if c = 0x0a then [0x6e]
  else if c = 0x0b then [0x76]
  else if c = 0x0c then [0x66]
  else if c = 0x0d then [0x72]
  else if c = 0x1b then [0x65]
  else if c = 0x85 then [0x4e]
  else if c = 0xa0 then [0x5f]
  else if c = 0x2028 then [0x4c]
  else if c = 0x2029 then [0x50]
  else fy_dqm_digitbuf c

/-- The double-quoted-manual chunk loop of `fy_atom_iter_format`
(fy-atom.c:633-710): printable characters other than `"` and `\` pass
through; everything else is re-escaped as a backslash chunk followed
by the escape chunk. -/
def fy_dqm_chunks (d : List Nat) (s e : Nat) : List (List Nat) :=
  let cw := fy_utf8_get (fy_slice d s e)
  let c := cw.1
  let w := cw.2
  if c = -1 then []
  else if h : 1 ≤ w ∧ s < e then
    if c ≠ 0x22 ∧ c ≠ 0x5c ∧ fy_is_print c then
      addC (fy_slice d s (s + w)) ++ fy_dqm_chunks d (s + w) e
    else
      [[0x5c]] ++ addC (fy_dqm_esc c) ++ fy_dqm_chunks d (s + w) e
  else []
termination_by e - s
decreasing_by all_goals (unfold w cw at h; omega)

/-- Termination measure for loops that repeatedly call
`fy_atom_iter_line`: the pending (not yet returned) line slot start
strictly advances on every successful call (see
`fy_atom_iter_line_advances`), so `e + 1` minus it decreases. -/
def iterMeasure (it : FyAtomIter) : Nat :=
  it.e + 1 - (it.li (!it.current)).start

/-- The strip/clip trailing loop of `fy_atom_iter_format`
(fy-atom.c:725-740): walk the remaining lines, flushing the pending
newline counter before each non-empty chomped slice and counting the
line-break-terminated lines.  Returns the final state, the chunks the
loop adds (the caller appends them to the buffer), and the pending
counter.  The `iterMeasure` guard discharges termination; it holds on
every successful `fy_atom_iter_line` call
(see `fy_atom_iter_line_advances`). -/
def fy_chomp_strip_loop (it : FyAtomIter) (pending : Nat) :
    FyAtomIter × List (List Nat) × Nat :=
  let r := fy_atom_iter_line it
  match r.2 with
  | none => (r.1, [], pending)
  | some li =>
    let it2 := r.1
    let st : List (List Nat) × Nat :=
      if ¬it2.empty ∧ li.chomp_start < li.end_ then
        (List.replicate pending [0x0a] ++
            addC (fy_slice it2.atom.data li.chomp_start li.end_), 0)
      else ([], pending)
    let pending2 := if li.lb_end ∧ ¬it2.empty then st.2 + 1 else st.2
    if h : iterMeasure it2 < iterMeasure it then
      let rest := fy_chomp_strip_loop it2 pending2
      (rest.1, st.1 ++ rest.2.1, rest.2.2)
    else (it2, st.1, pending2)
termination_by iterMeasure it
decreasing_by exact h

/-- The keep trailing loop of `fy_atom_iter_format` (fy-atom.c:753-764):
walk the remaining lines, emitting each non-empty chomped slice and a
newline for each line-break-terminated line.  Returns the final state
and the chunks the loop adds. -/
def fy_chomp_keep_loop (it : FyAtomIter) : FyAtomIter × List (List Nat) :=
  let r := fy_atom_iter_line it
  match r.2 with
  | none => (r.1, [])
  | some li =>
    let it2 := r.1
    let add1 : List (List Nat) :=
      if ¬it2.empty ∧ li.chomp_start < li.end_ then
        addC (fy_slice it2.atom.data li.chomp_start li.end_)
      else []
    let add2 : List (List Nat) := if li.lb_end then [[0x0a]] else []
    if h : iterMeasure it2 < iterMeasure it then
      let rest := fy_chomp_keep_loop it2
      (rest.1, add1 ++ add2 ++ rest.2)
    else (it2, add1 ++ add2)
termination_by iterMeasure it
decreasing_by exact h

/-- Body of `fy_atom_iter_format` (fy-atom.c:515-788): pull the next
line, produce its chunks according to style, and on the last line of a
block style apply chomping.  The produced chunks, in order, are
returned as a separate list (the chunk buffer itself is untouched; the
`fy_atom_iter_format` wrapper appends them, exactly as the
`add_chunk` calls of the source do).  Returns 1 when chunks may have
been produced, 0 at the end of the atom, negative on error. -/
def fy_atom_iter_format_core (it : FyAtomIter) : FyAtomIter × List (List Nat) × Int :=
  let r := fy_atom_iter_line it
  match r.2 with
  | none => ({ r.1 with done := true }, [], 0)
  | some li =>
    let it := r.1
    if it.done then (it, [], 0)
    else
      let atom := it.atom
      let d := atom.data
      let s := li.s
      let e := li.e
      let body : List (List Nat) × Int :=
        match atom.style with
        | .FYAS_LITERAL | .FYAS_PLAIN | .FYAS_FOLDED | .FYAS_COMMENT =>
          (addC (fy_slice d s e), 0)
        | .FYAS_SINGLE_QUOTED => (fy_sq_chunks d s e, 0)
        | .FYAS_DOUBLE_QUOTED => fy_dq_chunks d s e
        | .FYAS_URI => fy_uri_chunks d s e
        | .FYAS_DOUBLE_QUOTED_MANUAL => (fy_dqm_chunks d s e, 0)
      if body.2 < 0 then (it, body.1, body.2)
      else if li.last ∧ fy_atom_style_is_block atom.style then
        let ra : FyAtomIter × List (List Nat) :=
          match atom.chomp with
          | .FYAC_STRIP | .FYAC_CLIP =>
            let pending0 : Nat := if ¬li.empty then 1 else 0
            let sl := fy_chomp_strip_loop it pending0
            if atom.chomp = .FYAC_CLIP ∧ sl.2.2 ≠ 0 then
              (sl.1, sl.2.1 ++ [[0x0a]])
            else (sl.1, sl.2.1)
          | .FYAC_KEEP =>
            let pre : List (List Nat) := if li.lb_end then [[0x0a]] else []
            let kl := fy_chomp_keep_loop it
            (kl.1, pre ++ kl.2)
        ({ ra.1 with done := true }, body.1 ++ ra.2, 1)
      else
        let post : List (List Nat) :=
          (if li.need_sep then [[0x20]] else []) ++
          (if li.need_nl then [[0x0a]] else [])
        (it, body.1 ++ post, 1)

/-- `fy_atom_iter_format` (fy-atom.c:515-788): the body above with its
chunks appended to the buffer. -/
def fy_atom_iter_format (it : FyAtomIter) : FyAtomIter × Int :=
  let r := fy_atom_iter_format_core it
  ({ r.1 with chunks := r.1.chunks ++ r.2.1 }, r.2.2)

/-- `fy_atom_iter_peek_chunk` (fy-atom.c:790-797). -/
def fy_atom_iter_peek_chunk (it : FyAtomIter) : Option (List Nat) :=
  it.chunks[it.read]?

/-- `fy_atom_iter_chunk_reset` (fy-atom.c:92-97). -/
def fy_atom_iter_chunk_reset (it : FyAtomIter) : FyAtomIter :=
  { it with chunks := [], read := 0 }

/-- The loop of `fy_atom_iter_advance` (fy-atom.c:804-822): consume
`len` bytes from the front of the buffered chunks, advancing `read`
past each fully consumed chunk. -/
def fy_atom_iter_advance_loop (chunks : List (List Nat)) (read len : Nat) :
    List (List Nat) × Nat :=
  if h : 0 < len ∧ read < chunks.length then
    let ac := chunks.getD read []
    let rlen := min len ac.length
    let ac2 := ac.drop rlen
    let chunks2 := chunks.set read ac2
    let read2 := if ac2.length = 0 then read + 1 else read
    fy_atom_iter_advance_loop chunks2 read2 (len - rlen)
  else (chunks, read)
termination_by chunks.length - read + len
decreasing_by simp only [List.length_set, List.length_drop]; split <;> omega

/-- `fy_atom_iter_advance` (fy-atom.c:799-827): the loop followed by the
reset when everything is consumed. -/
def fy_atom_iter_advance (it : FyAtomIter) (len : Nat) : FyAtomIter :=
  let r := fy_atom_iter_advance_loop it.chunks it.read len
  if r.2 ≥ r.1.length then fy_atom_iter_chunk_reset { it with chunks := r.1, read := r.2 }
  else { it with chunks := r.1, read := r.2 }

/-- The pull loop shared by `fy_atom_iter_chunk_next` (fy-atom.c:844-854)
and `fy_atom_iter_read` (fy-atom.c:968-975): run `fy_atom_iter_format`
until it reports end or error, or a chunk becomes available.  The guard
only discharges termination: a format step that returns 1 either keeps
`done` clear and advances the line machinery or sets `done` (after the
chomp phase), so the lexicographic measure decreases on every
continuing iteration (see `fy_atom_iter_format_progress`). -/
def fy_atom_iter_pull (it : FyAtomIter) : FyAtomIter × Int :=
  let r := fy_atom_iter_format it
  if r.2 ≤ 0 then r
  else if (fy_atom_iter_peek_chunk r.1).isSome then r
  else if h : it.done = false ∧ r.1.e = it.e ∧
      (r.1.done = true ∨ iterMeasure r.1 < iterMeasure it) then
    fy_atom_iter_pull r.1
  else r
termination_by (if it.done then 0 else 1 : Nat) * (it.e + 2) + iterMeasure it
decreasing_by
  have hb : iterMeasure (fy_atom_iter_format it).1 ≤ (fy_atom_iter_format it).1.e + 1 := by
    unfold iterMeasure; omega
  obtain ⟨h1, he, hor⟩ := h
  unfold r at he hor
  rw [h1]
  by_cases hd : (fy_atom_iter_format it).1.done = true
  · rw [hd]; simp; omega
  · rw [if_neg hd]; simp only [Bool.false_eq_true, if_false]
    rcases hor with h2 | h3
    · exact absurd h2 hd
    · simp; omega

/-- `fy_atom_iter_chunk_next` (fy-atom.c:829-860).  The source compares
the caller's previous chunk pointer with the current head chunk by
address; under the calling discipline (the caller passes exactly the
chunk returned by the previous call, and nothing mutates the buffer in
between) address equality coincides with the value equality used here. -/
def fy_atom_iter_chunk_next (it : FyAtomIter) (curr : Option (List Nat)) :
    FyAtomIter × Option (List Nat) × Int :=
  let ic := fy_atom_iter_peek_chunk it
  let it := if curr.isSome ∧ ic.isSome ∧ curr = ic then
      fy_atom_iter_advance it (ic.getD []).length else it
  let ic := fy_atom_iter_peek_chunk it
  if curr = none ∨ ic = none then
    let it := fy_atom_iter_chunk_reset it
    let p := fy_atom_iter_pull it
    if p.2 ≤ 0 then (p.1, none, if p.2 < 0 then -1 else 0)
    else (p.1, fy_atom_iter_peek_chunk p.1, 0)
  else (it, ic, 0)

/-- The loop of `fy_atom_iter_read` (fy-atom.c:954-976), accumulating
the bytes copied out.  Returns the final iterator, the bytes
delivered, and the return value of the call (`nread`, or -1 on error).
The `0 < nrun` guard only discharges termination: buffered chunks are
never empty (`add_chunk` drops empty chunks), so a peeked chunk always
yields at least one byte. -/
def fy_atom_iter_read_loop (it : FyAtomIter) (count : Nat) (acc : List Nat) :
    FyAtomIter × List Nat × Int :=
  if hc : 0 < count then
    if hpk : (fy_atom_iter_peek_chunk it).isSome then
      let ic := (fy_atom_iter_peek_chunk it).getD []
      let nrun := min count ic.length
      let acc2 := acc ++ ic.take nrun
      let it2 := fy_atom_iter_advance it nrun
      if h : 0 < nrun then
        fy_atom_iter_read_loop it2 (count - nrun) acc2
      else (it2, acc2, -1)
    else
      let p := fy_atom_iter_pull (fy_atom_iter_chunk_reset it)
      if p.2 ≤ 0 then
        (p.1, acc, if p.2 = 0 then (acc.length : Int) else -1)
      else if hp : (fy_atom_iter_peek_chunk p.1).isSome then
        fy_atom_iter_read_loop p.1 count acc
      else (p.1, acc, -1)
  else (it, acc, (acc.length : Int))
termination_by 2 * count + (if (fy_atom_iter_peek_chunk it).isSome then 0 else 1)
decreasing_by
  · have h' : 0 < count ⊓ ((fy_atom_iter_peek_chunk it).getD []).length := h
    split <;> omega
  · unfold p at hp
    rw [if_pos hp, if_neg hpk]
    omega

/-- `fy_atom_iter_read` (fy-atom.c:944-979). -/
def fy_atom_iter_read (it : FyAtomIter) (count : Nat) : FyAtomIter × List Nat × Int :=
  fy_atom_iter_read_loop it count []

/-- `fy_atom_iter_getc` (fy-atom.c:981-1003): pushed-back character
first, otherwise one byte via `fy_atom_iter_read`. -/
def fy_atom_iter_getc (it : FyAtomIter) : FyAtomIter × Int :=
  if it.unget_c ≠ -1 then
    ({ it with unget_c := -1 }, it.unget_c.emod 256)
  else
    let r := fy_atom_iter_read it 1
    if r.2.2 ≠ 1 then (r.1, -1)
    else
      match r.2.1 with
      | [b] => (r.1, ((b % 256 : Nat) : Int))
      | _ => (r.1, -1)

/-- `fy_atom_iter_ungetc` (fy-atom.c:1005-1018).  `c & 0xff` on a
two's-complement `int` is `c.emod 256`. -/
def fy_atom_iter_ungetc (it : FyAtomIter) (c : Int) : FyAtomIter × Int :=
  if it.unget_c ≠ -1 then (it, -1)
  else if c = -1 then ({ it with unget_c := -1 }, 0)
  else ({ it with unget_c := c.emod 256 }, c.emod 256)

/-- `fy_atom_iter_peekc` (fy-atom.c:1020-1029). -/
def fy_atom_iter_peekc (it : FyAtomIter) : FyAtomIter × Int :=
  let g := fy_atom_iter_getc it
  if g.2 = -1 then (g.1, -1)
  else fy_atom_iter_ungetc g.1 g.2

/-- Bytes currently buffered and not yet consumed. -/
def bufBytes (it : FyAtomIter) : Nat :=
  ((it.chunks.drop it.read).map List.length).sum

/-- All chunks the format step will still produce, paired with the
final return code (0 at the end, negative on error; the chunks of an
erroring step are not included, matching the pull loops, which discard
them).  This is the reference semantics of the chunk stream; the guard
discharges termination as in `fy_atom_iter_pull`. -/
def fy_future_chunks (it : FyAtomIter) : List (List Nat) × Int :=
  let r := fy_atom_iter_format it
  if r.2 ≤ 0 then ([], r.2)
  else
    let added := r.1.chunks.drop it.chunks.length
    if h : it.done = false ∧ r.1.e = it.e ∧
        (r.1.done = true ∨ iterMeasure r.1 < iterMeasure it) then
      let rest := fy_future_chunks r.1
      (added ++ rest.1, rest.2)
    else (added, 0)
termination_by (if it.done then 0 else 1 : Nat) * (it.e + 2) + iterMeasure it
decreasing_by
  have hb : iterMeasure (fy_atom_iter_format it).1 ≤ (fy_atom_iter_format it).1.e + 1 := by
    unfold iterMeasure; omega
  obtain ⟨h1, he, hor⟩ := h
  unfold r at he hor
  rw [h1]
  by_cases hd : (fy_atom_iter_format it).1.done = true
  · rw [hd]; simp; omega
  · rw [if_neg hd]; simp only [Bool.false_eq_true, if_false]
    rcases hor with h2 | h3
    · exact absurd h2 hd
    · simp; omega

/-- Bytes the iterator can still deliver: the pushed-back character,
the buffered bytes, and the bytes of all future chunks.  Used as a
termination measure for the `getc`-driven scanning loops. -/
def iterRemBytes (it : FyAtomIter) : Nat :=
  (if it.unget_c ≠ -1 then 1 else 0) + bufBytes it +
    ((fy_future_chunks it).1.map List.length).sum

/-- The chunk-collection loop shared by `fy_atom_format_text_length`
(fy-atom.c:877-879) and `fy_atom_format_text` (fy-atom.c:906-913):
`ic = NULL; while ((ic = fy_atom_iter_chunk_next(iter, ic, &ret)))`.
Returns the chunks yielded and the final error code.  The guard
discharges termination (each continuing call either consumes a
non-empty buffered chunk or advances the line machinery). -/
def fy_atom_collect (it : FyAtomIter) (curr : Option (List Nat)) :
    FyAtomIter × List (List Nat) × Int :=
  let r := fy_atom_iter_chunk_next it curr
  match r.2.1 with
  | none => (r.1, [], r.2.2)
  | some c =>
    let d0 : Nat := if it.done then 0 else 1
    let d1 : Nat := if r.1.done then 0 else 1
    if h : (d1 < d0) ∨ (d1 = d0 ∧ iterMeasure r.1 < iterMeasure it) ∨
        (d1 = d0 ∧ iterMeasure r.1 = iterMeasure it ∧
         bufBytes r.1 + 1 < bufBytes it + (if curr.isSome then 1 else 0)) then
      let rest := fy_atom_collect r.1 (some c)
      (rest.1, c :: rest.2.1, rest.2.2)
    else (r.1, [c], 0)
termination_by ((if it.done then 0 else 1 : Nat), iterMeasure it,
  bufBytes it + (if curr.isSome then 1 else 0))
decreasing_by
  unfold d1 d0 r at h
  simp only [dite_eq_ite] at h
  rcases h with h1 | ⟨h2a, h2b⟩ | ⟨h3a, h3b, h3c⟩
  · exact Prod.Lex.left _ _ h1
  · rw [h2a]
    exact Prod.Lex.right _ (Prod.Lex.left _ _ h2b)
  · rw [h3a, h3b]
    exact Prod.Lex.right _ (Prod.Lex.right _ (by simpa using h3c))

/-- Conversion of a `size_t` value to a C `int` (two's complement). -/
def c_int_cast (n : Nat) : Int :=
  let m : Nat := n % 2 ^ 32
  if m < 2 ^ 31 then (m : Int) else (m : Int) - 2 ^ 32

/-- `fy_atom_format_text_length` (fy-atom.c:862-892): cached hint if
valid, otherwise sum the chunk lengths, cache and return (with the
negative-on-cast and error checks of the source).  Returns the result
and the possibly updated atom. -/
def fy_atom_format_text_length (atomOpt : Option FyAtom) : Int × Option FyAtom :=
  match atomOpt with
  | none => (-1, none)
  | some atom =>
    if atom.storage_hint_valid then (c_int_cast atom.storage_hint, some atom)
    else
      let col := fy_atom_collect (fy_atom_iter_start atom) none
      let len := (col.2.1.map List.length).sum
      let ret := col.2.2
      if c_int_cast len < 0 then (-1, some atom)
      else if ret ≠ 0 then (ret, some atom)
      else (c_int_cast len,
        some { atom with storage_hint := len, storage_hint_valid := true })

/-- The copy loop of `fy_atom_format_text` (fy-atom.c:906-913): each
chunk must fit into the remaining room or the call fails (`none`).
The source interleaves pulling and copying; since a failed call
returns NULL regardless of where the failure occurred, copying the
collected chunk list is equivalent. -/
def fy_copy_chunks (chunks : List (List Nat)) (room : Nat) : Option (List Nat) :=
  match chunks with
  | [] => some []
  | c :: rest =>
    if room < c.length then none
    else (fy_copy_chunks rest (room - c.length)).map (fun t => c ++ t)

/-- `fy_atom_format_text` (fy-atom.c:894-920): materialize the decoded
text into a buffer of size `maxsz`; `none` on overflow or iterator
error (the source returns NULL; the returned bytes model what was
written to the buffer on success, with the returned pointer
`buf + bytes.length`). -/
def fy_atom_format_text (atomOpt : Option FyAtom) (maxsz : Nat) : Option (List Nat) :=
  match atomOpt with
  | none => none
  | some atom =>
    let col := fy_atom_collect (fy_atom_iter_start atom) none
    match fy_copy_chunks col.2.1 maxsz with
    | none => none
    | some bytes => if col.2.2 ≠ 0 then none else some bytes

/-- `memcmp` over the first `n` bytes (sign contract: the difference
of the first mismatching bytes, as unsigned chars). -/
def fy_memcmp (l1 l2 : List Nat) (n : Nat) : Int :=
  match n, l1, l2 with
  | 0, _, _ => 0
  | n + 1, a :: r1, b :: r2 =>
    if a ≠ b then (a : Int) - (b : Int) else fy_memcmp r1 r2 n
  | _ + 1, _, _ => 0

/-- The iterator comparison loop of `fy_atom_memcmp` (fy-atom.c:1122-1138)
together with the post-loop result computation: `ct` is the last byte
read from the pointer side (-1 initially). -/
def fy_atom_memcmp_loop (it : FyAtomIter) (l : List Nat) (ct : Int) : Int :=
  let g := fy_atom_iter_getc it
  let c := g.2
  if h : 0 ≤ c ∧ l ≠ [] then
    let ct2 : Int := (((l.headD 0) % 256 : Nat) : Int)
    if ct2 ≠ c then (if ct2 > c then -1 else 1)
    else fy_atom_memcmp_loop g.1 l.tail ct2
  else
    if c = -1 ∧ l = [] then 0
    else if ct > c then -1 else 1
termination_by l.length
decreasing_by
  have hne : l ≠ [] := h.2
  cases l with
  | nil => exact absurd rfl hne
  | cons a r => simp [List.tail]

/-- `fy_atom_memcmp` (fy-atom.c:1091-1139).  The `ptr`/`len` pair is
modelled as `Option (List Nat)` (`none` for NULL; the length is the
list length, so a non-NULL pointer with length 0 is `some []`). -/
def fy_atom_memcmp (atomOpt : Option FyAtom) (ptr : Option (List Nat)) : Int :=
  match atomOpt, ptr with
  | none, none => 0
  | none, some _ => -1
  | some _, none => 1
  | some _, some [] => 1
  | some atom, some l =>
    if atom.direct_output then
      let dlen := fy_atom_size atom
      let dstr := fy_atom_data atom
      let tlen := min dlen l.length
      let ret := fy_memcmp dstr l tlen
      if ret ≠ 0 then ret
      else if dlen = l.length then 0
      else if l.length > dlen then -1
      else 1
    else
      fy_atom_memcmp_loop (fy_atom_iter_start atom) l (-1)

/-- `fy_atom_strcmp` (fy-atom.c:1141-1148): a NULL string compares as
length 0 (which `fy_atom_memcmp` receives as a NULL pointer with
length 0, i.e. `none`). -/
def fy_atom_strcmp (atomOpt : Option FyAtom) (str : Option (List Nat)) : Int :=
  fy_atom_memcmp atomOpt str

/-- `isdigit` of the C locale on a byte value. -/
def c_isdigit (c : Int) : Bool := 0x30 ≤ c ∧ c ≤ 0x39

/-- A digit-skipping loop of `fy_atom_is_number`
(e.g. fy-atom.c:1171-1174): `while ((c = peekc) >= 0 && isdigit(c))
getc;`, counting the characters consumed.  The guard discharges
termination: a successful `getc` consumes one byte of the remaining
stream. -/
def fy_skip_digits (it : FyAtomIter) (len : Nat) : FyAtomIter × Nat :=
  let p := fy_atom_iter_peekc it
  if 0 ≤ p.2 ∧ c_isdigit p.2 then
    let g := fy_atom_iter_getc p.1
    if h : iterRemBytes g.1 < iterRemBytes it then
      fy_skip_digits g.1 (len + 1)
    else (g.1, len + 1)
  else (p.1, len)
termination_by iterRemBytes it
decreasing_by exact h

/-- `fy_atom_is_number` (fy-atom.c:1150-1215): scan an optional sign,
digits, an optional dot with digits, an optional exponent with
optional sign and digits; accept iff at least one character was
consumed and the stream is exhausted. -/
def fy_atom_is_number (atomOpt : Option FyAtom) : Bool :=
  match atomOpt with
  | none => false
  | some atom =>
    if atom.size0 then false
    else
      let it := fy_atom_iter_start atom
      let len : Nat := 0
      let p := fy_atom_iter_peekc it
      let st : FyAtomIter × Nat :=
        if p.2 = 0x2b ∨ p.2 = 0x2d then ((fy_atom_iter_getc p.1).1, len + 1)
        else (p.1, len)
      let st := fy_skip_digits st.1 st.2
      let p := fy_atom_iter_peekc st.1
      let st :=
        if p.2 = 0x2e then
          let g := fy_atom_iter_getc p.1
          fy_skip_digits g.1 (st.2 + 1)
        else (p.1, st.2)
      let p := fy_atom_iter_peekc st.1
      let st :=
        if p.2 = 0x65 ∨ p.2 = 0x45 then
          let g := fy_atom_iter_getc p.1
          let len2 := st.2 + 1
          let p2 := fy_atom_iter_peekc g.1
          let st2 : FyAtomIter × Nat :=
            if p2.2 = 0x2b ∨ p2.2 = 0x2d then ((fy_atom_iter_getc p2.1).1, len2 + 1)
            else (p2.1, len2)
          fy_skip_digits st2.1 st2.2
        else (p.1, st.2)
      let p := fy_atom_iter_peekc st.1
      p.2 < 0 ∧ 0 < st.2

/-- The lockstep comparison loop of `fy_atom_cmp` (fy-atom.c:1266-1278),
including the result computation.  The guard discharges termination
(each continuing iteration consumes a byte from the first iterator). -/
def fy_atom_cmp_loop (it1 it2 : FyAtomIter) : Int :=
  let g1 := fy_atom_iter_getc it1
  let g2 := fy_atom_iter_getc it2
  let c1 := g1.2
  let c2 := g2.2
  if c1 = c2 ∧ 0 ≤ c1 ∧ 0 ≤ c2 then
    if h : iterRemBytes g1.1 < iterRemBytes it1 then
      fy_atom_cmp_loop g1.1 g2.1
    else (if c1 = -1 ∧ c2 = -1 then 0 else if c2 > c1 then -1 else 1)
  else (if c1 = -1 ∧ c2 = -1 then 0 else if c2 > c1 then -1 else 1)
termination_by iterRemBytes it1
decreasing_by exact h

/-- `fy_atom_cmp` (fy-atom.c:1217-1279).  The source first compares the
two atom pointers (`atom1 == atom2`, returning C `true`, i.e. 1);
object identity is not derivable from the value embedding, so it is
passed explicitly as `same` (callers pass `same = true` exactly when
both arguments are the same object, which also covers the NULL-NULL
case). -/
def fy_atom_cmp (atom1 atom2 : Option FyAtom) (same : Bool) : Int :=
  if same then 1
  else
    match atom1, atom2 with
    | none, _ => 0
    | _, none => 0
    | some a1, some a2 =>
      let d1 : Option (List Nat) :=
        if a1.direct_output then some (fy_atom_data a1) else none
      let d2 : Option (List Nat) :=
        if a2.direct_output then some (fy_atom_data a2) else none
      match d1, d2 with
      | some s1, some s2 =>
        let l := min s1.length s2.length
        let ret := fy_memcmp s1 s2 l
        if ret ≠ 0 then ret
        else if s1.length = s2.length then 0
        else if s2.length > s1.length then -1
        else 1
      | none, some s2 => fy_atom_memcmp (some a1) (some s2)
      | some s1, none => -(fy_atom_memcmp (some a2) (some s1))
      | none, none =>
        fy_atom_cmp_loop (fy_atom_iter_start a1) (fy_atom_iter_start a2)

/-- Concatenation of a chunk list into the byte stream it denotes. -/
def chunkConcat (l : List (List Nat)) : List Nat :=
  l.foldr (fun c acc => c ++ acc) []

/-- The decoded (logical) content of an atom: the bytes of all chunks
its iterator produces. -/
def fy_atom_decoded (atom : FyAtom) : List Nat :=
  chunkConcat (fy_future_chunks (fy_atom_iter_start atom)).1

/-- The column/line tracking loop of `fy_emit_write` (fy-emit.c:117-144):
a CR-LF pair counts as one line break, any line break resets the column
and bumps the line, an `ESC [ … m` sequence is skipped wholesale
(`memchr` searches the whole remaining buffer for the `m`), anything
else advances the column by one per code point; an undecodable byte
stops the scan.  The guards discharge termination. -/
def fy_emit_write_scan (line col : Nat) (l : List Nat) : Nat × Nat :=
  let cw := fy_utf8_get l
  let c := cw.1
  let w := cw.2
  if c = -1 then (line, col)
  else if h : c = 0x0d ∧ 1 < l.length ∧ l.getD 1 0 = 0x0a then
    fy_emit_write_scan (line + 1) 0 (l.drop 2)
  else if fy_is_lb c then
    (if h : 0 < w ∧ 0 < l.length then fy_emit_write_scan (line + 1) 0 (l.drop w)
     else (line + 1, 0))
  else if h : c = 0x1b ∧ 2 < l.length ∧ l.getD 1 0 = 0x5b ∧ (fy_memchr l 0x6d).isSome then
    fy_emit_write_scan line col (l.drop ((fy_memchr l 0x6d).getD 0 + 1))
  else
    (if h : 0 < w ∧ 0 < l.length then fy_emit_write_scan line (col + 1) (l.drop w)
     else (line, col + 1))
termination_by l.length
decreasing_by
  · simp only [List.length_drop]; omega
  · simp only [List.length_drop]; unfold w cw at h; omega
  · simp only [List.length_drop]; omega
  · simp only [List.length_drop]; unfold w cw at h; omega

/-- Modelled from the spec: the emitter mode extracted from the
`FYECF_MODE` bitfield of the configuration flags (fy-emit.h is not
among the provided sources; the bit packing has no semantic content). -/
inductive FyEmitterMode where
  | FYECF_MODE_BLOCK
  | FYECF_MODE_FLOW
  | FYECF_MODE_FLOW_ONELINE
  | FYECF_MODE_JSON
  | FYECF_MODE_JSON_TP
  | FYECF_MODE_JSON_ONELINE
deriving DecidableEq, Repr

/-- The emitter state, restricted to the fields the verified claims
touch: mode (from the configuration), position tracking, and the
output-error latch.  `log` records the byte strings passed to the
user's output callback (the observable effect of `emit->cfg->output`). -/
structure FyEmitter where
  mode : FyEmitterMode
  line : Nat
  column : Nat
  output_error : Bool
  log : List (List Nat)
deriving DecidableEq, Repr

/-- `fy_emit_is_json_mode` (fy-emit.c:44-49). -/
def fy_emit_is_json_mode (emit : FyEmitter) : Bool :=
  emit.mode = .FYECF_MODE_JSON ∨ emit.mode = .FYECF_MODE_JSON_TP ∨
    emit.mode = .FYECF_MODE_JSON_ONELINE

/-- `fy_emit_is_flow_mode` (fy-emit.c:51-56). -/
def fy_emit_is_flow_mode (emit : FyEmitter) : Bool :=
  emit.mode = .FYECF_MODE_FLOW ∨ emit.mode = .FYECF_MODE_FLOW_ONELINE

/-- `fy_emit_write` (fy-emit.c:103-145): nothing happens for an empty
write; otherwise the bytes are passed to the output callback `cb`
(whose return value is the count it claims to have written), the
`output_error` latch is set on a short count, and line/column are
updated.  The write-type tag is pass-through metadata and is omitted. -/
def fy_emit_write (cb : List Nat → Int) (emit : FyEmitter) (str : List Nat) : FyEmitter :=
  if str.length = 0 then emit
  else
    let outlen := cb str
    let emit := { emit with log := emit.log ++ [str] }
    let emit := if outlen ≠ (str.length : Int) then
        { emit with output_error := true } else emit
    let lc := fy_emit_write_scan emit.line emit.column str
    { emit with line := lc.1, column := lc.2 }

/-- `enum fy_node_style` (libfyaml.h). -/
inductive FyNodeStyle where
  | FYNS_ANY
  | FYNS_FLOW
  | FYNS_BLOCK
  | FYNS_PLAIN
  | FYNS_SINGLE_QUOTED
  | FYNS_DOUBLE_QUOTED
  | FYNS_LITERAL
  | FYNS_FOLDED
  | FYNS_ALIAS
deriving DecidableEq, Repr

/-- Modelled from the spec: the token as the scalar style selector sees
it — it carries an atom, and its text analysis may report "direct
output" (`fy_token_text_analyze` and `FYTTAF_DIRECT_OUTPUT` are not
among the provided sources; the spec: "plain when the token's text
analysis allows direct output"). -/
structure FyToken where
  atom : Option FyAtom
  direct_output_analysis : Bool
deriving DecidableEq, Repr

/-- `fy_token_atom` on a possibly NULL token. -/
def fy_token_atom (fyt : Option FyToken) : Option FyAtom :=
  fyt.bind (fun t => t.atom)

/-- Modelled from the spec: `fy_token_get_text` materializes the
token's text, i.e. the decoded content of its atom (empty for a token
without an atom). -/
def fy_token_get_text (fyt : FyToken) : List Nat :=
  match fyt.atom with
  | none => []
  | some a => fy_atom_decoded a

/-- Modelled from the spec: `fy_token_get_text_length`. -/
def fy_token_get_text_length (fyt : FyToken) : Nat :=
  (fy_token_get_text fyt).length

/-- Modelled from the spec: `fy_find_lb` — does the value contain a
line break? -/
def fy_find_lb (l : List Nat) : Bool :=
  l.any (fun b => fy_is_lb (b : Int))

/-- Modelled from the spec: `fy_find_non_print` — does the value
contain a non-printable code point (or an undecodable byte)? -/
def fy_find_non_print (l : List Nat) : Bool :=
  let cw := fy_utf8_get l
  if cw.1 = -1 then ¬(l = [])
  else if ¬fy_is_print cw.1 then true
  else if h : 0 < cw.2 ∧ 0 < l.length then fy_find_non_print (l.drop cw.2)
  else true
termination_by l.length
decreasing_by simp only [List.length_drop]; unfold cw at h; omega

/-- Modelled from the spec: the `DDNF_FLOW` flag bit of the emitter's
internal flag word (fy-emit.h is not among the provided sources; the
exact bit position has no semantic content). -/
def DDNF_FLOW : Nat := 0x02

/-- `fy_emit_token_scalar_style` (fy-emit.c:1037-1110): resolve the
requested node style for a scalar token under the current emitter
mode.  `outResolve` is the `out:` epilogue resolving `FYNS_ANY` via
the token's text analysis. -/
def fy_emit_token_scalar_style (emit : FyEmitter) (fyt : Option FyToken)
    (flags : Nat) (style0 : FyNodeStyle) : FyNodeStyle :=
  let atom := fy_token_atom fyt
  let outResolve : FyNodeStyle → FyNodeStyle := fun st =>
    if st = .FYNS_ANY then
      (if (match fyt with | some t => t.direct_output_analysis | none => false) then
        FyNodeStyle.FYNS_PLAIN else FyNodeStyle.FYNS_DOUBLE_QUOTED)
    else st
  let style := if flags &&& DDNF_FLOW ≠ 0 ∧
      (style0 = .FYNS_LITERAL ∨ style0 = .FYNS_FOLDED) then
      FyNodeStyle.FYNS_ANY else style0
  let json := fy_emit_is_json_mode emit
  if json ∧ (style = .FYNS_LITERAL ∨ style = .FYNS_FOLDED) then
    outResolve .FYNS_DOUBLE_QUOTED
  else if json ∧ style = .FYNS_PLAIN ∧
      (match atom with
       | none => true
       | some a => (a.size0 ∨
           fy_atom_strcmp (some a) (some [0x66, 0x61, 0x6c, 0x73, 0x65]) = 0 ∨
           fy_atom_strcmp (some a) (some [0x74, 0x72, 0x75, 0x65]) = 0 ∨
           fy_atom_strcmp (some a) (some [0x6e, 0x75, 0x6c, 0x6c]) = 0 ∨
           fy_atom_is_number (some a) : Bool) : Bool) = true then
    outResolve .FYNS_PLAIN
  else if json then
    outResolve .FYNS_DOUBLE_QUOTED
  else
    let flow := fy_emit_is_flow_mode emit
    let style := if flow ∧ (fyt = none ∨
        ((match fyt with
          | some t => (fy_token_get_text_length t = 0 : Bool)
          | none => true : Bool) = true)) then
        FyNodeStyle.FYNS_DOUBLE_QUOTED else style
    if flow ∧ (style = .FYNS_ANY ∨ style = .FYNS_LITERAL ∨ style = .FYNS_FOLDED) then
      let value := match fyt with | some t => fy_token_get_text t | none => []
      if fy_find_lb value then outResolve .FYNS_DOUBLE_QUOTED
      else if ¬fy_find_non_print value then outResolve .FYNS_SINGLE_QUOTED
      else outResolve .FYNS_DOUBLE_QUOTED
    else outResolve style

/-- Whether decoding the atom completes without a malformed-escape
error (final return code of the chunk stream is 0). -/
def fy_atom_error_free (atom : FyAtom) : Bool :=
  (fy_future_chunks (fy_atom_iter_start atom)).2 = 0

/-- Repeated `fy_atom_iter_getc`: the results of the first `n` calls. -/
def fy_getc_seq (it : FyAtomIter) (n : Nat) : FyAtomIter × List Int :=
  match n with
  | 0 => (it, [])
  | n + 1 =>
    let g := fy_atom_iter_getc it
    let r := fy_getc_seq g.1 n
    (r.1, g.2 :: r.2)

/-- Successive `fy_atom_iter_read` calls with the given counts; returns
the concatenation of the bytes they deliver. -/
def fy_read_seq (it : FyAtomIter) (ns : List Nat) : FyAtomIter × List Nat :=
  match ns with
  | [] => (it, [])
  | n :: rest =>
    let r := fy_atom_iter_read it n
    let r2 := fy_read_seq r.1 rest
    (r2.1, r.2.1 ++ r2.2)

/-- Number of trailing line-break characters of a byte string. -/
def trailingLbCount (l : List Nat) : Nat :=
  (l.reverse.takeWhile (fun b => fy_is_lb (b : Int))).length

/-- A scanner-shaped block-style atom: one content line `L` (no line
breaks) followed by `n` trailing newline characters, with increment 0
and the property bits the scanner would set for such a span. -/
def mkBlockAtom (style : FyAtomStyle) (chomp : FyAtomChomp) (L : List Nat) (n : Nat) : FyAtom :=
  { data := L ++ List.replicate n 0x0a,
    style := style, chomp := chomp, increment := 0,
    start_mark := ⟨0, 0, 0⟩, end_mark := ⟨L.length + n, n, 0⟩,
    storage_hint := 0, storage_hint_valid := false,
    direct_output := false, empty := false,
    has_lb := true, has_ws := L.any (fun b => fy_is_ws (b : Int)),
    starts_with_ws := match L.head? with
      | some b => fy_is_ws (b : Int)
      | none => false,
    starts_with_lb := L = [], ends_with_ws := false,
    ends_with_lb := 0 < n, trailing_lb := 2 ≤ n,
    size0 := L = [] ∧ n = 0 }

/-- Byte is a decimal digit. -/
def digitByte (b : Nat) : Bool := 0x30 ≤ b ∧ b ≤ 0x39

/-- Drop one leading sign character if present. -/
def dropSign (l : List Nat) : List Nat :=
  match l with
  | b :: r => if b = 0x2b ∨ b = 0x2d then r else l
  | [] => []

/-- The tail of the number patterns of claim C5: an optional fractional
part introduced by a dot, then an optional `e`/`E` exponent with an
optional sign and digits, consuming the whole rest. -/
def numTail (l : List Nat) : Bool :=
  let l3 := match l with
    | 0x2e :: r => r.dropWhile digitByte
    | _ => l
  let l4 := match l3 with
    | b :: r => if b = 0x65 ∨ b = 0x45 then (dropSign r).dropWhile digitByte else l3
    | [] => []
  l4 = []

/-- The number pattern as claim C5 states it: an optional sign, then
decimal digits (at least one), then the optional fraction and exponent
parts, consuming the whole content. -/
def claimNumber (l : List Nat) : Bool :=
  (l ≠ []) ∧ ((dropSign l).takeWhile digitByte ≠ []) ∧
    numTail ((dropSign l).dropWhile digitByte)

/-- The number pattern the code actually recognizes: as `claimNumber`,
but every digit run may be empty; only the content as a whole must be
non-empty and fully consumed. -/
def relaxedNumber (l : List Nat) : Bool :=
  (l ≠ []) ∧ numTail ((dropSign l).dropWhile digitByte)

/-- A token of the emitter byte stream as claim C4 enumerates them:
a line break (a CR-LF pair counting as one), an ANSI CSI sequence of
the form `ESC [ … m`, or a single code point. -/
inductive EmitTok where
  | brk
  | csi
  | chr
deriving DecidableEq, Repr

/-- The tokenization of a byte stream per claim C4: CR-LF pairs and
line breaks are breaks, `ESC [ … m` (through the first `m`) is a CSI
sequence, every other code point is a character; a byte sequence that
does not decode fails (`none`) — the claim speaks of code points. -/
def emitTokenize (l : List Nat) : Option (List EmitTok) :=
  let cw := fy_utf8_get l
  let c := cw.1
  let w := cw.2
  if l = [] then some []
  else if c = -1 then none
  else if h : c = 0x0d ∧ 1 < l.length ∧ l.getD 1 0 = 0x0a then
    (emitTokenize (l.drop 2)).map (fun t => EmitTok.brk :: t)
  else if fy_is_lb c then
    (if h : 0 < w ∧ 0 < l.length then
      (emitTokenize (l.drop w)).map (fun t => EmitTok.brk :: t)
     else none)
  else if h : c = 0x1b ∧ 2 < l.length ∧ l.getD 1 0 = 0x5b ∧ (fy_memchr l 0x6d).isSome then
    (emitTokenize (l.drop ((fy_memchr l 0x6d).getD 0 + 1))).map (fun t => EmitTok.csi :: t)
  else
    (if h : 0 < w ∧ 0 < l.length then
      (emitTokenize (l.drop w)).map (fun t => EmitTok.chr :: t)
     else none)
termination_by l.length
decreasing_by
  · simp only [List.length_drop]; omega
  · simp only [List.length_drop]; unfold w cw at h; omega
  · simp only [List.length_drop]; omega
  · simp only [List.length_drop]; unfold w cw at h; omega

/-- Number of line breaks in a token stream. -/
def tokBreaks (toks : List EmitTok) : Nat :=
  toks.count EmitTok.brk

/-- Number of character tokens after the last break (the whole stream
when it has no break): the code points "written since the last line
break" of claim C4, CSI sequences counting as zero. -/
def tokColumn (col0 : Nat) (toks : List EmitTok) : Nat :=
  if tokBreaks toks = 0 then col0 + toks.count EmitTok.chr
  else ((toks.reverse.takeWhile (fun t => t ≠ EmitTok.brk)).count EmitTok.chr)

/-- Well-formedness of a pending line-info slot: either it is already
exhausted, or its `end_` marker does not precede its start and points
at the end of the span or at a byte from which the next line start can
advance (a decodable first octet).  `fy_atom_iter_line_analyze` always
produces such slots, and the slot invariant is what makes every
successful `fy_atom_iter_line` call advance (`iterMeasure` decreases). -/
def SlotOk (d : List Nat) (e : Nat) (li : LineInfo) : Prop :=
  e ≤ li.start ∨
    (li.start ≤ li.end_ ∧
      (e ≤ li.end_ ∨ 1 ≤ fy_utf8_width_by_first_octet (d.getD li.end_ 0)))

/-- The iterator invariant: once `done` is set the format step is a
no-op, otherwise the pending (not yet returned) line slot is
well-formed. -/
def IterInvD (it : FyAtomIter) : Prop :=
  it.done = true ∨ SlotOk it.atom.data it.e (it.li (!it.current))

/-- Well-formed chunk list: chunks are never empty and hold byte
values (`add_chunk` drops empty chunks and all produced bytes are
octets). -/
def ChunksOk (cs : List (List Nat)) : Prop :=
  ∀ c ∈ cs, c ≠ [] ∧ ∀ b ∈ c, b < 256

/-- Buffer well-formedness: the read index never passes the chunk
count, and the unconsumed chunks are well formed. -/
def BufOk (it : FyAtomIter) : Prop :=
  it.read ≤ it.chunks.length ∧ ChunksOk (it.chunks.drop it.read)

/-- Atom data holds byte values (in the source `data` is a byte
buffer). -/
def DataOk (atom : FyAtom) : Prop :=
  ∀ b ∈ atom.data, b < 256

/-- The fields of the iterator that the line/format machinery never
writes. -/
def SameCore (it it' : FyAtomIter) : Prop :=
  it'.atom = it.atom ∧ it'.e = it.e ∧ it'.chomp = it.chomp ∧
  it'.tabsize = it.tabsize ∧ it'.single_line = it.single_line ∧
  it'.dangling_end_quote = it.dangling_end_quote ∧ it'.empty = it.empty ∧
  it'.unget_c = it.unget_c

/-- The byte stream an iterator in the middle of a `chunk_next`
traversal can still deliver: the unconsumed buffered chunks (minus the
chunk the caller currently holds, which the next call consumes) and
all future chunks. -/
def iterStream (it : FyAtomIter) (curr : Option (List Nat)) : List Nat :=
  chunkConcat ((it.chunks.drop it.read).drop (if curr.isSome then 1 else 0)) ++
    chunkConcat (fy_future_chunks it).1

/-- Repeated `fy_atom_iter_getc` calls until -1 (the usage pattern of
the scanning helpers in fy-atom.c), fuel-bounded: collect the returned
values until -1 or the fuel runs out. -/
def fy_atom_iter_getcRun (it : FyAtomIter) (fuel : Nat) : List Int :=
  match fuel with
  | 0 => []
  | fuel + 1 =>
    let g := fy_atom_iter_getc it
    if g.2 = -1 then [] else g.2 :: fy_atom_iter_getcRun g.1 fuel

/-- Successive `fy_atom_iter_read` calls with the given counts,
concatenating the delivered bytes. -/
def fy_atom_readSeq (it : FyAtomIter) (counts : List Nat) : List Nat :=
  match counts with
  | [] => []
  | k :: ks =>
    let r := fy_atom_iter_read it k
    r.2.1 ++ fy_atom_readSeq r.1 ks

/-- A direct-output atom over the given bytes (single line, plain
style), as produced for simple scalars that need no decoding. -/
def mkDirectAtom (L : List Nat) : FyAtom :=
  { data := L,
    style := .FYAS_PLAIN, chomp := .FYAC_CLIP, increment := 0,
    start_mark := ⟨0, 0, 0⟩, end_mark := ⟨L.length, 0, L.length⟩,
    storage_hint := 0, storage_hint_valid := false,
    direct_output := true, empty := L = [],
    has_lb := false, has_ws := false,
    starts_with_ws := false, starts_with_lb := false,
    ends_with_ws := false, ends_with_lb := false, trailing_lb := false,
    size0 := L = [] }

/-- Invariants of a "resting" iterator between `getc` calls: the line
machinery invariant, octet data, a well-formed buffer, no pending
error, and an empty pushback slot. -/
def IterBase (it : FyAtomIter) : Prop :=
  IterInvD it ∧ (∀ b ∈ it.atom.data, b < 256) ∧
  ChunksOk (it.chunks.drop it.read) ∧
  (fy_future_chunks it).2 = 0 ∧ it.unget_c = -1

/-- Iterator state as the `getc`/`peekc` scanning loops see it: either
a resting iterator whose stream is `L`, or a resting iterator with one
byte of `L` pushed back via `ungetc`. -/
def IterPS (it : FyAtomIter) (L : List Nat) : Prop :=
  (IterBase it ∧ iterStream it none = L) ∨
  (∃ S b rest, IterBase S ∧ iterStream S none = rest ∧ b < 256 ∧
    L = b :: rest ∧ it = { S with unget_c := (b : Int) })

/-! ## Theorems -/

theorem lor_low_eq_add (x k i : Nat) (hx : x < 2 ^ i) :
    (2 ^ i * k) ||| x = 2 ^ i * k + x :=
  (Nat.mul_add_lt_is_or hx k).symm

theorem byte_and_128_of_lt (b : Nat) (h : b < 0x80) : b &&& 0x80 = 0 := by
  have : ∀ x < 0x80, x &&& 0x80 = 0 := by decide
  exact this b h

theorem shiftRight6_eq (c : Nat) : c >>> 6 = c / 64 := by
  rw [Nat.shiftRight_eq_div_pow]

theorem shiftRight12_eq (c : Nat) : c >>> 12 = c / 4096 := by
  rw [Nat.shiftRight_eq_div_pow]

theorem shiftRight18_eq (c : Nat) : c >>> 18 = c / 262144 := by
  rw [Nat.shiftRight_eq_div_pow]

theorem and63_eq (c : Nat) : c &&& 0x3f = c % 64 := by
  have := Nat.and_pow_two_sub_one_eq_mod c 6
  norm_num at this
  exact this

theorem put2_eq (c : Nat) (h1 : 0x80 ≤ c) (h2 : c < 0x800) :
    fy_utf8_put_unchecked c = [0xc0 + c / 64, 0x80 + c % 64] := by
  unfold fy_utf8_put_unchecked
  rw [if_neg (by omega), if_pos h2]
  have e1 : (c >>> 6) ||| 0xc0 = 0xc0 + c / 64 := by
    rw [shiftRight6_eq, Nat.lor_comm]
    have : (0xc0 : Nat) = 2 ^ 6 * 3 := by norm_num
    rw [this, lor_low_eq_add _ _ _ (by omega)]
  have e2 : (c &&& 0x3f) ||| 0x80 = 0x80 + c % 64 := by
    rw [and63_eq, Nat.lor_comm]
    have : (0x80 : Nat) = 2 ^ 7 * 1 := by norm_num
    rw [this, lor_low_eq_add _ _ _ (by omega)]
  rw [e1, e2]

theorem put3_eq (c : Nat) (h1 : 0x800 ≤ c) (h2 : c < 0x10000) :
    fy_utf8_put_unchecked c =
      [0xe0 + c / 4096, 0x80 + c / 64 % 64, 0x80 + c % 64] := by
  unfold fy_utf8_put_unchecked
  rw [if_neg (by omega), if_neg (by omega), if_pos h2]
  have e1 : (c >>> 12) ||| 0xe0 = 0xe0 + c / 4096 := by
    rw [shiftRight12_eq, Nat.lor_comm]
    have : (0xe0 : Nat) = 2 ^ 5 * 7 := by norm_num
    rw [this, lor_low_eq_add _ _ _ (by omega)]
  have e2 : ((c >>> 6) &&& 0x3f) ||| 0x80 = 0x80 + c / 64 % 64 := by
    rw [shiftRight6_eq, and63_eq, Nat.lor_comm]
    have : (0x80 : Nat) = 2 ^ 7 * 1 := by norm_num
    rw [this, lor_low_eq_add _ _ _ (by omega)]
  have e3 : (c &&& 0x3f) ||| 0x80 = 0x80 + c % 64 := by
    rw [and63_eq, Nat.lor_comm]
    have : (0x80 : Nat) = 2 ^ 7 * 1 := by norm_num
    rw [this, lor_low_eq_add _ _ _ (by omega)]
  rw [e1, e2, e3]

theorem put4_eq (c : Nat) (h1 : 0x10000 ≤ c) (h2 : c ≤ 0x10FFFF) :
    fy_utf8_put_unchecked c =
      [0xf0 + c / 262144, 0x80 + c / 4096 % 64, 0x80 + c / 64 % 64, 0x80 + c % 64] := by
  unfold fy_utf8_put_unchecked
  rw [if_neg (by omega), if_neg (by omega), if_neg (by omega)]
  have e1 : (c >>> 18) ||| 0xf0 = 0xf0 + c / 262144 := by
    rw [shiftRight18_eq, Nat.lor_comm]
    have : (0xf0 : Nat) = 2 ^ 4 * 15 := by norm_num
    rw [this, lor_low_eq_add _ _ _ (by omega)]
  have e2 : ((c >>> 12) &&& 0x3f) ||| 0x80 = 0x80 + c / 4096 % 64 := by
    rw [shiftRight12_eq, and63_eq, Nat.lor_comm]
    have : (0x80 : Nat) = 2 ^ 7 * 1 := by norm_num
    rw [this, lor_low_eq_add _ _ _ (by omega)]
  have e3 : ((c >>> 6) &&& 0x3f) ||| 0x80 = 0x80 + c / 64 % 64 := by
    rw [shiftRight6_eq, and63_eq, Nat.lor_comm]
    have : (0x80 : Nat) = 2 ^ 7 * 1 := by norm_num
    rw [this, lor_low_eq_add _ _ _ (by omega)]
  have e4 : (c &&& 0x3f) ||| 0x80 = 0x80 + c % 64 := by
    rw [and63_eq, Nat.lor_comm]
    have : (0x80 : Nat) = 2 ^ 7 * 1 := by norm_num
    rw [this, lor_low_eq_add _ _ _ (by omega)]
  rw [e1, e2, e3, e4]

theorem get2_eq (x y : Nat) (hx : x < 32) (hy : y < 64) :
    fy_utf8_get [0xc0 + x, 0x80 + y] = (((64 * x + y : Nat) : Int), 2) := by
  have d1 : ∀ z < 32, (0xc0 + z) &&& 0x80 ≠ 0 := by decide
  have d2 : ∀ z < 32, fy_utf8_width_by_first_octet (0xc0 + z) = 2 := by decide
  have d3 : ∀ z < 32, (0xc0 + z) &&& 0x1f = z := by decide
  have d4 : ∀ z < 64, (0x80 + z) &&& 0x3f = z := by decide
  have ev : ((0xc0 + x) &&& 0x1f) <<< 6 ||| ((0x80 + y) &&& 0x3f) = 64 * x + y := by
    rw [d3 x hx, d4 y hy, Nat.shiftLeft_eq]
    have : x * 2 ^ 6 = 2 ^ 6 * x := Nat.mul_comm _ _
    rw [this, lor_low_eq_add _ _ _ (by omega)]
    omega
  simp [fy_utf8_get, fy_utf8_get_generic, d1 x hx, d2 x hx, ev]

theorem get3_eq (x y z : Nat) (hx : x < 16) (hy : y < 64) (hz : z < 64) :
    fy_utf8_get [0xe0 + x, 0x80 + y, 0x80 + z] =
      (((4096 * x + 64 * y + z : Nat) : Int), 3) := by
  have d1 : ∀ v < 16, (0xe0 + v) &&& 0x80 ≠ 0 := by decide
  have d2 : ∀ v < 16, fy_utf8_width_by_first_octet (0xe0 + v) = 3 := by decide
  have d3 : ∀ v < 16, (0xe0 + v) &&& 0x0f = v := by decide
  have d4 : ∀ v < 64, (0x80 + v) &&& 0x3f = v := by decide
  have ev : ((0xe0 + x) &&& 0x0f) <<< 12 ||| ((0x80 + y) &&& 0x3f) <<< 6 |||
      ((0x80 + z) &&& 0x3f) = 4096 * x + 64 * y + z := by
    rw [d3 x hx, d4 y hy, d4 z hz, Nat.shiftLeft_eq, Nat.shiftLeft_eq]
    have e1 : x * 2 ^ 12 = 2 ^ 12 * x := Nat.mul_comm _ _
    have e2 : y * 2 ^ 6 = 2 ^ 6 * y := Nat.mul_comm _ _
    rw [e1, e2, lor_low_eq_add _ _ _ (show 2 ^ 6 * y < 2 ^ 12 by omega)]
    have e3 : 2 ^ 12 * x + 2 ^ 6 * y = 2 ^ 6 * (64 * x + y) := by ring
    rw [e3, lor_low_eq_add _ _ _ (by omega)]
    omega
  simp [fy_utf8_get, fy_utf8_get_generic, d1 x hx, d2 x hx, ev]

theorem get4_eq (x y z w : Nat) (hx : x < 8) (hy : y < 64) (hz : z < 64) (hw : w < 64) :
    fy_utf8_get [0xf0 + x, 0x80 + y, 0x80 + z, 0x80 + w] =
      (((262144 * x + 4096 * y + 64 * z + w : Nat) : Int), 4) := by
  have d1 : ∀ v < 8, (0xf0 + v) &&& 0x80 ≠ 0 := by decide
  have d2 : ∀ v < 8, fy_utf8_width_by_first_octet (0xf0 + v) = 4 := by decide
  have d3 : ∀ v < 8, (0xf0 + v) &&& 0x07 = v := by decide
  have d4 : ∀ v < 64, (0x80 + v) &&& 0x3f = v := by decide
  have ev : ((0xf0 + x) &&& 0x07) <<< 18 ||| ((0x80 + y) &&& 0x3f) <<< 12 |||
      ((0x80 + z) &&& 0x3f) <<< 6 ||| ((0x80 + w) &&& 0x3f) =
      262144 * x + 4096 * y + 64 * z + w := by
    rw [d3 x hx, d4 y hy, d4 z hz, d4 w hw, Nat.shiftLeft_eq, Nat.shiftLeft_eq,
      Nat.shiftLeft_eq]
    have e1 : x * 2 ^ 18 = 2 ^ 18 * x := Nat.mul_comm _ _
    have e2 : y * 2 ^ 12 = 2 ^ 12 * y := Nat.mul_comm _ _
    have e3 : z * 2 ^ 6 = 2 ^ 6 * z := Nat.mul_comm _ _
    rw [e1, e2, e3, lor_low_eq_add _ _ _ (show 2 ^ 12 * y < 2 ^ 18 by omega)]
    have e4 : 2 ^ 18 * x + 2 ^ 12 * y = 2 ^ 12 * (64 * x + y) := by ring
    rw [e4, lor_low_eq_add _ _ _ (show 2 ^ 6 * z < 2 ^ 12 by omega)]
    have e5 : 2 ^ 12 * (64 * x + y) + 2 ^ 6 * z = 2 ^ 6 * (4096 * x + 64 * y + z) := by
      ring
    rw [e5, lor_low_eq_add _ _ _ (by omega)]
    omega
  simp [fy_utf8_get, fy_utf8_get_generic, d1 x hx, d2 x hx, ev]

/-- C9: for every code point in U+0001..U+10FFFF outside the surrogate
range, decoding the bytes produced by `fy_utf8_put_unchecked` with
`fy_utf8_get` yields the same code point with consumed width
`fy_utf8_width`, and `fy_utf8_width_by_first_octet` on the first
encoded byte gives that same width. -/
theorem utf8_roundtrip_holds (c : Nat) (h1 : 1 ≤ c) (h2 : c ≤ 0x10FFFF)
    (h3 : ¬(0xd800 ≤ c ∧ c ≤ 0xdfff)) :
    fy_utf8_get (fy_utf8_put_unchecked c) = ((c : Int), fy_utf8_width (c : Int)) ∧
    fy_utf8_width_by_first_octet ((fy_utf8_put_unchecked c).headD 0) =
      fy_utf8_width (c : Int) := by
  by_cases ha : c < 0x80
  · have hput : fy_utf8_put_unchecked c = [c] := by
      unfold fy_utf8_put_unchecked; rw [if_pos ha]
    have hand : c &&& 0x80 = 0 := byte_and_128_of_lt c ha
    have hand7 : c &&& 0x7f = c := by
      have := Nat.and_pow_two_sub_one_eq_mod c 7
      norm_num at this
      rw [this]
      omega
    have hw : fy_utf8_width (c : Int) = 1 := by
      unfold fy_utf8_width
      rw [if_pos (by exact_mod_cast ha)]
    refine ⟨?_, ?_⟩
    · rw [hput, hw]
      simp [fy_utf8_get, hand, hand7]
    · rw [hput, hw]
      simp [fy_utf8_width_by_first_octet, hand]
  · by_cases hb : c < 0x800
    · have hput := put2_eq c (by omega) hb
      have hw : fy_utf8_width (c : Int) = 2 := by
        unfold fy_utf8_width
        rw [if_neg (by exact_mod_cast ha), if_pos (by exact_mod_cast hb)]
      have hget := get2_eq (c / 64) (c % 64) (by omega) (by omega)
      refine ⟨?_, ?_⟩
      · rw [hput, hw, hget]
        simp only [Prod.mk.injEq]
        exact ⟨Int.natCast_inj.mpr (by omega), trivial⟩
      · rw [hput, hw]
        have d2 : ∀ z < 32, fy_utf8_width_by_first_octet (0xc0 + z) = 2 := by decide
        simpa using d2 (c / 64) (by omega)
    · by_cases hc : c < 0x10000
      · have hput := put3_eq c (by omega) hc
        have hw : fy_utf8_width (c : Int) = 3 := by
          unfold fy_utf8_width
          rw [if_neg (by exact_mod_cast ha), if_neg (by exact_mod_cast hb),
            if_pos (by exact_mod_cast hc)]
        have hget := get3_eq (c / 4096) (c / 64 % 64) (c % 64) (by omega) (by omega)
          (by omega)
        refine ⟨?_, ?_⟩
        · rw [hput, hw, hget]
          simp only [Prod.mk.injEq]
          exact ⟨Int.natCast_inj.mpr (by omega), trivial⟩
        · rw [hput, hw]
          have d2 : ∀ z < 16, fy_utf8_width_by_first_octet (0xe0 + z) = 3 := by decide
          simpa using d2 (c / 4096) (by omega)
      · have hput := put4_eq c (by omega) h2
        have hw : fy_utf8_width (c : Int) = 4 := by
          unfold fy_utf8_width
          rw [if_neg (by exact_mod_cast ha), if_neg (by exact_mod_cast hb),
            if_neg (by exact_mod_cast hc)]
        have hget := get4_eq (c / 262144) (c / 4096 % 64) (c / 64 % 64) (c % 64)
          (by omega) (by omega) (by omega) (by omega)
        refine ⟨?_, ?_⟩
        · rw [hput, hw, hget]
          simp only [Prod.mk.injEq]
          exact ⟨Int.natCast_inj.mpr (by omega), trivial⟩
        · rw [hput, hw]
          have d2 : ∀ z < 8, fy_utf8_width_by_first_octet (0xf0 + z) = 4 := by decide
          simpa using d2 (c / 262144) (by omega)

/-- Witness for C9 at U+2713. -/
theorem utf8_roundtrip_holds_witness :
    fy_utf8_get (fy_utf8_put_unchecked 0x2713) = ((0x2713 : Int), fy_utf8_width 0x2713) ∧
    fy_utf8_width_by_first_octet ((fy_utf8_put_unchecked 0x2713).headD 0) =
      fy_utf8_width 0x2713 :=
  utf8_roundtrip_holds 0x2713 (by decide) (by decide) (by decide)

/-- C10: with an empty pushback slot, `fy_atom_iter_ungetc` of any byte
value 0..255 succeeds (returns the byte, storing it in the slot); the
next `fy_atom_iter_getc` returns exactly that byte and restores the
iterator to its original state, consuming no stream data; a second
`fy_atom_iter_ungetc` while the slot is occupied returns -1 and leaves
the pending byte (and the whole iterator) unchanged. -/
theorem ungetc_getc_roundtrip (it : FyAtomIter) (c : Int)
    (hslot : it.unget_c = -1) (h0 : 0 ≤ c) (h255 : c ≤ 255) :
    fy_atom_iter_ungetc it c = ({ it with unget_c := c }, c) ∧
    fy_atom_iter_getc { it with unget_c := c } = (it, c) ∧
    (∀ c2 : Int, fy_atom_iter_ungetc { it with unget_c := c } c2 =
      ({ it with unget_c := c }, -1)) := by
  have hc : c.emod 256 = c := Int.emod_eq_of_lt h0 (by omega)
  have hne : ¬(c = -1) := by omega
  refine ⟨?_, ?_, ?_⟩
  · unfold fy_atom_iter_ungetc
    rw [if_neg (by simp [hslot]), if_neg hne, hc]
  · unfold fy_atom_iter_getc
    rw [if_pos (by simp; omega), hc]
    cases it
    simp_all
  · intro c2
    unfold fy_atom_iter_ungetc
    rw [if_pos (by simp; omega)]

/-- Witness for C10 at a concrete iterator and byte. -/
theorem ungetc_getc_roundtrip_witness :
    (fy_atom_iter_start (mkBlockAtom .FYAS_LITERAL .FYAC_KEEP [0x61] 1)).unget_c = -1 ∧
    fy_atom_iter_getc
      { fy_atom_iter_start (mkBlockAtom .FYAS_LITERAL .FYAC_KEEP [0x61] 1) with
        unget_c := 0x41 } =
      (fy_atom_iter_start (mkBlockAtom .FYAS_LITERAL .FYAC_KEEP [0x61] 1), 0x41) := by
  refine ⟨rfl, ?_⟩
  exact (ungetc_getc_roundtrip _ 0x41 rfl (by decide) (by decide)).2.1

/-- Counterexample for C8: after the write callback returns a short
count (here 0), the emitter sets `output_error`, but a subsequent
`fy_emit_write` still delivers its bytes through the callback — the
log of callback invocations grows — contradicting "drops all
subsequent bytes (no further data is delivered through the
callback)". -/
theorem emit_write_does_not_drop :
    ((fy_emit_write (fun _ => 0)
        (fy_emit_write (fun _ => 0)
          ⟨.FYECF_MODE_BLOCK, 0, 0, false, []⟩ [0x61]) [0x62]).log =
      [[0x61], [0x62]]) ∧
    (fy_emit_write (fun _ => 0)
        ⟨.FYECF_MODE_BLOCK, 0, 0, false, []⟩ [0x61]).output_error = true ∧
    ¬((fy_emit_write (fun _ => 0)
        (fy_emit_write (fun _ => 0)
          ⟨.FYECF_MODE_BLOCK, 0, 0, false, []⟩ [0x61]) [0x62]).log =
      (fy_emit_write (fun _ => 0)
        ⟨.FYECF_MODE_BLOCK, 0, 0, false, []⟩ [0x61]).log) := by
  refine ⟨?_, ?_, ?_⟩ <;> simp [fy_emit_write]

/-- C8 (amended): when the write callback returns fewer bytes than
requested, `fy_emit_write` sets the emitter's `output_error` bit, and
the bit stays set across later writes; however the emitter keeps
delivering every non-empty write through the callback (bytes are not
dropped), and nothing in the emitter consults `output_error` — the
top-level entry points do not report the failure. -/
theorem emit_write_error_latch (cb : List Nat → Int) (em : FyEmitter)
    (str : List Nat) (h : str ≠ []) :
    (fy_emit_write cb em str).log = em.log ++ [str] ∧
    (fy_emit_write cb em str).output_error =
      (em.output_error || decide (cb str ≠ (str.length : Int))) := by
  unfold fy_emit_write
  rw [if_neg (by simpa using h)]
  by_cases hc : cb str = (str.length : Int)
  · simp [hc]
  · simp [hc]

/-- Witness for C8's amended theorem. -/
theorem emit_write_error_latch_witness :
    ([0x61] : List Nat) ≠ [] ∧
    (fy_emit_write (fun _ => 0) ⟨.FYECF_MODE_BLOCK, 0, 0, false, []⟩ [0x61]).log =
      [] ++ [[0x61]] ∧
    (fy_emit_write (fun _ => 0)
        ⟨.FYECF_MODE_BLOCK, 0, 0, false, []⟩ [0x61]).output_error =
      (false || decide ((0 : Int) ≠ ((([0x61] : List Nat)).length : Int))) := by
  refine ⟨by decide, ?_⟩
  exact emit_write_error_latch (fun _ => 0) ⟨.FYECF_MODE_BLOCK, 0, 0, false, []⟩
    [0x61] (by decide)

theorem takeWhile_append_nonsat (p : EmitTok → Bool) (xs : List EmitTok) (a : EmitTok)
    (ha : p a = false) : (xs ++ [a]).takeWhile p = xs.takeWhile p := by
  induction xs with
  | nil => simp [List.takeWhile, ha]
  | cons x r ih =>
    by_cases hx : p x
    · simp [List.takeWhile_cons, hx, ih]
    · simp [List.takeWhile_cons, hx]

theorem takeWhile_append_stop (p : EmitTok → Bool) (xs ys : List EmitTok)
    (h : ∃ x ∈ xs, p x = false) : (xs ++ ys).takeWhile p = xs.takeWhile p := by
  induction xs with
  | nil => simp at h
  | cons x r ih =>
    by_cases hx : p x
    · simp only [List.cons_append, List.takeWhile_cons, hx, if_true]
      rw [ih]
      rcases h with ⟨z, hz, hpz⟩
      rcases List.mem_cons.mp hz with hzx | hzr
      · subst hzx; exact absurd hx (by simp [hpz])
      · exact ⟨z, hzr, hpz⟩
    · simp [List.takeWhile_cons, hx]

theorem takeWhile_all_of_no_brk (t : List EmitTok) (h : tokBreaks t = 0) :
    t.takeWhile (fun x => x ≠ EmitTok.brk) = t := by
  rw [List.takeWhile_eq_self_iff]
  intro x hx
  simp only [ne_eq, decide_eq_true_eq]
  intro hxb
  subst hxb
  exact absurd (List.count_eq_zero.mp h hx) (by simp)

theorem exists_brk_in_reverse (t : List EmitTok) (h : t.count EmitTok.brk ≠ 0) :
    ∃ x ∈ t.reverse, decide (x ≠ EmitTok.brk) = false := by
  refine ⟨EmitTok.brk, ?_, by simp⟩
  rw [List.mem_reverse]
  exact List.count_pos_iff.mp (by omega)

theorem tokColumn_cons_brk (col : Nat) (t : List EmitTok) :
    tokColumn col (EmitTok.brk :: t) = tokColumn 0 t := by
  unfold tokColumn tokBreaks
  simp only [List.count_cons, if_pos rfl, List.reverse_cons]
  rw [if_neg (by simp)]
  rw [takeWhile_append_nonsat _ _ _ (by simp)]
  by_cases hb : t.count EmitTok.brk = 0
  · rw [if_pos (by simpa using hb)]
    rw [takeWhile_all_of_no_brk t.reverse
      (by simpa [tokBreaks, List.count_reverse] using hb)]
    simp [List.count_reverse]
  · rw [if_neg (by simpa using hb)]

theorem tokColumn_cons_chr (col : Nat) (t : List EmitTok) :
    tokColumn col (EmitTok.chr :: t) = tokColumn (col + 1) t := by
  unfold tokColumn tokBreaks
  simp only [List.count_cons, List.reverse_cons]
  by_cases hb : t.count EmitTok.brk = 0
  · rw [if_pos (by simp [hb]), if_pos hb]
    simp
    omega
  · rw [if_neg (by simp [hb]), if_neg hb]
    rw [takeWhile_append_stop _ _ _ (exists_brk_in_reverse t hb)]

theorem tokColumn_cons_csi (col : Nat) (t : List EmitTok) :
    tokColumn col (EmitTok.csi :: t) = tokColumn col t := by
  unfold tokColumn tokBreaks
  simp only [List.count_cons, List.reverse_cons]
  by_cases hb : t.count EmitTok.brk = 0
  · rw [if_pos (by simp [hb]), if_pos hb]
    simp
  · rw [if_neg (by simp [hb]), if_neg hb]
    rw [takeWhile_append_stop _ _ _ (exists_brk_in_reverse t hb)]

theorem tokBreaks_cons_brk (t : List EmitTok) :
    tokBreaks (EmitTok.brk :: t) = tokBreaks t + 1 := by
  simp [tokBreaks]

theorem tokBreaks_cons_chr (t : List EmitTok) :
    tokBreaks (EmitTok.chr :: t) = tokBreaks t := by
  simp [tokBreaks]

theorem tokBreaks_cons_csi (t : List EmitTok) :
    tokBreaks (EmitTok.csi :: t) = tokBreaks t := by
  simp [tokBreaks]

theorem scan_toks (line col : Nat) (l : List Nat) (toks : List EmitTok)
    (h : emitTokenize l = some toks) :
    fy_emit_write_scan line col l = (line + tokBreaks toks, tokColumn col toks) := by
  induction line, col, l using fy_emit_write_scan.induct generalizing toks with
  | case1 line col l cw c h1 =>
    have e1 : (fy_utf8_get l).1 = -1 := h1
    by_cases hl : l = []
    · subst hl
      unfold emitTokenize at h
      simp at h
      subst h
      unfold fy_emit_write_scan
      simp [fy_utf8_get, tokBreaks, tokColumn]
    · unfold emitTokenize at h
      simp only [] at h
      rw [if_neg hl, if_pos e1] at h
      exact absurd h (by simp)
  | case2 line col l cw c h1 h2 ih =>
    have e1 : ¬((fy_utf8_get l).1 = -1) := h1
    have e2 : (fy_utf8_get l).1 = 13 ∧ 1 < l.length ∧ l.getD 1 0 = 10 := h2
    have e0 : ¬(l = []) := by
      intro hl; rw [hl] at e2; simp at e2
    unfold emitTokenize at h
    simp only [] at h
    rw [if_neg e0, if_neg e1, dif_pos e2] at h
    obtain ⟨t2, ht2, rfl⟩ := Option.map_eq_some'.mp h
    unfold fy_emit_write_scan
    simp only []
    rw [if_neg e1, dif_pos e2]
    rw [ih t2 ht2, tokBreaks_cons_brk, tokColumn_cons_brk]
    simp only [Prod.mk.injEq]
    exact ⟨by omega, trivial⟩
  | case3 line col l cw c w h1 h2 h3 h4 ih =>
    have e1 : ¬((fy_utf8_get l).1 = -1) := h1
    have e2 : ¬((fy_utf8_get l).1 = 13 ∧ 1 < l.length ∧ l.getD 1 0 = 10) := h2
    have e3 : fy_is_lb (fy_utf8_get l).1 = true := h3
    have e4 : 0 < (fy_utf8_get l).2 ∧ 0 < l.length := h4
    have e0 : ¬(l = []) := by
      intro hl; rw [hl] at e4; simp at e4
    unfold emitTokenize at h
    simp only [] at h
    rw [if_neg e0, if_neg e1, dif_neg e2, if_pos e3, dif_pos e4] at h
    obtain ⟨t2, ht2, rfl⟩ := Option.map_eq_some'.mp h
    unfold fy_emit_write_scan
    simp only []
    rw [if_neg e1, dif_neg e2, if_pos e3, dif_pos e4]
    rw [ih t2 ht2, tokBreaks_cons_brk, tokColumn_cons_brk]
    simp only [Prod.mk.injEq]
    exact ⟨by omega, trivial⟩
  | case4 line col l cw c w h1 h2 h3 h4 =>
    have e1 : ¬((fy_utf8_get l).1 = -1) := h1
    have e2 : ¬((fy_utf8_get l).1 = 13 ∧ 1 < l.length ∧ l.getD 1 0 = 10) := h2
    have e3 : fy_is_lb (fy_utf8_get l).1 = true := h3
    have e4 : ¬(0 < (fy_utf8_get l).2 ∧ 0 < l.length) := h4
    have e0 : ¬(l = []) := by
      intro hl
      rw [hl] at e1
      exact e1 rfl
    unfold emitTokenize at h
    simp only [] at h
    rw [if_neg e0, if_neg e1, dif_neg e2, if_pos e3, dif_neg e4] at h
    exact absurd h (by simp)
  | case5 line col l cw c h1 h2 h3 h4 ih =>
    have e1 : ¬((fy_utf8_get l).1 = -1) := h1
    have e2 : ¬((fy_utf8_get l).1 = 13 ∧ 1 < l.length ∧ l.getD 1 0 = 10) := h2
    have e3 : ¬(fy_is_lb (fy_utf8_get l).1 = true) := h3
    have e4 : (fy_utf8_get l).1 = 27 ∧ 2 < l.length ∧ l.getD 1 0 = 91 ∧
        (fy_memchr l 109).isSome = true := h4
    have e0 : ¬(l = []) := by
      intro hl; rw [hl] at e4; simp at e4
    unfold emitTokenize at h
    simp only [] at h
    rw [if_neg e0, if_neg e1, dif_neg e2, if_neg e3, dif_pos e4] at h
    obtain ⟨t2, ht2, rfl⟩ := Option.map_eq_some'.mp h
    unfold fy_emit_write_scan
    simp only []
    rw [if_neg e1, dif_neg e2, if_neg e3, dif_pos e4]
    rw [ih t2 ht2, tokBreaks_cons_csi, tokColumn_cons_csi]
  | case6 line col l cw c w h1 h2 h3 h4 h5 ih =>
    have e1 : ¬((fy_utf8_get l).1 = -1) := h1
    have e2 : ¬((fy_utf8_get l).1 = 13 ∧ 1 < l.length ∧ l.getD 1 0 = 10) := h2
    have e3 : ¬(fy_is_lb (fy_utf8_get l).1 = true) := h3
    have e4 : ¬((fy_utf8_get l).1 = 27 ∧ 2 < l.length ∧ l.getD 1 0 = 91 ∧
        (fy_memchr l 109).isSome = true) := h4
    have e5 : 0 < (fy_utf8_get l).2 ∧ 0 < l.length := h5
    have e0 : ¬(l = []) := by
      intro hl; rw [hl] at e5; simp at e5
    unfold emitTokenize at h
    simp only [] at h
    rw [if_neg e0, if_neg e1, dif_neg e2, if_neg e3, dif_neg e4, dif_pos e5] at h
    obtain ⟨t2, ht2, rfl⟩ := Option.map_eq_some'.mp h
    unfold fy_emit_write_scan
    simp only []
    rw [if_neg e1, dif_neg e2, if_neg e3, dif_neg e4, dif_pos e5]
    rw [ih t2 ht2, tokBreaks_cons_chr, tokColumn_cons_chr]
  | case7 line col l cw c w h1 h2 h3 h4 h5 =>
    have e1 : ¬((fy_utf8_get l).1 = -1) := h1
    have e2 : ¬((fy_utf8_get l).1 = 13 ∧ 1 < l.length ∧ l.getD 1 0 = 10) := h2
    have e3 : ¬(fy_is_lb (fy_utf8_get l).1 = true) := h3
    have e4 : ¬((fy_utf8_get l).1 = 27 ∧ 2 < l.length ∧ l.getD 1 0 = 91 ∧
        (fy_memchr l 109).isSome = true) := h4
    have e5 : ¬(0 < (fy_utf8_get l).2 ∧ 0 < l.length) := h5
    have e0 : ¬(l = []) := by
      intro hl
      rw [hl] at e1
      exact e1 rfl
    unfold emitTokenize at h
    simp only [] at h
    rw [if_neg e0, if_neg e1, dif_neg e2, if_neg e3, dif_neg e4, dif_neg e5] at h
    exact absurd h (by simp)

/-- C4: after an `fy_emit_write` call on a byte sequence that
tokenizes per the claim (CR-LF pairs and line breaks as breaks, `ESC [
… m` as zero-width CSI sequences, every other UTF-8 code point as one
column), the emitter's column equals the number of code-point tokens
since the last break (added to the old column when no break occurred),
and each break increments the line and resets the column; applied
after any sequence of such calls, the column counter therefore always
equals the number of code points written since the last line break. -/
theorem emit_write_column_tracking (cb : List Nat → Int) (em : FyEmitter)
    (str : List Nat) (toks : List EmitTok) (h : emitTokenize str = some toks) :
    (fy_emit_write cb em str).column = tokColumn em.column toks ∧
    (fy_emit_write cb em str).line = em.line + tokBreaks toks := by
  by_cases hs : str.length = 0
  · have hstr : str = [] := List.length_eq_zero.mp hs
    subst hstr
    unfold emitTokenize at h
    simp at h
    subst h
    unfold fy_emit_write
    simp [tokBreaks, tokColumn]
  · unfold fy_emit_write
    rw [if_neg hs]
    by_cases hc : cb str = (str.length : Int) <;>
      simp [hc, scan_toks em.line em.column str toks h]

/-- Witness for C4 on a concrete write: one character, a CSI color
sequence, a newline, one character. -/
theorem emit_write_column_tracking_witness :
    emitTokenize [0x61, 0x1b, 0x5b, 0x6d, 0x0a, 0x62] =
      some [EmitTok.chr, EmitTok.csi, EmitTok.brk, EmitTok.chr] ∧
    (fy_emit_write (fun l => (l.length : Int))
      ⟨.FYECF_MODE_BLOCK, 5, 7, false, []⟩ [0x61, 0x1b, 0x5b, 0x6d, 0x0a, 0x62]).column =
      tokColumn 7 [EmitTok.chr, EmitTok.csi, EmitTok.brk, EmitTok.chr] ∧
    (fy_emit_write (fun l => (l.length : Int))
      ⟨.FYECF_MODE_BLOCK, 5, 7, false, []⟩ [0x61, 0x1b, 0x5b, 0x6d, 0x0a, 0x62]).line =
      5 + tokBreaks [EmitTok.chr, EmitTok.csi, EmitTok.brk, EmitTok.chr] := by
  have h : emitTokenize [0x61, 0x1b, 0x5b, 0x6d, 0x0a, 0x62] =
      some [EmitTok.chr, EmitTok.csi, EmitTok.brk, EmitTok.chr] := by
    repeat
      rw [emitTokenize.eq_def]
      simp +decide [fy_utf8_get, fy_utf8_get_generic, fy_is_lb, fy_memchr]
  have h2 := emit_write_column_tracking (fun l => (l.length : Int))
    ⟨.FYECF_MODE_BLOCK, 5, 7, false, []⟩ [0x61, 0x1b, 0x5b, 0x6d, 0x0a, 0x62] _ h
  exact ⟨h, h2.1, h2.2⟩

theorem fy_utf8_width_by_first_octet_le (b : Nat) :
    fy_utf8_width_by_first_octet b ≤ 4 := by
  unfold fy_utf8_width_by_first_octet
  split
  · omega
  split
  · omega
  split
  · omega
  split <;> omega

theorem fy_utf8_get_ne_none (l : List Nat) (h : (fy_utf8_get l).1 ≠ -1) :
    l ≠ [] ∧ 1 ≤ (fy_utf8_get l).2 ∧
    1 ≤ fy_utf8_width_by_first_octet (l.headD 0) := by
  match l with
  | [] => simp [fy_utf8_get] at h
  | b0 :: rest =>
    by_cases hb : b0 &&& 0x80 = 0
    · refine ⟨by simp, ?_, ?_⟩
      · simp [fy_utf8_get, hb]
      · simp [fy_utf8_width_by_first_octet, hb]
    · have hget : fy_utf8_get (b0 :: rest) = fy_utf8_get_generic (b0 :: rest) := by
        simp [fy_utf8_get, hb]
      rw [hget] at h ⊢
      unfold fy_utf8_get_generic at h ⊢
      simp only [] at h ⊢
      by_cases hw : fy_utf8_width_by_first_octet b0 = 0
      · simp [hw] at h
      · simp only [if_neg hw] at h ⊢
        by_cases hlen : (b0 :: rest).length < fy_utf8_width_by_first_octet b0
        · rw [if_pos (by simpa using hlen)] at h
          simp at h
        · rw [if_neg (by simpa using hlen)] at h
          simp only [if_neg hlen] at h ⊢
          refine ⟨by simp, ?_, by simp; omega⟩
          have hle : fy_utf8_width_by_first_octet b0 ≤ 4 :=
            fy_utf8_width_by_first_octet_le b0
          set w := fy_utf8_width_by_first_octet b0 with hwdef
          interval_cases w
          · exact absurd rfl hw
          · simp
          · cases rest with
            | nil => simp at hlen
            | cons b1 t => simp
          · match rest, hlen with
            | [], hlen => simp at hlen
            | [b1], hlen => simp at hlen
            | b1 :: b2 :: t, _ => simp
          · match rest, hlen with
            | [], hlen => simp at hlen
            | [b1], hlen => simp at hlen
            | [b1, b2], hlen => simp at hlen
            | b1 :: b2 :: b3 :: t, _ => simp

theorem fy_slice_empty_of_ge (d : List Nat) (ss e : Nat) (h : e ≤ ss) :
    fy_slice d ss e = [] := by
  unfold fy_slice
  have : e - ss = 0 := by omega
  simp [this]

theorem fy_slice_nonempty_lt (d : List Nat) (ss e : Nat) (h : fy_slice d ss e ≠ []) :
    ss < e ∧ ss < d.length := by
  constructor
  · by_contra hc
    exact h (fy_slice_empty_of_ge d ss e (by omega))
  · by_contra hc
    apply h
    unfold fy_slice
    rw [List.drop_eq_nil_of_le (by omega)]
    simp

theorem fy_slice_headD (d : List Nat) (ss e : Nat) (h : fy_slice d ss e ≠ []) :
    (fy_slice d ss e).headD 0 = d.getD ss 0 := by
  obtain ⟨h1, h2⟩ := fy_slice_nonempty_lt d ss e h
  unfold fy_slice
  rw [List.drop_eq_getElem_cons h2]
  have he : e - ss = (e - ss - 1) + 1 := by omega
  rw [he, List.take_succ_cons, List.headD_cons]
  simp [List.getD_eq_getElem?_getD, List.getElem?_eq_getElem h2]

set_option maxHeartbeats 1000000 in
theorem fy_scan_step_end (ib : Bool) (chomp ts : Nat) (st : FyScanSt)
    (ss : Nat) (c : Int) :
    (fy_scan_step ib chomp ts st ss c).end_ = st.end_ ∨
    (st.end_ = none ∧ (fy_scan_step ib chomp ts st ss c).end_ = some ss) := by
  unfold fy_scan_step
  simp only []
  by_cases hend : st.end_ = none
  · simp only [hend]
    repeat' split
    all_goals simp_all
  · repeat' split
    all_goals simp_all

theorem fy_scan_fixup_end (ib : Bool) (st : FyScanSt) (ss : Nat) :
    (fy_scan_fixup ib st ss).end_ = st.end_ := by
  unfold fy_scan_fixup
  simp only []
  split <;> split <;> split <;> split <;> split <;> simp

theorem fy_scan_end_bound (d : List Nat) (ib : Bool) (chomp ts e : Nat)
    (st : FyScanSt) (ss : Nat) :
    st.end_ = none →
    ((fy_scan d ib chomp ts e st ss).1.end_ = none ∨
     ∃ p, (fy_scan d ib chomp ts e st ss).1.end_ = some p ∧ ss ≤ p ∧ p < e ∧
       1 ≤ fy_utf8_width_by_first_octet (d.getD p 0)) := by
  induction st, ss using fy_scan.induct d ib chomp ts e with
  | case1 st ss cw c h1 =>
    intro hst
    have e1 : (fy_utf8_get (fy_slice d ss e)).1 = -1 := h1
    rw [fy_scan.eq_def]
    simp only []
    rw [if_pos e1]
    exact Or.inl hst
  | case2 st ss cw c h1 st2 h2 =>
    intro hst
    have e1 : ¬(fy_utf8_get (fy_slice d ss e)).1 = -1 := h1
    have e2 : (fy_scan_step ib chomp ts st ss
        (fy_utf8_get (fy_slice d ss e)).1).end_.isSome = true := h2
    rw [fy_scan.eq_def]
    simp only []
    rw [if_neg e1, if_pos e2]
    rcases fy_scan_step_end ib chomp ts st ss (fy_utf8_get (fy_slice d ss e)).1
      with hA | ⟨hB1, hB2⟩
    · rw [hA, hst] at e2
      simp at e2
    · right
      have hg := fy_utf8_get_ne_none (fy_slice d ss e) e1
      refine ⟨ss, hB2, le_refl ss, (fy_slice_nonempty_lt d ss e hg.1).1, ?_⟩
      have hh := fy_slice_headD d ss e hg.1
      rw [← hh]
      exact hg.2.2
  | case3 st ss cw c w h1 st2 h2 h3 ih =>
    intro hst
    have e1 : ¬(fy_utf8_get (fy_slice d ss e)).1 = -1 := h1
    have e2 : ¬(fy_scan_step ib chomp ts st ss
        (fy_utf8_get (fy_slice d ss e)).1).end_.isSome = true := h2
    have e3 : 1 ≤ (fy_utf8_get (fy_slice d ss e)).2 ∧ ss < e := h3
    rw [fy_scan.eq_def]
    simp only []
    rw [if_neg e1, if_neg e2, dif_pos e3]
    have hprem : (fy_scan_step ib chomp ts st ss
        (fy_utf8_get (fy_slice d ss e)).1).end_ = none := by
      rcases fy_scan_step_end ib chomp ts st ss (fy_utf8_get (fy_slice d ss e)).1
        with hA | ⟨hB1, hB2⟩
      · rw [hA, hst]
      · exact absurd (by simp [hB2]) e2
    rcases ih hprem with hA | ⟨p, hp1, hp2, hp3, hp4⟩
    · exact Or.inl hA
    · exact Or.inr ⟨p, hp1, by omega, hp3, hp4⟩
  | case4 st ss cw c w h1 st2 h2 h3 =>
    intro hst
    have e1 : ¬(fy_utf8_get (fy_slice d ss e)).1 = -1 := h1
    have e2 : ¬(fy_scan_step ib chomp ts st ss
        (fy_utf8_get (fy_slice d ss e)).1).end_.isSome = true := h2
    have e3 : ¬(1 ≤ (fy_utf8_get (fy_slice d ss e)).2 ∧ ss < e) := h3
    rw [fy_scan.eq_def]
    simp only []
    rw [if_neg e1, if_neg e2, dif_neg e3]
    rcases fy_scan_step_end ib chomp ts st ss (fy_utf8_get (fy_slice d ss e)).1
      with hA | ⟨hB1, hB2⟩
    · exact Or.inl (by rw [hA, hst])
    · exact absurd (by simp [hB2]) e2

theorem fy_atom_iter_line_analyze_start (atom : FyAtom) (chomp e : Nat)
    (prev : LineInfo) (s : Nat) :
    (fy_atom_iter_line_analyze atom chomp e prev s).start = s := by
  unfold fy_atom_iter_line_analyze
  simp only []
  split
  · rfl
  · split
    all_goals repeat' split
    all_goals rfl

theorem fy_atom_iter_line_analyze_slotOk (atom : FyAtom) (chomp e : Nat)
    (prev : LineInfo) (s : Nat) :
    SlotOk atom.data e (fy_atom_iter_line_analyze atom chomp e prev s) := by
  unfold fy_atom_iter_line_analyze
  simp only []
  split
  · rcases le_or_lt e s with he | he
    · exact Or.inl he
    · exact Or.inr ⟨by simp; omega, Or.inl (by simp)⟩
  · rw [fy_scan_fixup_end]
    rcases fy_scan_end_bound atom.data
        (atom.style = FyAtomStyle.FYAS_LITERAL ∨ atom.style = FyAtomStyle.FYAS_FOLDED)
        chomp 8 e
        { col := 0, cws := 0, last_was_ws := false, chomp_start := none,
          indented := false, end_ := none, trailing_ws := false, end_ws := none,
          lb_end := false, nws_start := none, nws_end := none, empty := true,
          start_ws := none } s rfl with hA | ⟨p, hp1, hp2, hp3, hp4⟩
    · rw [hA]
      rcases le_or_lt e s with he | he
      · exact Or.inl he
      · exact Or.inr ⟨by simp; omega, Or.inl (by simp)⟩
    · rw [hp1]
      simp only []
      repeat' split
      all_goals exact Or.inr ⟨by simp; omega,
        Or.inr (by simpa [List.getD_eq_getElem?_getD] using hp4)⟩

theorem fy_atom_iter_line_preserves (it : FyAtomIter) :
    (fy_atom_iter_line it).1.chunks = it.chunks ∧
    (fy_atom_iter_line it).1.read = it.read ∧
    (fy_atom_iter_line it).1.done = it.done ∧
    SameCore it (fy_atom_iter_line it).1 := by
  unfold fy_atom_iter_line SameCore
  simp only []
  cases hc : it.current
  all_goals simp only [hc, Bool.not_false, Bool.not_true, FyAtomIter.li,
    FyAtomIter.setLi, Bool.false_eq_true, Bool.true_eq_false, if_true, if_false,
    ite_false, ite_true]
  all_goals split
  all_goals simp

theorem fy_atom_iter_line_cong (it : FyAtomIter) (X : List (List Nat)) (rd : Nat) :
    fy_atom_iter_line { it with chunks := X, read := rd } =
      ({ (fy_atom_iter_line it).1 with chunks := X, read := rd },
       (fy_atom_iter_line it).2) := by
  unfold fy_atom_iter_line
  simp only []
  cases hc : it.current
  all_goals simp only [hc, Bool.not_false, Bool.not_true, FyAtomIter.li,
    FyAtomIter.setLi, Bool.false_eq_true, Bool.true_eq_false, if_true, if_false,
    ite_false, ite_true]
  all_goals split
  all_goals simp

theorem fy_atom_iter_line_none (it : FyAtomIter)
    (h : (fy_atom_iter_line it).2 = none) :
    (fy_atom_iter_line it).1 = { it with current := !it.current } := by
  unfold fy_atom_iter_line at h ⊢
  simp only [] at h ⊢
  cases hc : it.current
  all_goals simp only [hc, Bool.not_false, Bool.not_true, FyAtomIter.li,
    FyAtomIter.setLi, Bool.false_eq_true, Bool.true_eq_false, if_true, if_false,
    ite_false, ite_true] at h ⊢
  all_goals split at h
  all_goals simp_all

theorem fy_atom_iter_line_advances (it : FyAtomIter)
    (hs : SlotOk it.atom.data it.e (it.li (!it.current))) (li : LineInfo)
    (hsome : (fy_atom_iter_line it).2 = some li) :
    iterMeasure (fy_atom_iter_line it).1 < iterMeasure it ∧
    SlotOk it.atom.data it.e
      ((fy_atom_iter_line it).1.li (!(fy_atom_iter_line it).1.current)) := by
  unfold fy_atom_iter_line at hsome ⊢
  simp only [] at hsome ⊢
  unfold SlotOk at hs
  cases hc : it.current
  case false =>
    simp only [hc, Bool.not_false, Bool.not_true, FyAtomIter.li, FyAtomIter.setLi,
      Bool.false_eq_true, Bool.true_eq_false, if_true, if_false, ite_false,
      ite_true] at hs hsome ⊢
    split at hsome
    · exact absurd hsome (by simp)
    · rename_i hg
      rw [if_neg hg]
      constructor
      · simp only [iterMeasure, FyAtomIter.li, hc, Bool.not_false, Bool.not_true,
          Bool.false_eq_true, Bool.true_eq_false, if_true, if_false, ite_false,
          ite_true]
        rw [fy_atom_iter_line_analyze_start]
        rcases hs with hA | ⟨h1, h2⟩
        · omega
        · rcases h2 with h2 | h2 <;> omega
      · simp only [FyAtomIter.li, Bool.not_true, Bool.not_false,
          Bool.false_eq_true, Bool.true_eq_false, if_true, if_false, ite_false,
          ite_true]
        exact fy_atom_iter_line_analyze_slotOk _ _ _ _ _
  case true =>
    simp only [hc, Bool.not_false, Bool.not_true, FyAtomIter.li, FyAtomIter.setLi,
      Bool.false_eq_true, Bool.true_eq_false, if_true, if_false, ite_false,
      ite_true] at hs hsome ⊢
    split at hsome
    · exact absurd hsome (by simp)
    · rename_i hg
      rw [if_neg hg]
      constructor
      · simp only [iterMeasure, FyAtomIter.li, hc, Bool.not_false, Bool.not_true,
          Bool.false_eq_true, Bool.true_eq_false, if_true, if_false, ite_false,
          ite_true]
        rw [fy_atom_iter_line_analyze_start]
        rcases hs with hA | ⟨h1, h2⟩
        · omega
        · rcases h2 with h2 | h2 <;> omega
      · simp only [FyAtomIter.li, Bool.not_true, Bool.not_false,
          Bool.false_eq_true, Bool.true_eq_false, if_true, if_false, ite_false,
          ite_true]
        exact fy_atom_iter_line_analyze_slotOk _ _ _ _ _

theorem ChunksOk.append {cs1 cs2 : List (List Nat)}
    (h1 : ChunksOk cs1) (h2 : ChunksOk cs2) : ChunksOk (cs1 ++ cs2) := by
  intro c hc
  rcases List.mem_append.mp hc with h | h
  · exact h1 c h
  · exact h2 c h

theorem ChunksOk.nil : ChunksOk [] := by
  intro c hc
  simp at hc

theorem addC_ok (c : List Nat) (h : ∀ b ∈ c, b < 256) : ChunksOk (addC c) := by
  intro x hx
  unfold addC at hx
  split at hx
  · simp at hx
  · rename_i hne
    rw [List.mem_singleton] at hx
    subst hx
    exact ⟨hne, h⟩

theorem fy_slice_bytes (d : List Nat) (ss e : Nat) (h : ∀ b ∈ d, b < 256) :
    ∀ b ∈ fy_slice d ss e, b < 256 := by
  intro b hb
  unfold fy_slice at hb
  exact h b (List.drop_subset ss d (List.take_subset _ _ hb))

theorem addC_slice_ok (d : List Nat) (ss e : Nat) (h : ∀ b ∈ d, b < 256) :
    ChunksOk (addC (fy_slice d ss e)) :=
  addC_ok _ (fy_slice_bytes d ss e h)

theorem replicate_lb_ok (n : Nat) : ChunksOk (List.replicate n [0x0a]) := by
  intro c hc
  rw [List.eq_of_mem_replicate hc]
  constructor
  · simp
  · intro b hb
    rw [List.mem_singleton] at hb
    omega

theorem single_byte_ok (b : Nat) (h : b < 256) : ChunksOk [[b]] := by
  intro c hc
  rw [List.mem_singleton] at hc
  subst hc
  constructor
  · simp
  · intro x hx
    rw [List.mem_singleton] at hx
    omega

theorem or_lt_256 (x y : Nat) (hx : x < 256) (hy : y < 256) : x ||| y < 256 := by
  have h : x ||| y < 2 ^ 8 :=
    Nat.or_lt_two_pow (by norm_num at hx ⊢; omega) (by norm_num at hy ⊢; omega)
  norm_num at h
  omega

theorem shiftRight_bound (x k m : Nat) (hx : x < m * 2 ^ k) : x >>> k < m := by
  rw [Nat.shiftRight_eq_div_pow]
  exact Nat.div_lt_of_lt_mul (by rw [Nat.mul_comm] at hx; exact hx)

theorem fy_utf8_put_unchecked_ok (c : Nat) (h : c < 0x110000) :
    fy_utf8_put_unchecked c ≠ [] ∧ ∀ b ∈ fy_utf8_put_unchecked c, b < 256 := by
  unfold fy_utf8_put_unchecked
  have hand : ∀ z : Nat, z &&& 0x3f ||| 0x80 < 256 := by
    intro z
    exact or_lt_256 _ _ (by have := Nat.and_le_right (n := z) (m := 0x3f); omega)
      (by omega)
  split
  · refine ⟨by simp, ?_⟩
    intro b hb
    rw [List.mem_singleton] at hb
    omega
  · split
    · refine ⟨by simp, ?_⟩
      intro b hb
      rcases List.mem_cons.mp hb with h1 | hb
      · subst h1
        exact or_lt_256 _ _ (by have := shiftRight_bound c 6 32 (by omega); omega)
          (by omega)
      · rw [List.mem_singleton] at hb
        subst hb
        exact hand c
    · split
      · refine ⟨by simp, ?_⟩
        intro b hb
        rcases List.mem_cons.mp hb with h1 | hb
        · subst h1
          exact or_lt_256 _ _ (by have := shiftRight_bound c 12 16 (by omega); omega)
            (by omega)
        · rcases List.mem_cons.mp hb with h1 | hb
          · subst h1
            exact hand _
          · rw [List.mem_singleton] at hb
            subst hb
            exact hand c
      · refine ⟨by simp, ?_⟩
        intro b hb
        rcases List.mem_cons.mp hb with h1 | hb
        · subst h1
          exact or_lt_256 _ _ (by have := shiftRight_bound c 18 8 (by omega); omega)
            (by omega)
        · rcases List.mem_cons.mp hb with h1 | hb
          · subst h1
            exact hand _
          · rcases List.mem_cons.mp hb with h1 | hb
            · subst h1
              exact hand _
            · rw [List.mem_singleton] at hb
              subst hb
              exact hand c

theorem fy_utf8_put_ok (left : Nat) (c : Int) (code : List Nat)
    (h : fy_utf8_put left c = some code) :
    code ≠ [] ∧ ∀ b ∈ code, b < 256 := by
  unfold fy_utf8_put at h
  split at h
  · simp at h
  · rename_i hcond
    rw [Option.some_inj] at h
    subst h
    push_neg at hcond
    have hv := hcond.1
    have : c.toNat < 0x110000 := by
      simp [fy_utf8_is_valid] at hv
      omega
    exact fy_utf8_put_unchecked_ok c.toNat this

theorem fy_sq_chunks_ok (d : List Nat) (s e : Nat) (hd : ∀ b ∈ d, b < 256) :
    ChunksOk (fy_sq_chunks d s e) := by
  induction s, e using fy_sq_chunks.induct d with
  | case1 s e h hm =>
    rw [fy_sq_chunks.eq_def]
    simp only []
    rw [dif_pos h, hm]
    exact addC_slice_ok d s e hd
  | case2 s e h i hm t ih =>
    rw [fy_sq_chunks.eq_def]
    simp only []
    rw [dif_pos h, hm]
    refine ChunksOk.append (ChunksOk.append (addC_slice_ok d s _ hd) ?_) ih
    split
    · exact addC_slice_ok d _ _ hd
    · exact ChunksOk.nil
  | case3 s e h =>
    rw [fy_sq_chunks.eq_def]
    simp only []
    rw [dif_neg h]
    exact ChunksOk.nil

theorem cons_chunk_ok (code : List Nat) (h1 : code ≠ [])
    (h2 : ∀ b ∈ code, b < 256) : ChunksOk [code] := by
  intro c hc
  rw [List.mem_singleton] at hc
  subst hc
  exact ⟨h1, h2⟩

theorem hexDigit_getD_le (b : Nat) : (hexDigit b).getD 0 ≤ 15 := by
  unfold hexDigit
  split
  · simp; omega
  · split
    · simp; omega
    · split
      · simp; omega
      · simp

theorem fy_uri_esc_bytes (l : List Nat) (maxlen : Nat) (code : List Nat × Nat)
    (h : fy_uri_esc l maxlen = some code) : ∀ b ∈ code.1, b < 256 := by
  unfold fy_uri_esc at h
  intro b hb
  split at h
  · rename_i p h1 h2 rest
    split at h
    · rename_i a c ha hc
      simp only [] at h
      split at h
      · simp at h
      · split at h
        · rw [Option.some_inj] at h
          subst h
          simp only [] at hb
          rw [List.mem_map] at hb
          obtain ⟨g, hg, hfn⟩ := hb
          subst hfn
          match g with
          | [] => simp
          | [x] => simp
          | [x, y] => simp
          | p :: x :: y :: t =>
            have hx := hexDigit_getD_le x
            have hy := hexDigit_getD_le y
            match t with
            | [] => simp only []; omega
            | _ :: _ => simp only []; omega
        · simp at h
    · simp at h
  · simp at h

theorem hexDigits_bytes (v k : Nat) : ∀ b ∈ hexDigits v k, b < 256 := by
  intro b hb
  unfold hexDigits at hb
  rw [List.mem_map] at hb
  obtain ⟨i, hi, rfl⟩ := hb
  have hm : v / 16 ^ (k - 1 - i) % 16 < 16 := Nat.mod_lt _ (by norm_num)
  unfold toHexChar
  split <;> omega

theorem fy_dqm_esc_bytes (c : Int) : ∀ b ∈ fy_dqm_esc c, b < 256 := by
  intro b
  by_cases h1 : c = 92
  · intro hb
    subst h1
    simp [fy_dqm_esc] at hb
    omega
  by_cases h2 : c = 34
  · intro hb
    subst h2
    simp [fy_dqm_esc] at hb
    omega
  by_cases h3 : c = 0
  · intro hb
    subst h3
    simp [fy_dqm_esc] at hb
    omega
  by_cases h4 : c = 7
  · intro hb
    subst h4
    simp [fy_dqm_esc] at hb
    omega
  by_cases h5 : c = 8
  · intro hb
    subst h5
    simp [fy_dqm_esc] at hb
    omega
  by_cases h6 : c = 9
  · intro hb
    subst h6
    simp [fy_dqm_esc] at hb
    omega
  by_cases h7 : c = 10
  · intro hb
    subst h7
    simp [fy_dqm_esc] at hb
    omega
  by_cases h8 : c = 11
  · intro hb
    subst h8
    simp [fy_dqm_esc] at hb
    omega
  by_cases h9 : c = 12
  · intro hb
    subst h9
    simp [fy_dqm_esc] at hb
    omega
  by_cases h10 : c = 13
  · intro hb
    subst h10
    simp [fy_dqm_esc] at hb
    omega
  by_cases h11 : c = 27
  · intro hb
    subst h11
    simp [fy_dqm_esc] at hb
    omega
  by_cases h12 : c = 133
  · intro hb
    subst h12
    simp [fy_dqm_esc] at hb
    omega
  by_cases h13 : c = 160
  · intro hb
    subst h13
    simp [fy_dqm_esc] at hb
    omega
  by_cases h14 : c = 8232
  · intro hb
    subst h14
    simp [fy_dqm_esc] at hb
    omega
  by_cases h15 : c = 8233
  · intro hb
    subst h15
    simp [fy_dqm_esc] at hb
    omega
  unfold fy_dqm_esc
  rw [if_neg h1, if_neg h2, if_neg h3, if_neg h4, if_neg h5, if_neg h6, if_neg h7, if_neg h8, if_neg h9, if_neg h10, if_neg h11, if_neg h12, if_neg h13, if_neg h14, if_neg h15]
  unfold fy_dqm_digitbuf
  split
  · intro hb
    rcases List.mem_cons.mp hb with h1 | h1
    · omega
    · exact hexDigits_bytes _ _ _ h1
  · split
    all_goals intro hb
    all_goals rcases List.mem_cons.mp hb with h1 | h1
    all_goals first | omega | exact hexDigits_bytes _ _ _ h1

theorem fy_dq_chunks_ok (d : List Nat) (s e : Nat) (hd : ∀ b ∈ d, b < 256) :
    ChunksOk (fy_dq_chunks d s e).1 := by
  induction s, e using fy_dq_chunks.induct d with
  | case1 s e h hm =>
    rw [fy_dq_chunks.eq_def]
    simp only []
    rw [dif_pos h, hm]
    exact addC_slice_ok d s e hd
  | case2 s e h i hm t h2 =>
    rw [fy_dq_chunks.eq_def]
    simp only []
    rw [dif_pos h, hm]
    simp only []
    rw [if_pos (show e - (s + i) < 2 from h2)]
    exact addC_slice_ok d s _ hd
  | case3 s e h i hm t h2 hesc =>
    rw [fy_dq_chunks.eq_def]
    simp only []
    rw [dif_pos h, hm]
    simp only []
    rw [if_neg (show ¬e - (s + i) < 2 from h2),
      show fy_utf8_parse_escape (fy_slice d (s + i) e) = none from hesc]
    exact addC_slice_ok d s _ hd
  | case4 s e h i hm t h2 vc hesc hput =>
    rw [fy_dq_chunks.eq_def]
    simp only []
    rw [dif_pos h, hm]
    simp only []
    rw [if_neg (show ¬e - (s + i) < 2 from h2),
      show fy_utf8_parse_escape (fy_slice d (s + i) e) = some vc from hesc]
    simp only []
    rw [show fy_utf8_put 4 (vc.1 : Int) = none from hput]
    exact addC_slice_ok d s _ hd
  | case5 s e h i hm t h2 vc hesc code hput hc ih =>
    rw [fy_dq_chunks.eq_def]
    simp only []
    rw [dif_pos h, hm]
    simp only []
    rw [if_neg (show ¬e - (s + i) < 2 from h2),
      show fy_utf8_parse_escape (fy_slice d (s + i) e) = some vc from hesc]
    simp only []
    rw [show fy_utf8_put 4 (vc.1 : Int) = some code from hput]
    simp only []
    rw [dif_pos hc]
    exact ChunksOk.append (ChunksOk.append (addC_slice_ok d s _ hd)
      (cons_chunk_ok code (fy_utf8_put_ok 4 _ code hput).1
        (fy_utf8_put_ok 4 _ code hput).2)) ih
  | case6 s e h i hm t h2 vc hesc code hput hc =>
    rw [fy_dq_chunks.eq_def]
    simp only []
    rw [dif_pos h, hm]
    simp only []
    rw [if_neg (show ¬e - (s + i) < 2 from h2),
      show fy_utf8_parse_escape (fy_slice d (s + i) e) = some vc from hesc]
    simp only []
    rw [show fy_utf8_put 4 (vc.1 : Int) = some code from hput]
    simp only []
    rw [dif_neg hc]
    exact ChunksOk.append (addC_slice_ok d s _ hd)
      (cons_chunk_ok code (fy_utf8_put_ok 4 _ code hput).1
        (fy_utf8_put_ok 4 _ code hput).2)
  | case7 s e h =>
    rw [fy_dq_chunks.eq_def]
    simp only []
    rw [dif_neg h]
    exact ChunksOk.nil

theorem fy_uri_chunks_ok (d : List Nat) (s e : Nat) (hd : ∀ b ∈ d, b < 256) :
    ChunksOk (fy_uri_chunks d s e).1 := by
  induction s, e using fy_uri_chunks.induct d with
  | case1 s e h hm =>
    rw [fy_uri_chunks.eq_def]
    simp only []
    rw [dif_pos h, hm]
    exact addC_slice_ok d s e hd
  | case2 s e h i hm t hesc =>
    rw [fy_uri_chunks.eq_def]
    simp only []
    rw [dif_pos h, hm]
    simp only []
    rw [show fy_uri_esc (fy_slice d (s + i) e) 4 = none from hesc]
    exact addC_slice_ok d s _ hd
  | case3 s e h i hm t code hesc hc ih =>
    rw [fy_uri_chunks.eq_def]
    simp only []
    rw [dif_pos h, hm]
    simp only []
    rw [show fy_uri_esc (fy_slice d (s + i) e) 4 = some code from hesc]
    simp only []
    rw [dif_pos hc]
    refine ChunksOk.append (ChunksOk.append (addC_slice_ok d s _ hd) ?_) ih
    exact addC_ok _ (fy_uri_esc_bytes _ 4 code hesc)
  | case4 s e h i hm t code hesc hc =>
    rw [fy_uri_chunks.eq_def]
    simp only []
    rw [dif_pos h, hm]
    simp only []
    rw [show fy_uri_esc (fy_slice d (s + i) e) 4 = some code from hesc]
    simp only []
    rw [dif_neg hc]
    exact ChunksOk.append (addC_slice_ok d s _ hd)
      (addC_ok _ (fy_uri_esc_bytes _ 4 code hesc))
  | case5 s e h =>
    rw [fy_uri_chunks.eq_def]
    simp only []
    rw [dif_neg h]
    exact ChunksOk.nil

theorem fy_dqm_chunks_ok (d : List Nat) (s e : Nat) (hd : ∀ b ∈ d, b < 256) :
    ChunksOk (fy_dqm_chunks d s e) := by
  induction s, e using fy_dqm_chunks.induct d with
  | case1 s e cw c h1 =>
    rw [fy_dqm_chunks.eq_def]
    simp only []
    rw [if_pos (show (fy_utf8_get (fy_slice d s e)).1 = -1 from h1)]
    exact ChunksOk.nil
  | case2 s e cw c w h1 h2 h3 ih =>
    rw [fy_dqm_chunks.eq_def]
    simp only []
    rw [if_neg (show ¬(fy_utf8_get (fy_slice d s e)).1 = -1 from h1),
      dif_pos (show 1 ≤ (fy_utf8_get (fy_slice d s e)).2 ∧ s < e from h2),
      if_pos h3]
    exact ChunksOk.append (addC_slice_ok d s _ hd) ih
  | case3 s e cw c w h1 h2 h3 ih =>
    rw [fy_dqm_chunks.eq_def]
    simp only []
    rw [if_neg (show ¬(fy_utf8_get (fy_slice d s e)).1 = -1 from h1),
      dif_pos (show 1 ≤ (fy_utf8_get (fy_slice d s e)).2 ∧ s < e from h2),
      if_neg h3]
    refine ChunksOk.append (ChunksOk.append (single_byte_ok 0x5c (by omega)) ?_) ih
    exact addC_ok _ (fy_dqm_esc_bytes _)
  | case4 s e cw c w h1 h2 =>
    rw [fy_dqm_chunks.eq_def]
    simp only []
    rw [if_neg (show ¬(fy_utf8_get (fy_slice d s e)).1 = -1 from h1),
      dif_neg (show ¬(1 ≤ (fy_utf8_get (fy_slice d s e)).2 ∧ s < e) from h2)]
    exact ChunksOk.nil

theorem sameCore_refl (it : FyAtomIter) : SameCore it it :=
  ⟨rfl, rfl, rfl, rfl, rfl, rfl, rfl, rfl⟩

theorem SameCore.trans {a b c : FyAtomIter}
    (h1 : SameCore a b) (h2 : SameCore b c) : SameCore a c := by
  obtain ⟨x1, x2, x3, x4, x5, x6, x7, x8⟩ := h1
  obtain ⟨y1, y2, y3, y4, y5, y6, y7, y8⟩ := h2
  exact ⟨y1.trans x1, y2.trans x2, y3.trans x3, y4.trans x4, y5.trans x5,
    y6.trans x6, y7.trans x7, y8.trans x8⟩

theorem fy_chomp_strip_loop_spec (it : FyAtomIter) (pending : Nat) :
    SlotOk it.atom.data it.e (it.li (!it.current)) →
    (∀ b ∈ it.atom.data, b < 256) →
    ((fy_chomp_strip_loop it pending).1.chunks = it.chunks ∧
     (fy_chomp_strip_loop it pending).1.read = it.read ∧
     (fy_chomp_strip_loop it pending).1.done = it.done ∧
     SameCore it (fy_chomp_strip_loop it pending).1 ∧
     ChunksOk (fy_chomp_strip_loop it pending).2.1) := by
  induction it, pending using fy_chomp_strip_loop.induct with
  | case1 it pending r heq =>
    intro hs hd
    have hp := fy_atom_iter_line_preserves it
    rw [fy_chomp_strip_loop.eq_def]
    simp only []
    rw [show (fy_atom_iter_line it).2 = none from heq]
    exact ⟨hp.1, hp.2.1, hp.2.2.1, hp.2.2.2, ChunksOk.nil⟩
  | case2 it pending r li heq it2 st pending2 h ih =>
    intro hs hd
    have hp := fy_atom_iter_line_preserves it
    rw [fy_chomp_strip_loop.eq_def]
    simp only []
    rw [show (fy_atom_iter_line it).2 = some li from heq]
    simp only []
    rw [dif_pos (show iterMeasure (fy_atom_iter_line it).1 < iterMeasure it from h)]
    have hslot2 : SlotOk (fy_atom_iter_line it).1.atom.data (fy_atom_iter_line it).1.e
        ((fy_atom_iter_line it).1.li (!(fy_atom_iter_line it).1.current)) := by
      rw [hp.2.2.2.1, hp.2.2.2.2.1]
      exact (fy_atom_iter_line_advances it hs li heq).2
    have hd2 : ∀ b ∈ (fy_atom_iter_line it).1.atom.data, b < 256 := by
      rw [hp.2.2.2.1]
      exact hd
    have IH := ih hslot2 hd2
    refine ⟨IH.1.trans hp.1, IH.2.1.trans hp.2.1, IH.2.2.1.trans hp.2.2.1,
      SameCore.trans hp.2.2.2 IH.2.2.2.1, ChunksOk.append ?_ IH.2.2.2.2⟩
    split
    · exact ChunksOk.append (replicate_lb_ok _) (addC_ok _ (fy_slice_bytes _ _ _ hd2))
    · exact ChunksOk.nil
  | case3 it pending r li heq it2 h =>
    intro hs hd
    have hp := fy_atom_iter_line_preserves it
    rw [fy_chomp_strip_loop.eq_def]
    simp only []
    rw [show (fy_atom_iter_line it).2 = some li from heq]
    simp only []
    rw [dif_neg (show ¬iterMeasure (fy_atom_iter_line it).1 < iterMeasure it from h)]
    have hd2 : ∀ b ∈ (fy_atom_iter_line it).1.atom.data, b < 256 := by
      rw [hp.2.2.2.1]
      exact hd
    refine ⟨hp.1, hp.2.1, hp.2.2.1, hp.2.2.2, ?_⟩
    split
    · exact ChunksOk.append (replicate_lb_ok _) (addC_ok _ (fy_slice_bytes _ _ _ hd2))
    · exact ChunksOk.nil

theorem fy_chomp_keep_loop_spec (it : FyAtomIter) :
    SlotOk it.atom.data it.e (it.li (!it.current)) →
    (∀ b ∈ it.atom.data, b < 256) →
    ((fy_chomp_keep_loop it).1.chunks = it.chunks ∧
     (fy_chomp_keep_loop it).1.read = it.read ∧
     (fy_chomp_keep_loop it).1.done = it.done ∧
     SameCore it (fy_chomp_keep_loop it).1 ∧
     ChunksOk (fy_chomp_keep_loop it).2) := by
  induction it using fy_chomp_keep_loop.induct with
  | case1 it r heq =>
    intro hs hd
    have hp := fy_atom_iter_line_preserves it
    rw [fy_chomp_keep_loop.eq_def]
    simp only []
    rw [show (fy_atom_iter_line it).2 = none from heq]
    exact ⟨hp.1, hp.2.1, hp.2.2.1, hp.2.2.2, ChunksOk.nil⟩
  | case2 it r li heq it2 h ih =>
    intro hs hd
    have hp := fy_atom_iter_line_preserves it
    rw [fy_chomp_keep_loop.eq_def]
    simp only []
    rw [show (fy_atom_iter_line it).2 = some li from heq]
    simp only []
    rw [dif_pos (show iterMeasure (fy_atom_iter_line it).1 < iterMeasure it from h)]
    have hslot2 : SlotOk (fy_atom_iter_line it).1.atom.data (fy_atom_iter_line it).1.e
        ((fy_atom_iter_line it).1.li (!(fy_atom_iter_line it).1.current)) := by
      rw [hp.2.2.2.1, hp.2.2.2.2.1]
      exact (fy_atom_iter_line_advances it hs li heq).2
    have hd2 : ∀ b ∈ (fy_atom_iter_line it).1.atom.data, b < 256 := by
      rw [hp.2.2.2.1]
      exact hd
    have IH := ih hslot2 hd2
    refine ⟨IH.1.trans hp.1, IH.2.1.trans hp.2.1, IH.2.2.1.trans hp.2.2.1,
      SameCore.trans hp.2.2.2 IH.2.2.2.1,
      ChunksOk.append (ChunksOk.append ?_ ?_) IH.2.2.2.2⟩
    · split
      · exact addC_ok _ (fy_slice_bytes _ _ _ hd2)
      · exact ChunksOk.nil
    · split
      · exact single_byte_ok 0x0a (by omega)
      · exact ChunksOk.nil
  | case3 it r li heq it2 h =>
    intro hs hd
    have hp := fy_atom_iter_line_preserves it
    rw [fy_chomp_keep_loop.eq_def]
    simp only []
    rw [show (fy_atom_iter_line it).2 = some li from heq]
    simp only []
    rw [dif_neg (show ¬iterMeasure (fy_atom_iter_line it).1 < iterMeasure it from h)]
    have hd2 : ∀ b ∈ (fy_atom_iter_line it).1.atom.data, b < 256 := by
      rw [hp.2.2.2.1]
      exact hd
    refine ⟨hp.1, hp.2.1, hp.2.2.1, hp.2.2.2, ChunksOk.append ?_ ?_⟩
    · split
      · exact addC_ok _ (fy_slice_bytes _ _ _ hd2)
      · exact ChunksOk.nil
    · split
      · exact single_byte_ok 0x0a (by omega)
      · exact ChunksOk.nil

theorem sameCore_done (a : FyAtomIter) (b : Bool) :
    SameCore a { a with done := b } :=
  ⟨rfl, rfl, rfl, rfl, rfl, rfl, rfl, rfl⟩

theorem fy_atom_iter_format_core_spec (it : FyAtomIter)
    (hinv : IterInvD it) (hd : ∀ b ∈ it.atom.data, b < 256) :
    (fy_atom_iter_format_core it).1.chunks = it.chunks ∧
    (fy_atom_iter_format_core it).1.read = it.read ∧
    SameCore it (fy_atom_iter_format_core it).1 ∧
    IterInvD (fy_atom_iter_format_core it).1 ∧
    ChunksOk (fy_atom_iter_format_core it).2.1 ∧
    ((fy_atom_iter_format_core it).2.2 = 1 → it.done = false ∧
      ((fy_atom_iter_format_core it).1.done = true ∨
       ((fy_atom_iter_format_core it).1.done = false ∧
        iterMeasure (fy_atom_iter_format_core it).1 < iterMeasure it))) ∧
    ((fy_atom_iter_format_core it).2.2 = 0 →
      (fy_atom_iter_format_core it).2.1 = []) ∧
    (it.done = true → (fy_atom_iter_format_core it).2.2 = 0) := by
  obtain ⟨hch, hrd, hdn, hat, hee, hcp, hts, hsl, hdq, hem, hug⟩ :=
    fy_atom_iter_line_preserves it
  unfold fy_atom_iter_format_core
  simp only []
  rcases hline : (fy_atom_iter_line it).2 with _ | li
  · simp only []
    refine ⟨?_, ?_, ?_, ?_, ?_, ?_, ?_, ?_⟩
    · simp [hch]
    · simp [hrd]
    · exact ⟨by simp [hat], by simp [hee], by simp [hcp], by simp [hts],
        by simp [hsl], by simp [hdq], by simp [hem], by simp [hug]⟩
    · exact Or.inl (by simp)
    · exact ChunksOk.nil
    · intro h
      simp at h
    · intro h
      trivial
    · intro h
      trivial
  · simp only []
    by_cases hdone : it.done = true
    · rw [if_pos (hdn.trans hdone)]
      refine ⟨?_, ?_, ?_, ?_, ?_, ?_, ?_, ?_⟩
      · exact hch
      · exact hrd
      · exact ⟨hat, hee, hcp, hts, hsl, hdq, hem, hug⟩
      · exact Or.inl (hdn.trans hdone)
      · exact ChunksOk.nil
      · intro h
        simp at h
      · intro h
        trivial
      · intro h
        trivial
    · rw [if_neg (fun hc => hdone (hdn.symm.trans hc))]
      have hdf : it.done = false := by
        rcases Bool.eq_false_or_eq_true it.done with h | h
        all_goals first | exact h | exact absurd h hdone
      have hslot : SlotOk it.atom.data it.e (it.li (!it.current)) := by
        rcases hinv with hD | hS
        · exact absurd hD hdone
        · exact hS
      have hadv := fy_atom_iter_line_advances it hslot li hline
      have hslot2 : SlotOk (fy_atom_iter_line it).1.atom.data
          (fy_atom_iter_line it).1.e
          ((fy_atom_iter_line it).1.li (!(fy_atom_iter_line it).1.current)) := by
        rw [hat, hee]
        exact hadv.2
      have hd2 : ∀ b ∈ (fy_atom_iter_line it).1.atom.data, b < 256 := by
        rw [hat]
        exact hd
      rw [hat]
      have hbody : ChunksOk (match it.atom.style with
          | .FYAS_LITERAL | .FYAS_PLAIN | .FYAS_FOLDED | .FYAS_COMMENT =>
            (addC (fy_slice it.atom.data li.s li.e), (0 : Int))
          | .FYAS_SINGLE_QUOTED => (fy_sq_chunks it.atom.data li.s li.e, 0)
          | .FYAS_DOUBLE_QUOTED => fy_dq_chunks it.atom.data li.s li.e
          | .FYAS_URI => fy_uri_chunks it.atom.data li.s li.e
          | .FYAS_DOUBLE_QUOTED_MANUAL =>
            (fy_dqm_chunks it.atom.data li.s li.e, 0)).1 := by
        cases it.atom.style
        · exact addC_ok _ (fy_slice_bytes _ _ _ hd)
        · exact fy_sq_chunks_ok _ _ _ hd
        · exact fy_dq_chunks_ok _ _ _ hd
        · exact addC_ok _ (fy_slice_bytes _ _ _ hd)
        · exact addC_ok _ (fy_slice_bytes _ _ _ hd)
        · exact fy_uri_chunks_ok _ _ _ hd
        · exact fy_dqm_chunks_ok _ _ _ hd
        · exact addC_ok _ (fy_slice_bytes _ _ _ hd)
      split
      · rename_i hneg
        refine ⟨?_, ?_, ?_, ?_, ?_, ?_, ?_, ?_⟩
        · exact hch
        · exact hrd
        · exact ⟨hat, hee, hcp, hts, hsl, hdq, hem, hug⟩
        · right
          rw [hat, hee]
          exact hadv.2
        · exact hbody
        · intro h
          rw [h] at hneg
          exact absurd hneg (by omega)
        · intro h
          rw [h] at hneg
          exact absurd hneg (by omega)
        · intro h
          exact absurd h hdone
      · split
        · have hkspec := fy_chomp_keep_loop_spec (fy_atom_iter_line it).1 hslot2 hd2
          have hsspec := fy_chomp_strip_loop_spec (fy_atom_iter_line it).1
            (if ¬li.empty = true then 1 else 0) hslot2 hd2
          rcases hchomp : it.atom.chomp with _ | _ | _
          all_goals simp only []
          · rw [if_neg (by simp)]
            refine ⟨?_, ?_, ?_, ?_, ?_, ?_, ?_, ?_⟩
            · exact hsspec.1.trans hch
            · exact hsspec.2.1.trans hrd
            · exact SameCore.trans (SameCore.trans ⟨hat, hee, hcp, hts, hsl, hdq, hem, hug⟩
              hsspec.2.2.2.1) (sameCore_done _ true)
            · exact Or.inl (by simp)
            · exact ChunksOk.append hbody hsspec.2.2.2.2
            · intro h
              exact ⟨hdf, Or.inl (by simp)⟩
            · intro h
              simp at h
            · intro h
              exact absurd h hdone
          · have hs1 := fy_chomp_strip_loop_spec (fy_atom_iter_line it).1 1 hslot2 hd2
            have hs0 := fy_chomp_strip_loop_spec (fy_atom_iter_line it).1 0 hslot2 hd2
            split
            all_goals split
            all_goals refine ⟨?_, ?_, ?_, ?_, ?_, ?_, ?_, ?_⟩
            all_goals first
              | exact hs1.1.trans hch
              | exact hs0.1.trans hch
              | exact hs1.2.1.trans hrd
              | exact hs0.2.1.trans hrd
              | exact SameCore.trans (SameCore.trans
                  ⟨hat, hee, hcp, hts, hsl, hdq, hem, hug⟩ hs1.2.2.2.1)
                  (sameCore_done _ true)
              | exact SameCore.trans (SameCore.trans
                  ⟨hat, hee, hcp, hts, hsl, hdq, hem, hug⟩ hs0.2.2.2.1)
                  (sameCore_done _ true)
              | exact Or.inl rfl
              | exact ChunksOk.append hbody (ChunksOk.append hs1.2.2.2.2
                  (single_byte_ok 0x0a (by omega)))
              | exact ChunksOk.append hbody (ChunksOk.append hs0.2.2.2.2
                  (single_byte_ok 0x0a (by omega)))
              | exact ChunksOk.append hbody hs1.2.2.2.2
              | exact ChunksOk.append hbody hs0.2.2.2.2
              | exact fun h => ⟨hdf, Or.inl rfl⟩
              | exact fun h => ⟨hdf, Or.inl trivial⟩
              | exact Or.inl trivial
              | exact fun h => by simp at h
              | exact fun h => absurd h hdone
          · refine ⟨?_, ?_, ?_, ?_, ?_, ?_, ?_, ?_⟩
            · exact hkspec.1.trans hch
            · exact hkspec.2.1.trans hrd
            · exact SameCore.trans (SameCore.trans ⟨hat, hee, hcp, hts, hsl, hdq, hem, hug⟩
              hkspec.2.2.2.1) (sameCore_done _ true)
            · exact Or.inl (by simp)
            · refine ChunksOk.append hbody (ChunksOk.append ?_ hkspec.2.2.2.2)
              split
              · exact single_byte_ok 0x0a (by omega)
              · exact ChunksOk.nil
            · intro h
              exact ⟨hdf, Or.inl (by simp)⟩
            · intro h
              simp at h
            · intro h
              exact absurd h hdone
        · refine ⟨?_, ?_, ?_, ?_, ?_, ?_, ?_, ?_⟩
          · exact hch
          · exact hrd
          · exact ⟨hat, hee, hcp, hts, hsl, hdq, hem, hug⟩
          · right
            rw [hat, hee]
            exact hadv.2
          · refine ChunksOk.append hbody (ChunksOk.append ?_ ?_)
            · split
              · exact single_byte_ok 0x20 (by omega)
              · exact ChunksOk.nil
            · split
              · exact single_byte_ok 0x0a (by omega)
              · exact ChunksOk.nil
          · intro h
            exact ⟨hdf, Or.inr ⟨hdn.trans hdf, hadv.1⟩⟩
          · intro h
            simp at h
          · intro h
            exact absurd h hdone

theorem fy_atom_iter_format_eq (it : FyAtomIter) :
    fy_atom_iter_format it =
      ({ (fy_atom_iter_format_core it).1 with
          chunks := (fy_atom_iter_format_core it).1.chunks ++
            (fy_atom_iter_format_core it).2.1 },
       (fy_atom_iter_format_core it).2.2) := rfl

theorem iterMeasure_cong (it : FyAtomIter) (X : List (List Nat)) (rd : Nat) :
    iterMeasure { it with chunks := X, read := rd } = iterMeasure it := rfl

theorem fy_chomp_strip_loop_cong (it : FyAtomIter) (pending : Nat)
    (X : List (List Nat)) (rd : Nat) :
    fy_chomp_strip_loop { it with chunks := X, read := rd } pending =
      ({ (fy_chomp_strip_loop it pending).1 with chunks := X, read := rd },
       (fy_chomp_strip_loop it pending).2) := by
  have H : ∀ n it pending (X : List (List Nat)) (rd : Nat), iterMeasure it = n →
      fy_chomp_strip_loop { it with chunks := X, read := rd } pending =
        ({ (fy_chomp_strip_loop it pending).1 with chunks := X, read := rd },
         (fy_chomp_strip_loop it pending).2) := by
    intro n
    induction n using Nat.strong_induction_on with
    | _ n IH =>
      intro it pending X rd hn
      rw [fy_chomp_strip_loop.eq_def]
      conv_rhs => rw [fy_chomp_strip_loop.eq_def]
      rw [fy_atom_iter_line_cong]
      dsimp only []
      rcases hli : (fy_atom_iter_line it).2 with _ | li
      · rfl
      · dsimp only []
        simp only [iterMeasure_cong]
        split
        · rename_i hlt
          rw [hn] at hlt
          rw [IH (iterMeasure (fy_atom_iter_line it).1) hlt _ _ _ _ rfl]
        · rfl
  exact H (iterMeasure it) it pending X rd rfl

theorem fy_chomp_keep_loop_cong (it : FyAtomIter)
    (X : List (List Nat)) (rd : Nat) :
    fy_chomp_keep_loop { it with chunks := X, read := rd } =
      ({ (fy_chomp_keep_loop it).1 with chunks := X, read := rd },
       (fy_chomp_keep_loop it).2) := by
  have H : ∀ n it (X : List (List Nat)) (rd : Nat), iterMeasure it = n →
      fy_chomp_keep_loop { it with chunks := X, read := rd } =
        ({ (fy_chomp_keep_loop it).1 with chunks := X, read := rd },
         (fy_chomp_keep_loop it).2) := by
    intro n
    induction n using Nat.strong_induction_on with
    | _ n IH =>
      intro it X rd hn
      rw [fy_chomp_keep_loop.eq_def]
      conv_rhs => rw [fy_chomp_keep_loop.eq_def]
      rw [fy_atom_iter_line_cong]
      dsimp only []
      rcases hli : (fy_atom_iter_line it).2 with _ | li
      · rfl
      · dsimp only []
        simp only [iterMeasure_cong]
        split
        · rename_i hlt
          rw [hn] at hlt
          rw [IH (iterMeasure (fy_atom_iter_line it).1) hlt _ _ _ rfl]
        · rfl
  exact H (iterMeasure it) it X rd rfl

theorem fy_atom_iter_format_core_cong (it : FyAtomIter)
    (X : List (List Nat)) (rd : Nat) :
    fy_atom_iter_format_core { it with chunks := X, read := rd } =
      ({ (fy_atom_iter_format_core it).1 with chunks := X, read := rd },
       (fy_atom_iter_format_core it).2) := by
  unfold fy_atom_iter_format_core
  rw [fy_atom_iter_line_cong]
  dsimp only
  rcases hli : (fy_atom_iter_line it).2 with _ | li
  · rfl
  · dsimp only []
    simp only [fy_chomp_strip_loop_cong, fy_chomp_keep_loop_cong]
    try dsimp only []
    repeat' split
    all_goals rfl

theorem iterMeasure_cong2 (it : FyAtomIter) (X : List (List Nat)) :
    iterMeasure { it with chunks := X } = iterMeasure it := rfl

theorem fy_chomp_strip_loop_chunks (it : FyAtomIter) (pending : Nat) :
    (fy_chomp_strip_loop it pending).1.chunks = it.chunks := by
  induction it, pending using fy_chomp_strip_loop.induct with
  | case1 it pending r heq =>
    rw [fy_chomp_strip_loop.eq_def]
    simp only []
    rw [show (fy_atom_iter_line it).2 = none from heq]
    exact (fy_atom_iter_line_preserves it).1
  | case2 it pending r li heq it2 st pending2 h ih =>
    rw [fy_chomp_strip_loop.eq_def]
    simp only []
    rw [show (fy_atom_iter_line it).2 = some li from heq]
    simp only []
    rw [dif_pos (show iterMeasure (fy_atom_iter_line it).1 < iterMeasure it from h)]
    exact ih.trans (fy_atom_iter_line_preserves it).1
  | case3 it pending r li heq it2 h =>
    rw [fy_chomp_strip_loop.eq_def]
    simp only []
    rw [show (fy_atom_iter_line it).2 = some li from heq]
    simp only []
    rw [dif_neg (show ¬iterMeasure (fy_atom_iter_line it).1 < iterMeasure it from h)]
    exact (fy_atom_iter_line_preserves it).1

theorem fy_chomp_keep_loop_chunks (it : FyAtomIter) :
    (fy_chomp_keep_loop it).1.chunks = it.chunks := by
  induction it using fy_chomp_keep_loop.induct with
  | case1 it r heq =>
    rw [fy_chomp_keep_loop.eq_def]
    simp only []
    rw [show (fy_atom_iter_line it).2 = none from heq]
    exact (fy_atom_iter_line_preserves it).1
  | case2 it r li heq it2 h ih =>
    rw [fy_chomp_keep_loop.eq_def]
    simp only []
    rw [show (fy_atom_iter_line it).2 = some li from heq]
    simp only []
    rw [dif_pos (show iterMeasure (fy_atom_iter_line it).1 < iterMeasure it from h)]
    exact ih.trans (fy_atom_iter_line_preserves it).1
  | case3 it r li heq it2 h =>
    rw [fy_chomp_keep_loop.eq_def]
    simp only []
    rw [show (fy_atom_iter_line it).2 = some li from heq]
    simp only []
    rw [dif_neg (show ¬iterMeasure (fy_atom_iter_line it).1 < iterMeasure it from h)]
    exact (fy_atom_iter_line_preserves it).1

theorem fy_atom_iter_format_core_chunks (it : FyAtomIter) :
    (fy_atom_iter_format_core it).1.chunks = it.chunks := by
  have hch := (fy_atom_iter_line_preserves it).1
  unfold fy_atom_iter_format_core
  dsimp only
  rcases hli : (fy_atom_iter_line it).2 with _ | li
  · exact hch
  · dsimp only []
    repeat' split
    all_goals first
      | exact hch
      | exact (fy_chomp_strip_loop_chunks _ _).trans hch
      | exact (fy_chomp_keep_loop_chunks _).trans hch

theorem fy_future_chunks_cong (it : FyAtomIter) (X : List (List Nat)) (rd : Nat) :
    fy_future_chunks { it with chunks := X, read := rd } = fy_future_chunks it := by
  have H : ∀ n it (X : List (List Nat)) (rd : Nat),
      (if it.done then 0 else 1) * (it.e + 2) + iterMeasure it = n →
      fy_future_chunks { it with chunks := X, read := rd } =
        fy_future_chunks it := by
    intro n
    induction n using Nat.strong_induction_on with
    | _ n IH =>
      intro it X rd hn
      rw [fy_future_chunks.eq_def]
      conv_rhs => rw [fy_future_chunks.eq_def]
      simp only [fy_atom_iter_format_eq, fy_atom_iter_format_core_cong]
      try dsimp only
      simp only [iterMeasure_cong, iterMeasure_cong2,
        fy_atom_iter_format_core_chunks, List.drop_left]
      split
      · rfl
      · rename_i hpos
        split
        · rename_i hg
          obtain ⟨hdone, he, hor⟩ := hg
          have hb : iterMeasure (fy_atom_iter_format_core it).1 ≤
              (fy_atom_iter_format_core it).1.e + 1 := by
            unfold iterMeasure
            omega
          have hm : (if (fy_atom_iter_format_core it).1.done then 0 else 1) *
              ((fy_atom_iter_format_core it).1.e + 2) +
              iterMeasure (fy_atom_iter_format_core it).1 < n := by
            rw [hdone] at hn
            rcases hor with h2 | h3
            · rw [h2]
              simp only [if_true]
              simp at hn
              omega
            · have hd2 : iterMeasure (fy_atom_iter_format_core it).1 <
                  iterMeasure it := h3
              rcases Bool.eq_false_or_eq_true (fy_atom_iter_format_core it).1.done
                with hdd | hdd
              all_goals rw [hdd]
              all_goals simp at hn ⊢
              all_goals omega
          rw [show fy_future_chunks { (fy_atom_iter_format_core it).1 with
                chunks := X ++ (fy_atom_iter_format_core it).2.1, read := rd } =
              fy_future_chunks (fy_atom_iter_format_core it).1 from
            IH _ hm _ _ _ rfl]
          rw [show fy_future_chunks { (fy_atom_iter_format_core it).1 with
                chunks := it.chunks ++ (fy_atom_iter_format_core it).2.1,
                read := (fy_atom_iter_format_core it).1.read } =
              fy_future_chunks (fy_atom_iter_format_core it).1 from
            IH _ hm _ _ _ rfl]
        · rfl
  exact H _ it X rd rfl

theorem fy_future_chunks_cong2 (it : FyAtomIter) (X : List (List Nat)) :
    fy_future_chunks { it with chunks := X } = fy_future_chunks it :=
  fy_future_chunks_cong it X it.read

theorem fy_atom_iter_format_core_ret_le (it : FyAtomIter) :
    (fy_atom_iter_format_core it).2.2 ≤ 1 := by
  unfold fy_atom_iter_format_core
  dsimp only
  rcases hli : (fy_atom_iter_line it).2 with _ | li
  · dsimp only []
    omega
  · dsimp only []
    split
    · dsimp only []
      omega
    · rcases hstyle : (fy_atom_iter_line it).1.atom.style
      all_goals dsimp only []
      all_goals repeat' split
      all_goals try dsimp only []
      all_goals omega

theorem fy_atom_iter_peek_chunk_eq (it : FyAtomIter) :
    fy_atom_iter_peek_chunk it = (it.chunks.drop it.read).head? := by
  unfold fy_atom_iter_peek_chunk
  rw [List.head?_drop]

theorem fy_atom_iter_pull_spec (it : FyAtomIter)
    (hinv : IterInvD it) (hd : ∀ b ∈ it.atom.data, b < 256)
    (hbuf : it.read = it.chunks.length) :
    SameCore it (fy_atom_iter_pull it).1 ∧
    IterInvD (fy_atom_iter_pull it).1 ∧
    ((fy_atom_iter_pull it).2 ≤ 0 →
      fy_future_chunks it = ([], (fy_atom_iter_pull it).2)) ∧
    ((fy_atom_iter_pull it).2 = 1 →
      (fy_atom_iter_pull it).1.read ≤ (fy_atom_iter_pull it).1.chunks.length ∧
      ChunksOk ((fy_atom_iter_pull it).1.chunks.drop (fy_atom_iter_pull it).1.read) ∧
      (fy_atom_iter_pull it).1.chunks.drop (fy_atom_iter_pull it).1.read ≠ [] ∧
      (fy_atom_iter_pull it).1.chunks.drop (fy_atom_iter_pull it).1.read ++
        (fy_future_chunks (fy_atom_iter_pull it).1).1 = (fy_future_chunks it).1 ∧
      (fy_future_chunks (fy_atom_iter_pull it).1).2 = (fy_future_chunks it).2 ∧
      ((if (fy_atom_iter_pull it).1.done then 0 else 1) <
         (if it.done then 0 else 1) ∨
       ((fy_atom_iter_pull it).1.done = it.done ∧
        iterMeasure (fy_atom_iter_pull it).1 < iterMeasure it))) := by
  induction it using fy_atom_iter_pull.induct with
  | case1 it r h =>
    obtain ⟨f1, f2, f3, f4, f5, f6, f7, f8⟩ :=
      fy_atom_iter_format_core_spec it hinv hd
    have hP : fy_atom_iter_pull it = fy_atom_iter_format it := by
      rw [fy_atom_iter_pull.eq_def]
      simp only []
      rw [if_pos (show (fy_atom_iter_format it).2 ≤ 0 from h)]
    rw [hP]
    refine ⟨f3, f4, ?_, ?_⟩
    · intro h0
      rw [fy_future_chunks.eq_def]
      simp only []
      rw [if_pos (show (fy_atom_iter_format it).2 ≤ 0 from h)]
    · intro h1
      have h' : (fy_atom_iter_format it).2 ≤ 0 := h
      rw [h1] at h'
      exact absurd h' (by omega)
  | case2 it r h1 h2 =>
    obtain ⟨f1, f2, f3, f4, f5, f6, f7, f8⟩ :=
      fy_atom_iter_format_core_spec it hinv hd
    have h1' : ¬(fy_atom_iter_format it).2 ≤ 0 := h1
    have h2' : (fy_atom_iter_peek_chunk (fy_atom_iter_format it).1).isSome = true := h2
    have hret1 : (fy_atom_iter_format_core it).2.2 = 1 := by
      have ha : ¬(fy_atom_iter_format_core it).2.2 ≤ 0 := h1
      have hb := fy_atom_iter_format_core_ret_le it
      omega
    obtain ⟨hdf, hor⟩ := f6 hret1
    have hP : fy_atom_iter_pull it = fy_atom_iter_format it := by
      rw [fy_atom_iter_pull.eq_def]
      simp only []
      rw [if_neg h1', if_pos h2']
    have hb1 : (fy_atom_iter_format it).1.chunks.drop (fy_atom_iter_format it).1.read =
        (fy_atom_iter_format_core it).2.1 := by
      show ((fy_atom_iter_format_core it).1.chunks ++
        (fy_atom_iter_format_core it).2.1).drop (fy_atom_iter_format_core it).1.read = _
      rw [f1, f2, hbuf, List.drop_left]
    have hfut : fy_future_chunks it =
        ((fy_atom_iter_format_core it).2.1 ++
          (fy_future_chunks (fy_atom_iter_format it).1).1,
         (fy_future_chunks (fy_atom_iter_format it).1).2) := by
      rw [fy_future_chunks.eq_def]
      simp only []
      rw [if_neg h1']
      rw [show (fy_atom_iter_format it).1.chunks.drop it.chunks.length =
          (fy_atom_iter_format_core it).2.1 from by
        show ((fy_atom_iter_format_core it).1.chunks ++
          (fy_atom_iter_format_core it).2.1).drop it.chunks.length = _
        rw [f1, List.drop_left]]
      rw [dif_pos ⟨hdf, f3.2.1, by
        rcases hor with hD | ⟨_, hM⟩
        · exact Or.inl hD
        · exact Or.inr hM⟩]
    rw [hP]
    refine ⟨f3, f4, fun h0 => absurd h0 h1', fun _ => ⟨?_, ?_, ?_, ?_, ?_, ?_⟩⟩
    · show (fy_atom_iter_format_core it).1.read ≤
        ((fy_atom_iter_format_core it).1.chunks ++
          (fy_atom_iter_format_core it).2.1).length
      rw [f1, f2, hbuf, List.length_append]
      omega
    · rw [hb1]
      exact f5
    · rw [hb1]
      have hh := h2'
      rw [fy_atom_iter_peek_chunk_eq, hb1] at hh
      intro hc
      rw [hc] at hh
      simp at hh
    · rw [hb1, hfut]
    · rw [hfut]
    · rcases hor with hD | ⟨hD, hM⟩
      · left
        have hD2 : (fy_atom_iter_format it).1.done = true := hD
        rw [hD2, hdf]
        simp
      · right
        exact ⟨(show (fy_atom_iter_format it).1.done = false from hD).trans
          hdf.symm, hM⟩
  | case3 it r h1 h2 h3 ih =>
    obtain ⟨f1, f2, f3, f4, f5, f6, f7, f8⟩ :=
      fy_atom_iter_format_core_spec it hinv hd
    have h1' : ¬(fy_atom_iter_format it).2 ≤ 0 := h1
    have h2' : ¬(fy_atom_iter_peek_chunk (fy_atom_iter_format it).1).isSome = true := h2
    have hret1 : (fy_atom_iter_format_core it).2.2 = 1 := by
      have ha : ¬(fy_atom_iter_format_core it).2.2 ≤ 0 := h1
      have hb := fy_atom_iter_format_core_ret_le it
      omega
    obtain ⟨hdf, hor⟩ := f6 hret1
    have hb1 : (fy_atom_iter_format it).1.chunks.drop (fy_atom_iter_format it).1.read =
        (fy_atom_iter_format_core it).2.1 := by
      show ((fy_atom_iter_format_core it).1.chunks ++
        (fy_atom_iter_format_core it).2.1).drop (fy_atom_iter_format_core it).1.read = _
      rw [f1, f2, hbuf, List.drop_left]
    have hadds : (fy_atom_iter_format_core it).2.1 = [] := by
      have hh : (fy_atom_iter_peek_chunk (fy_atom_iter_format it).1).isSome = false := by
        rcases Bool.eq_false_or_eq_true
            (fy_atom_iter_peek_chunk (fy_atom_iter_format it).1).isSome with hx | hx
        all_goals first | exact hx | exact absurd hx h2'
      rw [fy_atom_iter_peek_chunk_eq, hb1] at hh
      rcases hE : (fy_atom_iter_format_core it).2.1 with _ | ⟨c, t⟩
      · rfl
      · rw [hE] at hh
        simp at hh
    have hfut : fy_future_chunks it = fy_future_chunks (fy_atom_iter_format it).1 := by
      rw [fy_future_chunks.eq_def]
      simp only []
      rw [if_neg h1']
      rw [show (fy_atom_iter_format it).1.chunks.drop it.chunks.length =
          (fy_atom_iter_format_core it).2.1 from by
        show ((fy_atom_iter_format_core it).1.chunks ++
          (fy_atom_iter_format_core it).2.1).drop it.chunks.length = _
        rw [f1, List.drop_left]]
      rw [dif_pos ⟨hdf, f3.2.1, by
        rcases hor with hD | ⟨_, hM⟩
        · exact Or.inl hD
        · exact Or.inr hM⟩]
      rw [hadds]
      simp
    have hd2 : ∀ b ∈ (fy_atom_iter_format it).1.atom.data, b < 256 := by
      have : (fy_atom_iter_format it).1.atom = it.atom := f3.1
      rw [this]
      exact hd
    have hbuf2 : (fy_atom_iter_format it).1.read =
        (fy_atom_iter_format it).1.chunks.length := by
      show (fy_atom_iter_format_core it).1.read =
        ((fy_atom_iter_format_core it).1.chunks ++
          (fy_atom_iter_format_core it).2.1).length
      rw [f1, f2, hbuf, hadds, List.length_append]
      simp
    have IH : SameCore (fy_atom_iter_format it).1
        (fy_atom_iter_pull (fy_atom_iter_format it).1).1 ∧
        IterInvD (fy_atom_iter_pull (fy_atom_iter_format it).1).1 ∧
        ((fy_atom_iter_pull (fy_atom_iter_format it).1).2 ≤ 0 →
          fy_future_chunks (fy_atom_iter_format it).1 =
            ([], (fy_atom_iter_pull (fy_atom_iter_format it).1).2)) ∧
        ((fy_atom_iter_pull (fy_atom_iter_format it).1).2 = 1 →
          (fy_atom_iter_pull (fy_atom_iter_format it).1).1.read ≤
            (fy_atom_iter_pull (fy_atom_iter_format it).1).1.chunks.length ∧
          ChunksOk ((fy_atom_iter_pull (fy_atom_iter_format it).1).1.chunks.drop
            (fy_atom_iter_pull (fy_atom_iter_format it).1).1.read) ∧
          (fy_atom_iter_pull (fy_atom_iter_format it).1).1.chunks.drop
            (fy_atom_iter_pull (fy_atom_iter_format it).1).1.read ≠ [] ∧
          (fy_atom_iter_pull (fy_atom_iter_format it).1).1.chunks.drop
            (fy_atom_iter_pull (fy_atom_iter_format it).1).1.read ++
            (fy_future_chunks
              (fy_atom_iter_pull (fy_atom_iter_format it).1).1).1 =
            (fy_future_chunks (fy_atom_iter_format it).1).1 ∧
          (fy_future_chunks (fy_atom_iter_pull (fy_atom_iter_format it).1).1).2 =
            (fy_future_chunks (fy_atom_iter_format it).1).2 ∧
          ((if (fy_atom_iter_pull (fy_atom_iter_format it).1).1.done
              then 0 else 1 : Nat) <
             (if (fy_atom_iter_format it).1.done then 0 else 1) ∨
           ((fy_atom_iter_pull (fy_atom_iter_format it).1).1.done =
              (fy_atom_iter_format it).1.done ∧
            iterMeasure (fy_atom_iter_pull (fy_atom_iter_format it).1).1 <
              iterMeasure (fy_atom_iter_format it).1))) := ih f4 hd2 hbuf2
    have hP : fy_atom_iter_pull it = fy_atom_iter_pull (fy_atom_iter_format it).1 := by
      rw [fy_atom_iter_pull.eq_def]
      simp only []
      rw [if_neg h1', if_neg h2', dif_pos h3]
    rw [hP] at *
    rw [hP]
    obtain ⟨g1, g2, g3, g4⟩ := IH
    refine ⟨SameCore.trans f3 g1, g2, ?_, ?_⟩
    · intro h0
      rw [hfut]
      exact g3 h0
    · intro hone
      obtain ⟨k1, k2, k3, k4, k5, k6⟩ := g4 hone
      refine ⟨k1, k2, k3, ?_, ?_, ?_⟩
      · rw [hfut]
        exact k4
      · rw [hfut]
        exact k5
      · have hstep : (if (fy_atom_iter_format it).1.done then 0 else 1 : Nat) <
            (if it.done then 0 else 1) ∨
            ((fy_atom_iter_format it).1.done = it.done ∧
             iterMeasure (fy_atom_iter_format it).1 < iterMeasure it) := by
          rcases hor with hD | ⟨hD, hM⟩
          · left
            have hD2 : (fy_atom_iter_format it).1.done = true := hD
            rw [hD2, hdf]
            simp
          · right
            exact ⟨(show (fy_atom_iter_format it).1.done = false from hD).trans
          hdf.symm, hM⟩
        rcases hstep with hs | ⟨hseq, hsm⟩
        · rcases k6 with kk | ⟨kkeq, kkm⟩
          · left
            omega
          · left
            have : (if (fy_atom_iter_pull (fy_atom_iter_format it).1).1.done
                then 0 else 1 : Nat) =
                (if (fy_atom_iter_format it).1.done then 0 else 1) := by
              rw [kkeq]
            omega
        · rcases k6 with kk | ⟨kkeq, kkm⟩
          · left
            have : (if (fy_atom_iter_format it).1.done then 0 else 1 : Nat) =
                (if it.done then 0 else 1) := by
              rw [hseq]
            omega
          · right
            exact ⟨kkeq.trans hseq, by omega⟩
  | case4 it r h1 h2 h3 =>
    obtain ⟨f1, f2, f3, f4, f5, f6, f7, f8⟩ :=
      fy_atom_iter_format_core_spec it hinv hd
    have hret1 : (fy_atom_iter_format_core it).2.2 = 1 := by
      have ha : ¬(fy_atom_iter_format_core it).2.2 ≤ 0 := h1
      have hb := fy_atom_iter_format_core_ret_le it
      omega
    obtain ⟨hdf, hor⟩ := f6 hret1
    exact absurd ⟨hdf, f3.2.1, by
      rcases hor with hD | ⟨_, hM⟩
      · exact Or.inl hD
      · exact Or.inr hM⟩ h3

theorem drop_set_after (l : List (List Nat)) (i : Nat) (v : List Nat) :
    (l.set i v).drop (i + 1) = l.drop (i + 1) := by
  induction l generalizing i with
  | nil => simp
  | cons a t ih =>
    cases i with
    | zero => simp
    | succ j =>
      simp only [List.set, List.drop_succ_cons]
      exact ih j

theorem drop_set_head (l : List (List Nat)) (i : Nat) (v : List Nat)
    (h : i < l.length) :
    (l.set i v).drop i = v :: l.drop (i + 1) := by
  induction l generalizing i with
  | nil => simp at h
  | cons a t ih =>
    cases i with
    | zero => simp
    | succ j =>
      simp only [List.set, List.drop_succ_cons]
      exact ih j (by simp at h; omega)

theorem fy_atom_iter_advance_spec (it : FyAtomIter) (ic : List Nat) (len : Nat)
    (hpk : fy_atom_iter_peek_chunk it = some ic) (hlen : len ≤ ic.length)
    (hpos : 0 < len) :
    (∃ C R, fy_atom_iter_advance it len = { it with chunks := C, read := R }) ∧
    (fy_atom_iter_advance it len).chunks.drop (fy_atom_iter_advance it len).read =
      (if len < ic.length then ic.drop len :: (it.chunks.drop (it.read + 1))
       else it.chunks.drop (it.read + 1)) ∧
    (fy_atom_iter_advance it len).read ≤
      (fy_atom_iter_advance it len).chunks.length ∧
    fy_future_chunks (fy_atom_iter_advance it len) = fy_future_chunks it := by
  have hrd : it.read < it.chunks.length := by
    unfold fy_atom_iter_peek_chunk at hpk
    obtain ⟨h, _⟩ := List.getElem?_eq_some_iff.mp hpk
    exact h
  have hic : it.chunks.getD it.read [] = ic := by
    unfold fy_atom_iter_peek_chunk at hpk
    rw [List.getD_eq_getElem?_getD, hpk]
    rfl
  have hloop : fy_atom_iter_advance_loop it.chunks it.read len =
      (it.chunks.set it.read (ic.drop len),
       if (ic.drop len).length = 0 then it.read + 1 else it.read) := by
    rw [fy_atom_iter_advance_loop.eq_def]
    simp only []
    rw [dif_pos ⟨hpos, hrd⟩, hic]
    rw [show min len ic.length = len from by omega, Nat.sub_self]
    rw [fy_atom_iter_advance_loop.eq_def]
    simp only []
    rw [dif_neg (fun hcon => absurd hcon.1 (by omega))]
  unfold fy_atom_iter_advance
  simp only []
  rw [hloop]
  dsimp only
  by_cases hc : len < ic.length
  · have hne : ¬(ic.drop len).length = 0 := by
      rw [List.length_drop]
      omega
    rw [if_neg hne]
    rw [if_neg (show ¬(it.chunks.set it.read (ic.drop len)).length ≤ it.read from by
      rw [List.length_set]
      omega)]
    refine ⟨⟨_, _, rfl⟩, ?_, ?_, ?_⟩
    · dsimp only
      rw [if_pos hc]
      exact drop_set_head it.chunks it.read (ic.drop len) hrd
    · dsimp only
      rw [List.length_set]
      omega
    · exact fy_future_chunks_cong it _ _
  · have hz : (ic.drop len).length = 0 := by
      rw [List.length_drop]
      omega
    rw [if_pos hz]
    by_cases hreset : (it.chunks.set it.read (ic.drop len)).length ≤ it.read + 1
    · rw [if_pos hreset]
      unfold fy_atom_iter_chunk_reset
      rw [List.length_set] at hreset
      refine ⟨⟨_, _, rfl⟩, ?_, ?_, ?_⟩
      · dsimp only
        rw [if_neg hc]
        rw [show List.drop (it.read + 1) it.chunks = [] from
          List.drop_eq_nil_of_le (by omega)]
        rfl
      · dsimp only
        simp
      · exact (fy_future_chunks_cong
          { it with
            chunks := it.chunks.set it.read (ic.drop len), read := it.read + 1 }
          [] 0).trans (fy_future_chunks_cong it _ _)
    · rw [if_neg hreset]
      refine ⟨⟨_, _, rfl⟩, ?_, ?_, ?_⟩
      · dsimp only
        rw [if_neg hc]
        exact drop_set_after it.chunks it.read (ic.drop len)
      · dsimp only
        rw [List.length_set] at hreset ⊢
        omega
      · exact fy_future_chunks_cong it _ _

theorem reset_pull_spec (it : FyAtomIter)
    (hinv : IterInvD it) (hd : ∀ b ∈ it.atom.data, b < 256) :
    SameCore it (fy_atom_iter_pull (fy_atom_iter_chunk_reset it)).1 ∧
    IterInvD (fy_atom_iter_pull (fy_atom_iter_chunk_reset it)).1 ∧
    ((fy_atom_iter_pull (fy_atom_iter_chunk_reset it)).2 ≤ 0 →
      fy_future_chunks it =
        ([], (fy_atom_iter_pull (fy_atom_iter_chunk_reset it)).2)) ∧
    ((fy_atom_iter_pull (fy_atom_iter_chunk_reset it)).2 = 1 →
      (fy_atom_iter_pull (fy_atom_iter_chunk_reset it)).1.read ≤
        (fy_atom_iter_pull (fy_atom_iter_chunk_reset it)).1.chunks.length ∧
      ChunksOk ((fy_atom_iter_pull (fy_atom_iter_chunk_reset it)).1.chunks.drop
        (fy_atom_iter_pull (fy_atom_iter_chunk_reset it)).1.read) ∧
      (fy_atom_iter_pull (fy_atom_iter_chunk_reset it)).1.chunks.drop
        (fy_atom_iter_pull (fy_atom_iter_chunk_reset it)).1.read ≠ [] ∧
      (fy_atom_iter_pull (fy_atom_iter_chunk_reset it)).1.chunks.drop
        (fy_atom_iter_pull (fy_atom_iter_chunk_reset it)).1.read ++
        (fy_future_chunks
          (fy_atom_iter_pull (fy_atom_iter_chunk_reset it)).1).1 =
        (fy_future_chunks it).1 ∧
      (fy_future_chunks (fy_atom_iter_pull (fy_atom_iter_chunk_reset it)).1).2 =
        (fy_future_chunks it).2 ∧
      ((if (fy_atom_iter_pull (fy_atom_iter_chunk_reset it)).1.done
          then 0 else 1 : Nat) < (if it.done then 0 else 1) ∨
       ((if (fy_atom_iter_pull (fy_atom_iter_chunk_reset it)).1.done
           then 0 else 1 : Nat) = (if it.done then 0 else 1) ∧
        iterMeasure (fy_atom_iter_pull (fy_atom_iter_chunk_reset it)).1 <
          iterMeasure it))) := by
  have hrinv : IterInvD (fy_atom_iter_chunk_reset it) := hinv
  have hrd2 : ∀ b ∈ (fy_atom_iter_chunk_reset it).atom.data, b < 256 := hd
  have hrbuf : (fy_atom_iter_chunk_reset it).read =
      (fy_atom_iter_chunk_reset it).chunks.length := rfl
  have hfr : fy_future_chunks (fy_atom_iter_chunk_reset it) = fy_future_chunks it :=
    fy_future_chunks_cong it [] 0
  obtain ⟨p1, p2, p3, p4⟩ :=
    fy_atom_iter_pull_spec (fy_atom_iter_chunk_reset it) hrinv hrd2 hrbuf
  have hsc : SameCore it (fy_atom_iter_pull (fy_atom_iter_chunk_reset it)).1 :=
    SameCore.trans (show SameCore it (fy_atom_iter_chunk_reset it) from
      ⟨rfl, rfl, rfl, rfl, rfl, rfl, rfl, rfl⟩) p1
  refine ⟨hsc, p2, ?_, ?_⟩
  · intro h0
    rw [← hfr]
    exact p3 h0
  · intro h1
    obtain ⟨k1, k2, k3, k4, k5, k6⟩ := p4 h1
    refine ⟨k1, k2, k3, ?_, ?_, ?_⟩
    · rw [← hfr]
      exact k4
    · rw [← hfr]
      exact k5
    · rcases k6 with k6 | ⟨k6a, k6b⟩
      · exact Or.inl k6
      · exact Or.inr ⟨by rw [show (fy_atom_iter_pull (fy_atom_iter_chunk_reset it)).1.done = it.done from k6a], k6b⟩

theorem chunkConcat_nil : chunkConcat [] = [] := rfl

theorem chunkConcat_cons (c : List Nat) (l : List (List Nat)) :
    chunkConcat (c :: l) = c ++ chunkConcat l := rfl

theorem chunkConcat_append (l1 l2 : List (List Nat)) :
    chunkConcat (l1 ++ l2) = chunkConcat l1 ++ chunkConcat l2 := by
  induction l1 with
  | nil => rfl
  | cons c t ih => simp [chunkConcat_cons, ih]

theorem fy_atom_iter_pull_ret_le (it : FyAtomIter) :
    (fy_atom_iter_pull it).2 ≤ 1 := by
  induction it using fy_atom_iter_pull.induct with
  | case1 it r h =>
    rw [fy_atom_iter_pull.eq_def]
    simp only []
    rw [if_pos (show (fy_atom_iter_format it).2 ≤ 0 from h)]
    exact le_trans h (by omega)
  | case2 it r h1 h2 =>
    rw [fy_atom_iter_pull.eq_def]
    simp only []
    rw [if_neg (show ¬(fy_atom_iter_format it).2 ≤ 0 from h1),
      if_pos (show (fy_atom_iter_peek_chunk (fy_atom_iter_format it).1).isSome = true from h2)]
    exact fy_atom_iter_format_core_ret_le it
  | case3 it r h1 h2 h3 ih =>
    rw [fy_atom_iter_pull.eq_def]
    simp only []
    rw [if_neg (show ¬(fy_atom_iter_format it).2 ≤ 0 from h1),
      if_neg (show ¬(fy_atom_iter_peek_chunk (fy_atom_iter_format it).1).isSome = true from h2),
      dif_pos h3]
    exact ih
  | case4 it r h1 h2 h3 =>
    rw [fy_atom_iter_pull.eq_def]
    simp only []
    rw [if_neg (show ¬(fy_atom_iter_format it).2 ≤ 0 from h1),
      if_neg (show ¬(fy_atom_iter_peek_chunk (fy_atom_iter_format it).1).isSome = true from h2),
      dif_neg h3]
    exact fy_atom_iter_format_core_ret_le it

theorem fy_atom_iter_chunk_next_spec (it : FyAtomIter) (curr : Option (List Nat))
    (hinv : IterInvD it) (hd : ∀ b ∈ it.atom.data, b < 256)
    (hok : ChunksOk (it.chunks.drop it.read))
    (hdisc : (curr = none ∧ it.chunks.drop it.read = []) ∨
             (∃ c0, curr = some c0 ∧ fy_atom_iter_peek_chunk it = some c0)) :
    SameCore it (fy_atom_iter_chunk_next it curr).1 ∧
    IterInvD (fy_atom_iter_chunk_next it curr).1 ∧
    ((∃ c, (fy_atom_iter_chunk_next it curr).2.1 = some c ∧
        (fy_atom_iter_chunk_next it curr).2.2 = 0 ∧
        fy_atom_iter_peek_chunk (fy_atom_iter_chunk_next it curr).1 = some c ∧
        (fy_atom_iter_chunk_next it curr).1.read ≤
          (fy_atom_iter_chunk_next it curr).1.chunks.length ∧
        ChunksOk ((fy_atom_iter_chunk_next it curr).1.chunks.drop
          (fy_atom_iter_chunk_next it curr).1.read) ∧
        iterStream it curr =
          c ++ iterStream (fy_atom_iter_chunk_next it curr).1 (some c) ∧
        (fy_future_chunks (fy_atom_iter_chunk_next it curr).1).2 =
          (fy_future_chunks it).2 ∧
        ((if (fy_atom_iter_chunk_next it curr).1.done then 0 else 1 : Nat) <
            (if it.done then 0 else 1) ∨
         ((if (fy_atom_iter_chunk_next it curr).1.done then 0 else 1 : Nat) =
            (if it.done then 0 else 1) ∧
          iterMeasure (fy_atom_iter_chunk_next it curr).1 < iterMeasure it) ∨
         ((if (fy_atom_iter_chunk_next it curr).1.done then 0 else 1 : Nat) =
            (if it.done then 0 else 1) ∧
          iterMeasure (fy_atom_iter_chunk_next it curr).1 = iterMeasure it ∧
          bufBytes (fy_atom_iter_chunk_next it curr).1 + 1 <
            bufBytes it + (if curr.isSome then 1 else 0)))) ∨
     ((fy_atom_iter_chunk_next it curr).2.1 = none ∧
      iterStream it curr = [] ∧
      (fy_atom_iter_chunk_next it curr).2.2 =
        (if (fy_future_chunks it).2 < 0 then -1 else 0))) := by
  rcases hdisc with ⟨hc0, hbe⟩ | ⟨c0, hc0, hpk⟩
  · subst hc0
    have hpk0 : fy_atom_iter_peek_chunk it = none := by
      rw [fy_atom_iter_peek_chunk_eq, hbe]
      rfl
    have hN : fy_atom_iter_chunk_next it none =
        (if (fy_atom_iter_pull (fy_atom_iter_chunk_reset it)).2 ≤ 0 then
          ((fy_atom_iter_pull (fy_atom_iter_chunk_reset it)).1, none,
            if (fy_atom_iter_pull (fy_atom_iter_chunk_reset it)).2 < 0 then -1 else 0)
        else ((fy_atom_iter_pull (fy_atom_iter_chunk_reset it)).1,
          fy_atom_iter_peek_chunk
            (fy_atom_iter_pull (fy_atom_iter_chunk_reset it)).1, 0)) := by
      unfold fy_atom_iter_chunk_next
      simp only [Option.isSome_none, Bool.false_eq_true, false_and, if_false,
        eq_self_iff_true, true_or, if_true]
    obtain ⟨q1, q2, q3, q4⟩ := reset_pull_spec it hinv hd
    by_cases hp : (fy_atom_iter_pull (fy_atom_iter_chunk_reset it)).2 ≤ 0
    · rw [hN, if_pos hp]
      refine ⟨q1, q2, Or.inr ⟨rfl, ?_, ?_⟩⟩
      · unfold iterStream
        rw [hbe, q3 hp]
        rfl
      · rw [q3 hp]
    · have hp1 : (fy_atom_iter_pull (fy_atom_iter_chunk_reset it)).2 = 1 := by
        have := fy_atom_iter_pull_ret_le (fy_atom_iter_chunk_reset it)
        omega
      obtain ⟨k1, k2, k3, k4, k5, k6⟩ := q4 hp1
      obtain ⟨c, tl, hbp⟩ : ∃ c tl,
          (fy_atom_iter_pull (fy_atom_iter_chunk_reset it)).1.chunks.drop
            (fy_atom_iter_pull (fy_atom_iter_chunk_reset it)).1.read = c :: tl := by
        rcases hcase : (fy_atom_iter_pull (fy_atom_iter_chunk_reset it)).1.chunks.drop
            (fy_atom_iter_pull (fy_atom_iter_chunk_reset it)).1.read with _ | ⟨c, tl⟩
        · exact absurd hcase k3
        · exact ⟨c, tl, rfl⟩
      have hpkp : fy_atom_iter_peek_chunk
          (fy_atom_iter_pull (fy_atom_iter_chunk_reset it)).1 = some c := by
        rw [fy_atom_iter_peek_chunk_eq, hbp]
        rfl
      rw [hN, if_neg hp]
      refine ⟨q1, q2, Or.inl ⟨c, hpkp, rfl, hpkp, k1, k2, ?_, k5, ?_⟩⟩
      · unfold iterStream
        rw [hbe, ← k4, chunkConcat_append, hbp]
        simp [chunkConcat_cons, chunkConcat_nil]
      · rcases k6 with k6 | ⟨k6a, k6b⟩
        · exact Or.inl k6
        · exact Or.inr (Or.inl ⟨k6a, k6b⟩)
  · subst hc0
    have hdr : it.chunks.drop it.read = c0 :: it.chunks.drop (it.read + 1) := by
      unfold fy_atom_iter_peek_chunk at hpk
      obtain ⟨hlt, hval⟩ := List.getElem?_eq_some_iff.mp hpk
      rw [List.drop_eq_getElem_cons hlt, hval]
    have hce : c0 ≠ [] ∧ ∀ b ∈ c0, b < 256 :=
      hok c0 (by rw [hdr]; exact List.mem_cons_self _ _)
    have hlpos : 0 < c0.length := List.length_pos.mpr hce.1
    obtain ⟨⟨C, R, hAdv⟩, hAbuf, hArd, hAfut⟩ :=
      fy_atom_iter_advance_spec it c0 c0.length hpk (le_refl _) hlpos
    rw [if_neg (lt_irrefl _)] at hAbuf
    have hsc2 : SameCore it (fy_atom_iter_advance it c0.length) := by
      rw [hAdv]
      exact ⟨rfl, rfl, rfl, rfl, rfl, rfl, rfl, rfl⟩
    have hinv2 : IterInvD (fy_atom_iter_advance it c0.length) := by
      rw [hAdv]
      exact hinv
    have hd2 : ∀ b ∈ (fy_atom_iter_advance it c0.length).atom.data, b < 256 := by
      rw [hAdv]
      exact hd
    have hok2 : ChunksOk ((fy_atom_iter_advance it c0.length).chunks.drop
        (fy_atom_iter_advance it c0.length).read) := by
      rw [hAbuf]
      exact fun c hc => hok c (by rw [hdr]; exact List.mem_cons_of_mem _ hc)
    have hdone2 : (fy_atom_iter_advance it c0.length).done = it.done := by
      rw [hAdv]
    have hmeas2 : iterMeasure (fy_atom_iter_advance it c0.length) = iterMeasure it := by
      rw [hAdv]
      exact iterMeasure_cong it C R
    have hN0 : fy_atom_iter_chunk_next it (some c0) =
        (let it2 := fy_atom_iter_advance it c0.length
         let ic := fy_atom_iter_peek_chunk it2
         if (some c0 : Option (List Nat)) = none ∨ ic = none then
           let it3 := fy_atom_iter_chunk_reset it2
           let p := fy_atom_iter_pull it3
           if p.2 ≤ 0 then (p.1, none, if p.2 < 0 then -1 else 0)
           else (p.1, fy_atom_iter_peek_chunk p.1, 0)
         else (it2, ic, 0)) := by
      unfold fy_atom_iter_chunk_next
      simp only []
      rw [hpk, if_pos (show (some c0 : Option (List Nat)).isSome = true ∧
        (some c0 : Option (List Nat)).isSome = true ∧
        (some c0 : Option (List Nat)) = some c0 from ⟨rfl, rfl, rfl⟩)]
      rfl
    rcases hbuf2 : it.chunks.drop (it.read + 1) with _ | ⟨c, tl⟩
    · have hpk2 : fy_atom_iter_peek_chunk (fy_atom_iter_advance it c0.length) = none := by
        rw [fy_atom_iter_peek_chunk_eq, hAbuf, hbuf2]
        rfl
      have hN : fy_atom_iter_chunk_next it (some c0) =
          (if (fy_atom_iter_pull (fy_atom_iter_chunk_reset
              (fy_atom_iter_advance it c0.length))).2 ≤ 0 then
            ((fy_atom_iter_pull (fy_atom_iter_chunk_reset
              (fy_atom_iter_advance it c0.length))).1, none,
              if (fy_atom_iter_pull (fy_atom_iter_chunk_reset
                (fy_atom_iter_advance it c0.length))).2 < 0 then -1 else 0)
          else ((fy_atom_iter_pull (fy_atom_iter_chunk_reset
              (fy_atom_iter_advance it c0.length))).1,
            fy_atom_iter_peek_chunk (fy_atom_iter_pull (fy_atom_iter_chunk_reset
              (fy_atom_iter_advance it c0.length))).1, 0)) := by
        rw [hN0]
        simp only []
        rw [if_pos (Or.inr hpk2)]
      obtain ⟨q1, q2, q3, q4⟩ :=
        reset_pull_spec (fy_atom_iter_advance it c0.length) hinv2 hd2
      have hsc3 := SameCore.trans hsc2 q1
      by_cases hp : (fy_atom_iter_pull (fy_atom_iter_chunk_reset
          (fy_atom_iter_advance it c0.length))).2 ≤ 0
      · rw [hN, if_pos hp]
        refine ⟨hsc3, q2, Or.inr ⟨rfl, ?_, ?_⟩⟩
        · unfold iterStream
          rw [hdr, ← hAfut, q3 hp]
          simp [hbuf2, chunkConcat_nil]
        · rw [← hAfut, q3 hp]
      · have hp1 : (fy_atom_iter_pull (fy_atom_iter_chunk_reset
            (fy_atom_iter_advance it c0.length))).2 = 1 := by
          have := fy_atom_iter_pull_ret_le
            (fy_atom_iter_chunk_reset (fy_atom_iter_advance it c0.length))
          omega
        obtain ⟨k1, k2, k3, k4, k5, k6⟩ := q4 hp1
        obtain ⟨c, tl, hbp⟩ : ∃ c tl,
            (fy_atom_iter_pull (fy_atom_iter_chunk_reset
              (fy_atom_iter_advance it c0.length))).1.chunks.drop
              (fy_atom_iter_pull (fy_atom_iter_chunk_reset
                (fy_atom_iter_advance it c0.length))).1.read = c :: tl := by
          rcases hcase : (fy_atom_iter_pull (fy_atom_iter_chunk_reset
              (fy_atom_iter_advance it c0.length))).1.chunks.drop
              (fy_atom_iter_pull (fy_atom_iter_chunk_reset
                (fy_atom_iter_advance it c0.length))).1.read with _ | ⟨c, tl⟩
          · exact absurd hcase k3
          · exact ⟨c, tl, rfl⟩
        have hpkp : fy_atom_iter_peek_chunk
            (fy_atom_iter_pull (fy_atom_iter_chunk_reset
              (fy_atom_iter_advance it c0.length))).1 = some c := by
          rw [fy_atom_iter_peek_chunk_eq, hbp]
          rfl
        rw [hN, if_neg hp]
        refine ⟨hsc3, q2, Or.inl ⟨c, hpkp, rfl, hpkp, k1, k2, ?_, ?_, ?_⟩⟩
        · unfold iterStream
          rw [hdr]
          rw [show (fy_future_chunks it).1 = (fy_future_chunks
            (fy_atom_iter_advance it c0.length)).1 from by rw [hAfut]]
          rw [← k4, chunkConcat_append, hbp]
          simp [hbuf2, chunkConcat_cons, chunkConcat_nil]
        · rw [← hAfut]
          exact k5
        · rcases k6 with k6 | ⟨k6a, k6b⟩
          · rw [← hdone2]
            exact Or.inl k6
          · refine Or.inr (Or.inl ⟨?_, ?_⟩)
            · rw [← hdone2]
              exact k6a
            · rw [← hmeas2]
              exact k6b
    · have hpk2 : fy_atom_iter_peek_chunk (fy_atom_iter_advance it c0.length) =
          some c := by
        rw [fy_atom_iter_peek_chunk_eq, hAbuf, hbuf2]
        rfl
      have hN : fy_atom_iter_chunk_next it (some c0) =
          (fy_atom_iter_advance it c0.length, some c, 0) := by
        rw [hN0]
        simp only []
        rw [hpk2, if_neg (by simp)]
      rw [hN]
      refine ⟨hsc2, hinv2, Or.inl ⟨c, rfl, rfl, hpk2, hArd, hok2, ?_, ?_, ?_⟩⟩
      · unfold iterStream
        rw [hdr, hAfut, hAbuf, hbuf2]
        simp [chunkConcat_cons]
      · rw [hAfut]
      · refine Or.inr (Or.inr ⟨?_, hmeas2, ?_⟩)
        · rw [hdone2]
        · unfold bufBytes
          rw [hAbuf, hbuf2, hdr, hbuf2]
          simp
          omega

theorem fy_atom_collect_spec (it : FyAtomIter) (curr : Option (List Nat)) :
    IterInvD it → (∀ b ∈ it.atom.data, b < 256) →
    ChunksOk (it.chunks.drop it.read) →
    ((curr = none ∧ it.chunks.drop it.read = []) ∨
     (∃ c0, curr = some c0 ∧ fy_atom_iter_peek_chunk it = some c0)) →
    chunkConcat (fy_atom_collect it curr).2.1 = iterStream it curr ∧
    (fy_atom_collect it curr).2.2 =
      (if (fy_future_chunks it).2 < 0 then -1 else 0) := by
  induction it, curr using fy_atom_collect.induct with
  | case1 it curr r hm =>
    intro hinv hd hok hdisc
    obtain ⟨q1, q2, q3⟩ := fy_atom_iter_chunk_next_spec it curr hinv hd hok hdisc
    have hm' : (fy_atom_iter_chunk_next it curr).2.1 = none := hm
    have hC : fy_atom_collect it curr =
        ((fy_atom_iter_chunk_next it curr).1, [],
         (fy_atom_iter_chunk_next it curr).2.2) := by
      rw [fy_atom_collect.eq_def]
      simp only [hm']
    rcases q3 with ⟨c2, hsome, _⟩ | ⟨_, hstr, hret⟩
    · rw [hm'] at hsome
      exact absurd hsome (by simp)
    · constructor
      · rw [hC, hstr]
        rfl
      · rw [hC]
        exact hret
  | case2 it curr r c hm d0 d1 h ih =>
    intro hinv hd hok hdisc
    obtain ⟨q1, q2, q3⟩ := fy_atom_iter_chunk_next_spec it curr hinv hd hok hdisc
    have hm' : (fy_atom_iter_chunk_next it curr).2.1 = some c := hm
    rcases q3 with ⟨c2, hsome, hzero, hpeek, hread, hok2, hstream, hfut2, hdec⟩ |
      ⟨hnone, _, _⟩
    · rw [hm'] at hsome
      have hc2 : c2 = c := (Option.some.inj hsome).symm
      subst hc2
      have ih' : IterInvD (fy_atom_iter_chunk_next it curr).1 →
          (∀ b ∈ (fy_atom_iter_chunk_next it curr).1.atom.data, b < 256) →
          ChunksOk ((fy_atom_iter_chunk_next it curr).1.chunks.drop
            (fy_atom_iter_chunk_next it curr).1.read) →
          (((some c2 : Option (List Nat)) = none ∧
            (fy_atom_iter_chunk_next it curr).1.chunks.drop
              (fy_atom_iter_chunk_next it curr).1.read = []) ∨
           (∃ c0, (some c2 : Option (List Nat)) = some c0 ∧
            fy_atom_iter_peek_chunk (fy_atom_iter_chunk_next it curr).1 = some c0)) →
          chunkConcat (fy_atom_collect (fy_atom_iter_chunk_next it curr).1
            (some c2)).2.1 =
            iterStream (fy_atom_iter_chunk_next it curr).1 (some c2) ∧
          (fy_atom_collect (fy_atom_iter_chunk_next it curr).1 (some c2)).2.2 =
            (if (fy_future_chunks (fy_atom_iter_chunk_next it curr).1).2 < 0
             then -1 else 0) := ih
      have hd2 : ∀ b ∈ (fy_atom_iter_chunk_next it curr).1.atom.data, b < 256 := by
        rw [show (fy_atom_iter_chunk_next it curr).1.atom = it.atom from q1.1]
        exact hd
      obtain ⟨ih1, ih2⟩ := ih' q2 hd2 hok2 (Or.inr ⟨c2, rfl, hpeek⟩)
      have hC : fy_atom_collect it curr =
          ((fy_atom_collect (fy_atom_iter_chunk_next it curr).1 (some c2)).1,
           c2 :: (fy_atom_collect (fy_atom_iter_chunk_next it curr).1
             (some c2)).2.1,
           (fy_atom_collect (fy_atom_iter_chunk_next it curr).1 (some c2)).2.2) := by
        rw [fy_atom_collect.eq_def]
        simp only [hm']
        rw [dif_pos hdec]
      constructor
      · rw [hC]
        show chunkConcat (c2 :: (fy_atom_collect
          (fy_atom_iter_chunk_next it curr).1 (some c2)).2.1) = iterStream it curr
        rw [chunkConcat_cons, ih1, hstream]
      · rw [hC]
        show (fy_atom_collect (fy_atom_iter_chunk_next it curr).1 (some c2)).2.2 = _
        rw [ih2, hfut2]
    · rw [hm'] at hnone
      exact absurd hnone (by simp)
  | case3 it curr r c hm d0 d1 h =>
    intro hinv hd hok hdisc
    obtain ⟨q1, q2, q3⟩ := fy_atom_iter_chunk_next_spec it curr hinv hd hok hdisc
    have hm' : (fy_atom_iter_chunk_next it curr).2.1 = some c := hm
    rcases q3 with ⟨c2, hsome, hzero, hpeek, hread, hok2, hstream, hfut2, hdec⟩ |
      ⟨hnone, _, _⟩
    · rw [hm'] at hsome
      have hc2 : c2 = c := (Option.some.inj hsome).symm
      subst hc2
      exact absurd hdec h
    · rw [hm'] at hnone
      exact absurd hnone (by simp)

theorem fy_future_chunks_ok (it : FyAtomIter) :
    IterInvD it → (∀ b ∈ it.atom.data, b < 256) →
    ChunksOk (fy_future_chunks it).1 := by
  induction it using fy_future_chunks.induct with
  | case1 it r h =>
    intro hinv hd
    rw [fy_future_chunks.eq_def]
    simp only []
    rw [if_pos (show (fy_atom_iter_format it).2 ≤ 0 from h)]
    exact ChunksOk.nil
  | case2 it r h1 h2 ih =>
    intro hinv hd
    obtain ⟨f1, f2, f3, f4, f5, f6, f7, f8⟩ :=
      fy_atom_iter_format_core_spec it hinv hd
    have hadded : (fy_atom_iter_format it).1.chunks.drop it.chunks.length =
        (fy_atom_iter_format_core it).2.1 := by
      rw [fy_atom_iter_format_eq]
      show ((fy_atom_iter_format_core it).1.chunks ++
        (fy_atom_iter_format_core it).2.1).drop it.chunks.length = _
      rw [f1, List.drop_left]
    have hinv2 : IterInvD (fy_atom_iter_format it).1 := f4
    have hd2 : ∀ b ∈ (fy_atom_iter_format it).1.atom.data, b < 256 := by
      rw [show (fy_atom_iter_format it).1.atom = it.atom from f3.1]
      exact hd
    rw [fy_future_chunks.eq_def]
    simp only []
    rw [if_neg (show ¬(fy_atom_iter_format it).2 ≤ 0 from h1), dif_pos h2]
    show ChunksOk ((fy_atom_iter_format it).1.chunks.drop it.chunks.length ++
      (fy_future_chunks (fy_atom_iter_format it).1).1)
    rw [hadded]
    exact ChunksOk.append f5 (ih hinv2 hd2)
  | case3 it r h1 h2 =>
    intro hinv hd
    obtain ⟨f1, f2, f3, f4, f5, f6, f7, f8⟩ :=
      fy_atom_iter_format_core_spec it hinv hd
    have hadded : (fy_atom_iter_format it).1.chunks.drop it.chunks.length =
        (fy_atom_iter_format_core it).2.1 := by
      rw [fy_atom_iter_format_eq]
      show ((fy_atom_iter_format_core it).1.chunks ++
        (fy_atom_iter_format_core it).2.1).drop it.chunks.length = _
      rw [f1, List.drop_left]
    rw [fy_future_chunks.eq_def]
    simp only []
    rw [if_neg (show ¬(fy_atom_iter_format it).2 ≤ 0 from h1), dif_neg h2]
    show ChunksOk ((fy_atom_iter_format it).1.chunks.drop it.chunks.length)
    rw [hadded]
    exact f5

theorem iterStream_none (it : FyAtomIter) :
    iterStream it none =
      chunkConcat (it.chunks.drop it.read) ++ chunkConcat (fy_future_chunks it).1 := by
  unfold iterStream
  simp

theorem fy_atom_iter_read_loop_spec (it : FyAtomIter) (count : Nat) (acc : List Nat) :
    IterInvD it → (∀ b ∈ it.atom.data, b < 256) →
    ChunksOk (it.chunks.drop it.read) →
    (fy_future_chunks it).2 = 0 →
    count ≤ (iterStream it none).length →
    SameCore it (fy_atom_iter_read_loop it count acc).1 ∧
    IterInvD (fy_atom_iter_read_loop it count acc).1 ∧
    ChunksOk ((fy_atom_iter_read_loop it count acc).1.chunks.drop
      (fy_atom_iter_read_loop it count acc).1.read) ∧
    (fy_future_chunks (fy_atom_iter_read_loop it count acc).1).2 = 0 ∧
    iterStream (fy_atom_iter_read_loop it count acc).1 none =
      (iterStream it none).drop count ∧
    (fy_atom_iter_read_loop it count acc).2.1 =
      acc ++ (iterStream it none).take count ∧
    (fy_atom_iter_read_loop it count acc).2.2 = ((acc.length + count : Nat) : Int) := by
  induction it, count, acc using fy_atom_iter_read_loop.induct with
  | case1 it count acc hc hpk ic nrun acc2 it2 hn ih =>
    intro hinv hd hok hfut hcnt
    have hic : ic = (fy_atom_iter_peek_chunk it).getD [] := rfl
    have hnrun : nrun = count ⊓ ((fy_atom_iter_peek_chunk it).getD []).length := by
      rw [show nrun = count ⊓ ic.length from rfl, hic]
    have hit2 : it2 = fy_atom_iter_advance it
        (count ⊓ ((fy_atom_iter_peek_chunk it).getD []).length) := by
      rw [show it2 = fy_atom_iter_advance it nrun from rfl, hnrun]
    have hacc2 : acc2 = acc ++ ((fy_atom_iter_peek_chunk it).getD []).take
        (count ⊓ ((fy_atom_iter_peek_chunk it).getD []).length) := by
      rw [show acc2 = acc ++ ic.take nrun from rfl, hic, hnrun]
    have hpkIC : fy_atom_iter_peek_chunk it =
        some ((fy_atom_iter_peek_chunk it).getD []) := by
      rcases hx : fy_atom_iter_peek_chunk it with _ | v
      · rw [hx] at hpk
        simp at hpk
      · rfl
    have hdr : it.chunks.drop it.read =
        (fy_atom_iter_peek_chunk it).getD [] :: it.chunks.drop (it.read + 1) := by
      have hpk2 : it.chunks[it.read]? =
          some ((fy_atom_iter_peek_chunk it).getD []) := hpkIC
      obtain ⟨hlt, hval⟩ := List.getElem?_eq_some_iff.mp hpk2
      rw [List.drop_eq_getElem_cons hlt, hval]
    have hce := hok _ (by rw [hdr]; exact List.mem_cons_self _ _)
    have hlen : 0 < ((fy_atom_iter_peek_chunk it).getD []).length :=
      List.length_pos.mpr hce.1
    have hn' : 0 < count ⊓ ((fy_atom_iter_peek_chunk it).getD []).length := hn
    have hnc : count ⊓ ((fy_atom_iter_peek_chunk it).getD []).length ≤ count :=
      Nat.min_le_left _ _
    have hnl : count ⊓ ((fy_atom_iter_peek_chunk it).getD []).length ≤
        ((fy_atom_iter_peek_chunk it).getD []).length := Nat.min_le_right _ _
    obtain ⟨⟨C, R, hAdv⟩, hAbuf, hArd, hAfut⟩ :=
      fy_atom_iter_advance_spec it ((fy_atom_iter_peek_chunk it).getD [])
        (count ⊓ ((fy_atom_iter_peek_chunk it).getD []).length) hpkIC hnl hn'
    have hE : fy_atom_iter_read_loop it count acc =
        fy_atom_iter_read_loop
          (fy_atom_iter_advance it
            (count ⊓ ((fy_atom_iter_peek_chunk it).getD []).length))
          (count - count ⊓ ((fy_atom_iter_peek_chunk it).getD []).length)
          (acc ++ ((fy_atom_iter_peek_chunk it).getD []).take
            (count ⊓ ((fy_atom_iter_peek_chunk it).getD []).length)) := by
      rw [fy_atom_iter_read_loop.eq_def]
      simp only []
      rw [dif_pos hc, dif_pos hpk, dif_pos hn']
    have hsc2 : SameCore it (fy_atom_iter_advance it
        (count ⊓ ((fy_atom_iter_peek_chunk it).getD []).length)) := by
      rw [hAdv]
      exact ⟨rfl, rfl, rfl, rfl, rfl, rfl, rfl, rfl⟩
    have hinv2 : IterInvD (fy_atom_iter_advance it
        (count ⊓ ((fy_atom_iter_peek_chunk it).getD []).length)) := by
      rw [hAdv]
      exact hinv
    have hd2 : ∀ b ∈ (fy_atom_iter_advance it
        (count ⊓ ((fy_atom_iter_peek_chunk it).getD []).length)).atom.data,
        b < 256 := by
      rw [hAdv]
      exact hd
    have hok2 : ChunksOk ((fy_atom_iter_advance it
        (count ⊓ ((fy_atom_iter_peek_chunk it).getD []).length)).chunks.drop
        (fy_atom_iter_advance it
          (count ⊓ ((fy_atom_iter_peek_chunk it).getD []).length)).read) := by
      rw [hAbuf]
      split
      · intro x hx
        rcases List.mem_cons.mp hx with hx | hx
        · subst hx
          refine ⟨?_, fun b hb => hce.2 b (List.mem_of_mem_drop hb)⟩
          intro hnil
          have := congrArg List.length hnil
          simp at this
          omega
        · exact hok x (by rw [hdr]; exact List.mem_cons_of_mem _ hx)
      · exact fun x hx => hok x (by rw [hdr]; exact List.mem_cons_of_mem _ hx)
    have hfut2 : (fy_future_chunks (fy_atom_iter_advance it
        (count ⊓ ((fy_atom_iter_peek_chunk it).getD []).length))).2 = 0 := by
      rw [hAfut]
      exact hfut
    have havail : iterStream it none =
        (fy_atom_iter_peek_chunk it).getD [] ++
          (chunkConcat (it.chunks.drop (it.read + 1)) ++
           chunkConcat (fy_future_chunks it).1) := by
      rw [iterStream_none, hdr, chunkConcat_cons, List.append_assoc]
    have hstream2 : iterStream (fy_atom_iter_advance it
        (count ⊓ ((fy_atom_iter_peek_chunk it).getD []).length)) none =
        (iterStream it none).drop
          (count ⊓ ((fy_atom_iter_peek_chunk it).getD []).length) := by
      rw [iterStream_none, hAbuf, hAfut, havail,
        List.drop_append_of_le_length (by
          simpa using hnl)]
      split
      · rename_i hlt
        rw [chunkConcat_cons, List.append_assoc]
      · rename_i hge
        have : ((fy_atom_iter_peek_chunk it).getD []).drop
            (count ⊓ ((fy_atom_iter_peek_chunk it).getD []).length) = [] :=
          List.drop_eq_nil_of_le (by omega)
        rw [this]
        rfl
    have hcnt2 : count - count ⊓ ((fy_atom_iter_peek_chunk it).getD []).length ≤
        (iterStream (fy_atom_iter_advance it
          (count ⊓ ((fy_atom_iter_peek_chunk it).getD []).length)) none).length := by
      rw [hstream2, List.length_drop]
      omega
    obtain ⟨s1, s2, s3, s4, s5, s6, s7⟩ := ih hinv2 hd2 hok2 hfut2 hcnt2
    rw [hit2, hnrun, hacc2] at s1 s2 s3 s4 s5 s6 s7
    rw [hE]
    refine ⟨SameCore.trans hsc2 s1, s2, s3, s4, ?_, ?_, ?_⟩
    · rw [s5, hstream2, List.drop_drop]
      congr 1
      omega
    · rw [s6, hstream2]
      have htake : (iterStream it none).take count =
          ((fy_atom_iter_peek_chunk it).getD []).take
            (count ⊓ ((fy_atom_iter_peek_chunk it).getD []).length) ++
          ((iterStream it none).drop
            (count ⊓ ((fy_atom_iter_peek_chunk it).getD []).length)).take
            (count - count ⊓ ((fy_atom_iter_peek_chunk it).getD []).length) := by
        conv_lhs => rw [show count =
          count ⊓ ((fy_atom_iter_peek_chunk it).getD []).length +
          (count - count ⊓ ((fy_atom_iter_peek_chunk it).getD []).length) from
          by omega]
        rw [List.take_add]
        congr 1
        rw [havail]
        exact List.take_append_of_le_length (by simpa using hnl)
      rw [htake, List.append_assoc]
    · rw [s7]
      congr 1
      rw [List.length_append, List.length_take]
      omega
  | case2 it count acc hc hpk ic nrun hn =>
    intro hinv hd hok hfut hcnt
    exfalso
    have hpkIC : fy_atom_iter_peek_chunk it =
        some ((fy_atom_iter_peek_chunk it).getD []) := by
      rcases hx : fy_atom_iter_peek_chunk it with _ | v
      · rw [hx] at hpk
        simp at hpk
      · rfl
    have hdr : it.chunks.drop it.read =
        (fy_atom_iter_peek_chunk it).getD [] :: it.chunks.drop (it.read + 1) := by
      have hpk2 : it.chunks[it.read]? =
          some ((fy_atom_iter_peek_chunk it).getD []) := hpkIC
      obtain ⟨hlt, hval⟩ := List.getElem?_eq_some_iff.mp hpk2
      rw [List.drop_eq_getElem_cons hlt, hval]
    have hce := hok _ (by rw [hdr]; exact List.mem_cons_self _ _)
    have hlen : 0 < ((fy_atom_iter_peek_chunk it).getD []).length :=
      List.length_pos.mpr hce.1
    have hn' : ¬0 < count ⊓ ((fy_atom_iter_peek_chunk it).getD []).length := hn
    omega
  | case3 it count acc hc hpk p hp =>
    intro hinv hd hok hfut hcnt
    exfalso
    have hbe : it.chunks.drop it.read = [] := by
      rw [fy_atom_iter_peek_chunk_eq] at hpk
      simpa [List.head?_eq_none_iff] using hpk
    obtain ⟨q1, q2, q3, q4⟩ := reset_pull_spec it hinv hd
    have hp' : (fy_atom_iter_pull (fy_atom_iter_chunk_reset it)).2 ≤ 0 := hp
    have hfe := q3 hp'
    have hav : iterStream it none = [] := by
      rw [iterStream_none, hbe, hfe]
      rfl
    rw [hav] at hcnt
    simp at hcnt
    omega
  | case4 it count acc hc hpk p hp1 hp2 ih =>
    intro hinv hd hok hfut hcnt
    have hbe : it.chunks.drop it.read = [] := by
      rw [fy_atom_iter_peek_chunk_eq] at hpk
      simpa [List.head?_eq_none_iff] using hpk
    obtain ⟨q1, q2, q3, q4⟩ := reset_pull_spec it hinv hd
    have hp1' : ¬(fy_atom_iter_pull (fy_atom_iter_chunk_reset it)).2 ≤ 0 := hp1
    have hret1 : (fy_atom_iter_pull (fy_atom_iter_chunk_reset it)).2 = 1 := by
      have := fy_atom_iter_pull_ret_le (fy_atom_iter_chunk_reset it)
      omega
    obtain ⟨k1, k2, k3, k4, k5, k6⟩ := q4 hret1
    have hd2 : ∀ b ∈ (fy_atom_iter_pull
        (fy_atom_iter_chunk_reset it)).1.atom.data, b < 256 := by
      rw [show (fy_atom_iter_pull (fy_atom_iter_chunk_reset it)).1.atom = it.atom
        from q1.1]
      exact hd
    have hfut2 : (fy_future_chunks (fy_atom_iter_pull
        (fy_atom_iter_chunk_reset it)).1).2 = 0 := by
      rw [k5]
      exact hfut
    have havail : iterStream (fy_atom_iter_pull
        (fy_atom_iter_chunk_reset it)).1 none = iterStream it none := by
      rw [iterStream_none, iterStream_none, hbe, ← k4, chunkConcat_append]
      rfl
    have hcnt2 : count ≤ (iterStream (fy_atom_iter_pull
        (fy_atom_iter_chunk_reset it)).1 none).length := by
      rw [havail]
      exact hcnt
    obtain ⟨s1, s2, s3, s4, s5, s6, s7⟩ := ih q2 hd2 k2 hfut2 hcnt2
    have hE : fy_atom_iter_read_loop it count acc =
        fy_atom_iter_read_loop (fy_atom_iter_pull
          (fy_atom_iter_chunk_reset it)).1 count acc := by
      rw [fy_atom_iter_read_loop.eq_def]
      simp only []
      rw [dif_pos hc, dif_neg hpk, if_neg hp1', dif_pos hp2]
    rw [hE]
    refine ⟨SameCore.trans q1 s1, s2, s3, s4, ?_, ?_, s7⟩
    · rw [s5, havail]
    · rw [s6, havail]
  | case5 it count acc hc hpk p hp1 hp2 =>
    intro hinv hd hok hfut hcnt
    exfalso
    obtain ⟨q1, q2, q3, q4⟩ := reset_pull_spec it hinv hd
    have hp1' : ¬(fy_atom_iter_pull (fy_atom_iter_chunk_reset it)).2 ≤ 0 := hp1
    have hret1 : (fy_atom_iter_pull (fy_atom_iter_chunk_reset it)).2 = 1 := by
      have := fy_atom_iter_pull_ret_le (fy_atom_iter_chunk_reset it)
      omega
    obtain ⟨k1, k2, k3, k4, k5, k6⟩ := q4 hret1
    have hp2' : ¬(fy_atom_iter_peek_chunk (fy_atom_iter_pull
        (fy_atom_iter_chunk_reset it)).1).isSome = true := hp2
    rw [fy_atom_iter_peek_chunk_eq] at hp2'
    rcases hcase : (fy_atom_iter_pull (fy_atom_iter_chunk_reset it)).1.chunks.drop
        (fy_atom_iter_pull (fy_atom_iter_chunk_reset it)).1.read with _ | ⟨c, tl⟩
    · exact k3 hcase
    · rw [hcase] at hp2'
      simp at hp2'
  | case6 it count acc hc =>
    intro hinv hd hok hfut hcnt
    have hc0 : count = 0 := by omega
    subst hc0
    have hE : fy_atom_iter_read_loop it 0 acc = (it, acc, (acc.length : Int)) := by
      rw [fy_atom_iter_read_loop.eq_def]
      simp only []
      rw [dif_neg hc]
    rw [hE]
    exact ⟨sameCore_refl it, hinv, hok, hfut, by simp, by simp, by simp⟩

theorem mem_chunkConcat {x : Nat} {cs : List (List Nat)}
    (h : x ∈ chunkConcat cs) : ∃ c ∈ cs, x ∈ c := by
  induction cs with
  | nil => simp [chunkConcat] at h
  | cons c t ih =>
    rw [chunkConcat_cons] at h
    rcases List.mem_append.mp h with h | h
    · exact ⟨c, List.mem_cons_self _ _, h⟩
    · obtain ⟨c2, hc2, hx⟩ := ih h
      exact ⟨c2, List.mem_cons_of_mem _ hc2, hx⟩

theorem chunkConcat_eq_nil {cs : List (List Nat)} (hok : ChunksOk cs)
    (h : chunkConcat cs = []) : cs = [] := by
  cases cs with
  | nil => rfl
  | cons c t =>
    rw [chunkConcat_cons] at h
    exact absurd (List.append_eq_nil.mp h).1 (hok c (List.mem_cons_self _ _)).1

theorem iterStream_bytes (it : FyAtomIter)
    (hinv : IterInvD it) (hd : ∀ b ∈ it.atom.data, b < 256)
    (hok : ChunksOk (it.chunks.drop it.read)) :
    ∀ x ∈ iterStream it none, x < 256 := by
  intro x hx
  rw [iterStream_none] at hx
  rcases List.mem_append.mp hx with hx | hx
  · obtain ⟨c, hc, hxc⟩ := mem_chunkConcat hx
    exact (hok c hc).2 x hxc
  · obtain ⟨c, hc, hxc⟩ := mem_chunkConcat hx
    exact ((fy_future_chunks_ok it hinv hd) c hc).2 x hxc

theorem fy_atom_iter_read_loop_empty (it : FyAtomIter) (count : Nat)
    (acc : List Nat) (hc : 0 < count)
    (hinv : IterInvD it) (hd : ∀ b ∈ it.atom.data, b < 256)
    (hok : ChunksOk (it.chunks.drop it.read))
    (hfut : (fy_future_chunks it).2 = 0)
    (hstream : iterStream it none = []) :
    (fy_atom_iter_read_loop it count acc).2.1 = acc ∧
    (fy_atom_iter_read_loop it count acc).2.2 = (acc.length : Int) := by
  rw [iterStream_none] at hstream
  obtain ⟨hb, hf⟩ := List.append_eq_nil.mp hstream
  have hbe : it.chunks.drop it.read = [] := chunkConcat_eq_nil hok hb
  have hfe : (fy_future_chunks it).1 = [] :=
    chunkConcat_eq_nil (fy_future_chunks_ok it hinv hd) hf
  have hpk : ¬(fy_atom_iter_peek_chunk it).isSome = true := by
    rw [fy_atom_iter_peek_chunk_eq, hbe]
    simp
  obtain ⟨q1, q2, q3, q4⟩ := reset_pull_spec it hinv hd
  have hple : (fy_atom_iter_pull (fy_atom_iter_chunk_reset it)).2 ≤ 1 :=
    fy_atom_iter_pull_ret_le (fy_atom_iter_chunk_reset it)
  have hp0 : (fy_atom_iter_pull (fy_atom_iter_chunk_reset it)).2 = 0 := by
    by_cases hp : (fy_atom_iter_pull (fy_atom_iter_chunk_reset it)).2 ≤ 0
    · have := q3 hp
      rw [this] at hfut
      exact hfut
    · obtain ⟨k1, k2, k3, k4, k5, k6⟩ := q4 (by omega)
      rw [hfe] at k4
      exact absurd (List.append_eq_nil.mp k4).1 k3
  rw [fy_atom_iter_read_loop.eq_def]
  simp only []
  rw [dif_pos hc, dif_neg hpk, if_pos (by omega : (fy_atom_iter_pull
    (fy_atom_iter_chunk_reset it)).2 ≤ 0), if_pos hp0]
  exact ⟨rfl, rfl⟩

theorem fy_atom_iter_getc_empty (it : FyAtomIter)
    (hinv : IterInvD it) (hd : ∀ b ∈ it.atom.data, b < 256)
    (hok : ChunksOk (it.chunks.drop it.read))
    (hfut : (fy_future_chunks it).2 = 0) (hug : it.unget_c = -1)
    (hstream : iterStream it none = []) :
    (fy_atom_iter_getc it).2 = -1 := by
  obtain ⟨e1, e2⟩ := fy_atom_iter_read_loop_empty it 1 [] (by omega)
    hinv hd hok hfut hstream
  unfold fy_atom_iter_getc
  rw [if_neg (by rw [hug]; simp)]
  simp only []
  rw [if_pos (by
    show ¬(fy_atom_iter_read it 1).2.2 = 1
    show ¬(fy_atom_iter_read_loop it 1 []).2.2 = 1
    rw [e2]
    decide)]

theorem fy_atom_iter_getc_cons (it : FyAtomIter) (b : Nat) (rest : List Nat)
    (hinv : IterInvD it) (hd : ∀ b ∈ it.atom.data, b < 256)
    (hok : ChunksOk (it.chunks.drop it.read))
    (hfut : (fy_future_chunks it).2 = 0) (hug : it.unget_c = -1)
    (hstream : iterStream it none = b :: rest) :
    (fy_atom_iter_getc it).2 = (b : Int) ∧
    SameCore it (fy_atom_iter_getc it).1 ∧
    IterInvD (fy_atom_iter_getc it).1 ∧
    ChunksOk ((fy_atom_iter_getc it).1.chunks.drop
      (fy_atom_iter_getc it).1.read) ∧
    (fy_future_chunks (fy_atom_iter_getc it).1).2 = 0 ∧
    (fy_atom_iter_getc it).1.unget_c = -1 ∧
    iterStream (fy_atom_iter_getc it).1 none = rest := by
  have hb256 : b < 256 := iterStream_bytes it hinv hd hok b
    (by rw [hstream]; exact List.mem_cons_self _ _)
  obtain ⟨s1, s2, s3, s4, s5, s6, s7⟩ :=
    fy_atom_iter_read_loop_spec it 1 [] hinv hd hok hfut
      (by rw [hstream]; simp)
  have htake : (iterStream it none).take 1 = [b] := by
    rw [hstream]
    rfl
  have hbytes : (fy_atom_iter_read_loop it 1 []).2.1 = [b] := by
    rw [s6, htake]
    rfl
  have hret : (fy_atom_iter_read_loop it 1 []).2.2 = 1 := by
    rw [s7]
    rfl
  have hE : fy_atom_iter_getc it =
      ((fy_atom_iter_read_loop it 1 []).1, ((b % 256 : Nat) : Int)) := by
    unfold fy_atom_iter_getc
    rw [if_neg (by rw [hug]; simp)]
    simp only []
    rw [if_neg (by
      show ¬(fy_atom_iter_read it 1).2.2 ≠ 1
      show ¬(fy_atom_iter_read_loop it 1 []).2.2 ≠ 1
      rw [hret]
      simp)]
    show (match (fy_atom_iter_read_loop it 1 []).2.1 with
      | [b] => ((fy_atom_iter_read_loop it 1 []).1, ((b % 256 : Nat) : Int))
      | _ => ((fy_atom_iter_read_loop it 1 []).1, (-1 : Int))) = _
    rw [hbytes]
  rw [hE]
  have hb' : b % 256 = b := Nat.mod_eq_of_lt hb256
  refine ⟨by rw [hb'], s1, s2, s3, s4, ?_, ?_⟩
  · rw [show (fy_atom_iter_read_loop it 1 []).1.unget_c = it.unget_c from s1.2.2.2.2.2.2.2]
    exact hug
  · rw [s5, hstream]
    rfl

theorem fy_atom_iter_getcRun_spec (fuel : Nat) : ∀ it : FyAtomIter,
    IterInvD it → (∀ b ∈ it.atom.data, b < 256) →
    ChunksOk (it.chunks.drop it.read) →
    (fy_future_chunks it).2 = 0 → it.unget_c = -1 →
    (iterStream it none).length ≤ fuel →
    fy_atom_iter_getcRun it fuel =
      (iterStream it none).map (fun b => ((b : Nat) : Int)) := by
  induction fuel with
  | zero =>
    intro it _ _ _ _ _ hlen
    have h0 : iterStream it none = [] := by
      cases hs : iterStream it none with
      | nil => rfl
      | cons x r =>
        rw [hs] at hlen
        simp at hlen
    rw [h0]
    rfl
  | succ n ih =>
    intro it hinv hd hok hfut hug hlen
    rcases hstream : iterStream it none with _ | ⟨b, rest⟩
    · have hg := fy_atom_iter_getc_empty it hinv hd hok hfut hug hstream
      simp only [fy_atom_iter_getcRun]
      rw [if_pos hg]
      rfl
    · obtain ⟨g1, g2, g3, g4, g5, g6, g7⟩ :=
        fy_atom_iter_getc_cons it b rest hinv hd hok hfut hug hstream
      have hd2 : ∀ x ∈ (fy_atom_iter_getc it).1.atom.data, x < 256 := by
        rw [show (fy_atom_iter_getc it).1.atom = it.atom from g2.1]
        exact hd
      have hlen2 : (iterStream (fy_atom_iter_getc it).1 none).length ≤ n := by
        rw [g7]
        rw [hstream] at hlen
        simpa using hlen
      simp only [fy_atom_iter_getcRun]
      rw [if_neg (by rw [g1]; omega)]
      rw [g1, ih (fy_atom_iter_getc it).1 g3 hd2 g4 g5 g6 hlen2, g7]
      rfl

theorem fy_atom_readSeq_spec (counts : List Nat) : ∀ it : FyAtomIter,
    IterInvD it → (∀ b ∈ it.atom.data, b < 256) →
    ChunksOk (it.chunks.drop it.read) →
    (fy_future_chunks it).2 = 0 →
    counts.sum ≤ (iterStream it none).length →
    fy_atom_readSeq it counts = (iterStream it none).take counts.sum := by
  induction counts with
  | nil =>
    intro it _ _ _ _ _
    simp [fy_atom_readSeq]
  | cons k ks ih =>
    intro it hinv hd hok hfut hsum
    rw [List.sum_cons] at hsum
    obtain ⟨s1, s2, s3, s4, s5, s6, s7⟩ :=
      fy_atom_iter_read_loop_spec it k [] hinv hd hok hfut (by omega)
    have hd2 : ∀ x ∈ (fy_atom_iter_read_loop it k []).1.atom.data, x < 256 := by
      rw [show (fy_atom_iter_read_loop it k []).1.atom = it.atom from s1.1]
      exact hd
    have hsum2 : ks.sum ≤ (iterStream (fy_atom_iter_read_loop it k []).1 none).length := by
      rw [s5, List.length_drop]
      omega
    have hE : fy_atom_readSeq it (k :: ks) =
        (fy_atom_iter_read_loop it k []).2.1 ++
          fy_atom_readSeq (fy_atom_iter_read_loop it k []).1 ks := rfl
    rw [hE, s6, ih (fy_atom_iter_read_loop it k []).1 s2 hd2 s3 s4 hsum2, s5]
    rw [List.sum_cons, List.take_add]
    rfl

theorem fy_atom_iter_start_inv (atom : FyAtom) :
    IterInvD (fy_atom_iter_start atom) :=
  Or.inr (fy_atom_iter_line_analyze_slotOk atom atom.increment
    (fy_atom_size atom) LineInfo.zero 0)

theorem fy_atom_iter_start_buffer_ok (atom : FyAtom) :
    ChunksOk ((fy_atom_iter_start atom).chunks.drop
      (fy_atom_iter_start atom).read) := by
  intro c hc
  simp [fy_atom_iter_start] at hc

theorem fy_atom_iter_start_stream (atom : FyAtom) :
    iterStream (fy_atom_iter_start atom) none = fy_atom_decoded atom := by
  rw [iterStream_none]
  show chunkConcat (List.drop 0 []) ++ _ = _
  simp [fy_atom_decoded, chunkConcat_nil]

/-- C3: for an atom made of octets whose iterator is error free (the
future chunk stream carries return code 0), the three consumption
interfaces of fy-atom.c agree: the concatenation of the chunks yielded
by the repeated `fy_atom_iter_chunk_next` loop, the values returned by
repeated `fy_atom_iter_getc` until -1 (under any fuel bound of at
least the decoded length), and the bytes delivered by successive
`fy_atom_iter_read` calls for any partition of the decoded length into
counts, each equal the decoded byte stream of the atom. -/
theorem chunk_getc_read_equivalence (atom : FyAtom) (counts : List Nat)
    (fuel : Nat) (hD : DataOk atom)
    (hE : (fy_future_chunks (fy_atom_iter_start atom)).2 = 0)
    (hpart : counts.sum = (fy_atom_decoded atom).length)
    (hfuel : (fy_atom_decoded atom).length ≤ fuel) :
    chunkConcat (fy_atom_collect (fy_atom_iter_start atom) none).2.1 =
      fy_atom_decoded atom ∧
    fy_atom_iter_getcRun (fy_atom_iter_start atom) fuel =
      (fy_atom_decoded atom).map (fun b => ((b : Nat) : Int)) ∧
    fy_atom_readSeq (fy_atom_iter_start atom) counts = fy_atom_decoded atom := by
  have hinv := fy_atom_iter_start_inv atom
  have hok := fy_atom_iter_start_buffer_ok atom
  have hstream := fy_atom_iter_start_stream atom
  have hd : ∀ b ∈ (fy_atom_iter_start atom).atom.data, b < 256 := hD
  refine ⟨?_, ?_, ?_⟩
  · have h := (fy_atom_collect_spec (fy_atom_iter_start atom) none hinv hd hok
      (Or.inl ⟨rfl, by show List.drop 0 [] = []; rfl⟩)).1
    rw [h, hstream]
  · have h := fy_atom_iter_getcRun_spec fuel (fy_atom_iter_start atom) hinv hd
      hok hE rfl (by rw [hstream]; exact hfuel)
    rw [h, hstream]
  · have h := fy_atom_readSeq_spec counts (fy_atom_iter_start atom) hinv hd
      hok hE (by rw [hstream]; omega)
    rw [h, hstream, hpart, List.take_length]

theorem keepAtom_decoded : fy_atom_decoded
    (mkBlockAtom .FYAS_LITERAL .FYAC_KEEP [0x61] 1) = [0x61, 0x0a] := by
  simp +decide [fy_atom_decoded, fy_future_chunks.eq_def, fy_scan.eq_def,
    fy_chomp_strip_loop.eq_def, fy_chomp_keep_loop.eq_def,
    fy_sq_chunks.eq_def, fy_dq_chunks.eq_def, fy_uri_chunks.eq_def,
    fy_dqm_chunks.eq_def, fy_atom_iter_format, fy_atom_iter_format_core,
    fy_atom_iter_line, fy_atom_iter_line_analyze, fy_scan_step,
    fy_scan_fixup, fy_line_need_flags, FyAtomIter.li, FyAtomIter.setLi,
    fy_atom_size, iterMeasure, fy_atom_style_is_block, fy_slice, addC,
    LineInfo.zero, fy_atom_iter_start, mkBlockAtom, fy_is_ws, fy_is_lb,
    fy_is_ws_lb, fy_utf8_width_by_first_octet, fy_utf8_width, chunkConcat]

theorem keepAtom_errfree : (fy_future_chunks (fy_atom_iter_start
    (mkBlockAtom .FYAS_LITERAL .FYAC_KEEP [0x61] 1))).2 = 0 := by
  simp +decide [fy_future_chunks.eq_def, fy_scan.eq_def,
    fy_chomp_strip_loop.eq_def, fy_chomp_keep_loop.eq_def,
    fy_sq_chunks.eq_def, fy_dq_chunks.eq_def, fy_uri_chunks.eq_def,
    fy_dqm_chunks.eq_def, fy_atom_iter_format, fy_atom_iter_format_core,
    fy_atom_iter_line, fy_atom_iter_line_analyze, fy_scan_step,
    fy_scan_fixup, fy_line_need_flags, FyAtomIter.li, FyAtomIter.setLi,
    fy_atom_size, iterMeasure, fy_atom_style_is_block, fy_slice, addC,
    LineInfo.zero, fy_atom_iter_start, mkBlockAtom, fy_is_ws, fy_is_lb,
    fy_is_ws_lb, fy_utf8_width_by_first_octet, fy_utf8_width]

theorem keepAtom_dataOk : DataOk (mkBlockAtom .FYAS_LITERAL .FYAC_KEEP [0x61] 1) := by
  intro b hb
  simp [mkBlockAtom] at hb
  rcases hb with hb | hb <;> omega

/-- Witness for C3 at a concrete literal atom with keep chomping. -/
theorem chunk_getc_read_equivalence_witness :
    DataOk (mkBlockAtom .FYAS_LITERAL .FYAC_KEEP [0x61] 1) ∧
    (fy_future_chunks (fy_atom_iter_start
      (mkBlockAtom .FYAS_LITERAL .FYAC_KEEP [0x61] 1))).2 = 0 ∧
    chunkConcat (fy_atom_collect (fy_atom_iter_start
        (mkBlockAtom .FYAS_LITERAL .FYAC_KEEP [0x61] 1)) none).2.1 =
      fy_atom_decoded (mkBlockAtom .FYAS_LITERAL .FYAC_KEEP [0x61] 1) ∧
    fy_atom_readSeq (fy_atom_iter_start
        (mkBlockAtom .FYAS_LITERAL .FYAC_KEEP [0x61] 1)) [1, 1] =
      fy_atom_decoded (mkBlockAtom .FYAS_LITERAL .FYAC_KEEP [0x61] 1) := by
  have hpart : ([1, 1] : List Nat).sum =
      (fy_atom_decoded (mkBlockAtom .FYAS_LITERAL .FYAC_KEEP [0x61] 1)).length := by
    rw [keepAtom_decoded]
    rfl
  have hfuel : (fy_atom_decoded
      (mkBlockAtom .FYAS_LITERAL .FYAC_KEEP [0x61] 1)).length <= 2 := by
    rw [keepAtom_decoded]
    decide
  obtain ⟨w1, w2, w3⟩ := chunk_getc_read_equivalence
    (mkBlockAtom .FYAS_LITERAL .FYAC_KEEP [0x61] 1) [1, 1] 2 keepAtom_dataOk
    keepAtom_errfree hpart hfuel
  exact ⟨keepAtom_dataOk, keepAtom_errfree, w1, w3⟩

theorem chunkConcat_length (cs : List (List Nat)) :
    (chunkConcat cs).length = (cs.map List.length).sum := by
  induction cs with
  | nil => rfl
  | cons c t ih => simp [chunkConcat_cons, ih]

theorem c_int_cast_small (n : Nat) (h : n < 2 ^ 31) :
    c_int_cast n = (n : Int) := by
  unfold c_int_cast
  have h32 : n % 2 ^ 32 = n := Nat.mod_eq_of_lt (by omega)
  rw [h32, if_pos h]

theorem fy_copy_chunks_spec (cs : List (List Nat)) : ∀ room : Nat,
    (chunkConcat cs).length ≤ room →
    fy_copy_chunks cs room = some (chunkConcat cs) := by
  induction cs with
  | nil =>
    intro room h
    rfl
  | cons c t ih =>
    intro room h
    rw [chunkConcat_cons, List.length_append] at h
    have hc : ¬room < c.length := by omega
    show (if room < c.length then none
      else (fy_copy_chunks t (room - c.length)).map (fun x => c ++ x)) =
      some (chunkConcat (c :: t))
    rw [if_neg hc, ih (room - c.length) (by omega)]
    rw [chunkConcat_cons]
    rfl

/-- C1: on an atom without a valid cached storage hint, made of octets
and error free, `fy_atom_format_text` with a large enough buffer
copies exactly the decoded bytes, whose count equals the value
returned by `fy_atom_format_text_length` (for decoded sizes below
2^31); the length call stores that count in `storage_hint` and sets
`storage_hint_valid`, and a later `fy_atom_format_text_length` call on
the updated atom returns the same cached value unchanged. -/
theorem format_text_length_consistency (atom : FyAtom) (maxsz : Nat)
    (hD : DataOk atom) (hhv : atom.storage_hint_valid = false)
    (hE : (fy_future_chunks (fy_atom_iter_start atom)).2 = 0)
    (h31 : (fy_atom_decoded atom).length < 2 ^ 31)
    (hsz : (fy_atom_decoded atom).length ≤ maxsz) :
    fy_atom_format_text (some atom) maxsz = some (fy_atom_decoded atom) ∧
    fy_atom_format_text_length (some atom) =
      (((fy_atom_decoded atom).length : Int),
       some { atom with
         storage_hint := (fy_atom_decoded atom).length,
         storage_hint_valid := true }) ∧
    fy_atom_format_text_length
        (some { atom with
          storage_hint := (fy_atom_decoded atom).length,
          storage_hint_valid := true }) =
      (((fy_atom_decoded atom).length : Int),
       some { atom with
         storage_hint := (fy_atom_decoded atom).length,
         storage_hint_valid := true }) := by
  have hinv := fy_atom_iter_start_inv atom
  have hok := fy_atom_iter_start_buffer_ok atom
  have hstream := fy_atom_iter_start_stream atom
  have hd : ∀ b ∈ (fy_atom_iter_start atom).atom.data, b < 256 := hD
  obtain ⟨hcol1, hcol2⟩ := fy_atom_collect_spec (fy_atom_iter_start atom) none
    hinv hd hok (Or.inl ⟨rfl, by show List.drop 0 [] = []; rfl⟩)
  rw [hstream] at hcol1
  rw [hE] at hcol2
  have hret0 : (fy_atom_collect (fy_atom_iter_start atom) none).2.2 = 0 := by
    rw [hcol2]
    rfl
  have hsum : ((fy_atom_collect (fy_atom_iter_start atom) none).2.1.map
      List.length).sum = (fy_atom_decoded atom).length := by
    rw [← chunkConcat_length, hcol1]
  refine ⟨?_, ?_, ?_⟩
  · show (match fy_copy_chunks
      (fy_atom_collect (fy_atom_iter_start atom) none).2.1 maxsz with
      | none => none
      | some bytes =>
        if (fy_atom_collect (fy_atom_iter_start atom) none).2.2 ≠ 0
        then none else some bytes) = some (fy_atom_decoded atom)
    rw [fy_copy_chunks_spec _ maxsz (by rw [hcol1]; exact hsz)]
    simp only []
    rw [if_neg (by rw [hret0]; simp), hcol1]
  · show (if atom.storage_hint_valid then (c_int_cast atom.storage_hint, some atom)
      else
        let col := fy_atom_collect (fy_atom_iter_start atom) none
        let len := (col.2.1.map List.length).sum
        let ret := col.2.2
        if c_int_cast len < 0 then (-1, some atom)
        else if ret ≠ 0 then (ret, some atom)
        else (c_int_cast len,
          some { atom with storage_hint := len, storage_hint_valid := true })) = _
    rw [if_neg (by rw [hhv]; simp)]
    simp only [hsum, hret0]
    rw [c_int_cast_small _ h31]
    rw [if_neg (by omega), if_neg (by simp)]
  · simp [fy_atom_format_text_length, c_int_cast_small _ h31]

/-- Witness for C1 at a concrete literal atom with keep chomping. -/
theorem format_text_length_consistency_witness :
    DataOk (mkBlockAtom .FYAS_LITERAL .FYAC_KEEP [0x61] 1) ∧
    (mkBlockAtom .FYAS_LITERAL .FYAC_KEEP [0x61] 1).storage_hint_valid = false ∧
    fy_atom_format_text (some (mkBlockAtom .FYAS_LITERAL .FYAC_KEEP [0x61] 1)) 2 =
      some (fy_atom_decoded (mkBlockAtom .FYAS_LITERAL .FYAC_KEEP [0x61] 1)) ∧
    (fy_atom_format_text_length
        (some (mkBlockAtom .FYAS_LITERAL .FYAC_KEEP [0x61] 1))).1 =
      ((fy_atom_decoded (mkBlockAtom .FYAS_LITERAL .FYAC_KEEP [0x61] 1)).length :
        Int) := by
  have h31 : (fy_atom_decoded
      (mkBlockAtom .FYAS_LITERAL .FYAC_KEEP [0x61] 1)).length < 2 ^ 31 := by
    rw [keepAtom_decoded]
    decide
  have hsz : (fy_atom_decoded
      (mkBlockAtom .FYAS_LITERAL .FYAC_KEEP [0x61] 1)).length ≤ 2 := by
    rw [keepAtom_decoded]
    decide
  obtain ⟨w1, w2, w3⟩ := format_text_length_consistency
    (mkBlockAtom .FYAS_LITERAL .FYAC_KEEP [0x61] 1) 2 keepAtom_dataOk rfl
    keepAtom_errfree h31 hsz
  exact ⟨keepAtom_dataOk, rfl, w1, by rw [w2]⟩

theorem fy_memcmp_zero_iff : ∀ (n : Nat) (l1 l2 : List Nat), n ≤ l1.length →
    n ≤ l2.length → (fy_memcmp l1 l2 n = 0 ↔ l1.take n = l2.take n) := by
  intro n
  induction n with
  | zero =>
    intro l1 l2 _ _
    cases l1 <;> cases l2 <;> simp [fy_memcmp]
  | succ m ih =>
    intro l1 l2 h1 h2
    cases l1 with
    | nil => simp at h1
    | cons a r1 =>
      cases l2 with
      | nil => simp at h2
      | cons b r2 =>
        show (if a ≠ b then (a : Int) - (b : Int) else fy_memcmp r1 r2 m) = 0 ↔ _
        by_cases hab : a = b
        · subst hab
          rw [if_neg (by simp)]
          rw [List.take_succ_cons, List.take_succ_cons]
          rw [ih r1 r2 (by simpa using h1) (by simpa using h2)]
          simp
        · rw [if_pos hab]
          constructor
          · intro h0
            exfalso
            have : (a : Int) = (b : Int) := by omega
            exact hab (by exact_mod_cast this)
          · intro ht
            rw [List.take_succ_cons, List.take_succ_cons] at ht
            exact absurd (List.cons.inj ht).1 hab

/-- C6 (corrected): with both atoms direct-output and the two pointers
distinct, `fy_atom_cmp` is the memcmp of the raw bytes over the common
length with the length tiebreak (shorter first), and returns 0 exactly
when the byte contents are equal; but when called on the same object
(`atom1 == atom2`) the early pointer-equality test returns C `true`
(1), not 0. -/
theorem fy_atom_cmp_direct_spec (a1 a2 : FyAtom)
    (h1 : a1.direct_output = true) (h2 : a2.direct_output = true) :
    fy_atom_cmp (some a1) (some a2) false =
      (if fy_memcmp (fy_atom_data a1) (fy_atom_data a2)
          (min (fy_atom_data a1).length (fy_atom_data a2).length) ≠ 0 then
        fy_memcmp (fy_atom_data a1) (fy_atom_data a2)
          (min (fy_atom_data a1).length (fy_atom_data a2).length)
       else if (fy_atom_data a1).length = (fy_atom_data a2).length then 0
       else if (fy_atom_data a2).length > (fy_atom_data a1).length then (-1 : Int)
       else 1) ∧
    (fy_atom_cmp (some a1) (some a2) false = 0 ↔
      fy_atom_data a1 = fy_atom_data a2) ∧
    fy_atom_cmp (some a1) (some a2) true = 1 := by
  have hE : fy_atom_cmp (some a1) (some a2) false =
      (if fy_memcmp (fy_atom_data a1) (fy_atom_data a2)
          (min (fy_atom_data a1).length (fy_atom_data a2).length) ≠ 0 then
        fy_memcmp (fy_atom_data a1) (fy_atom_data a2)
          (min (fy_atom_data a1).length (fy_atom_data a2).length)
       else if (fy_atom_data a1).length = (fy_atom_data a2).length then 0
       else if (fy_atom_data a2).length > (fy_atom_data a1).length then (-1 : Int)
       else 1) := by
    unfold fy_atom_cmp
    rw [if_neg (by simp)]
    simp only [h1, h2, if_true]
  refine ⟨hE, ?_, by unfold fy_atom_cmp; rw [if_pos rfl]⟩
  rw [hE]
  by_cases hm : fy_memcmp (fy_atom_data a1) (fy_atom_data a2)
      (min (fy_atom_data a1).length (fy_atom_data a2).length) = 0
  · rw [if_neg (by simpa using hm)]
    by_cases hl : (fy_atom_data a1).length = (fy_atom_data a2).length
    · rw [if_pos hl]
      constructor
      · intro _
        have ht := (fy_memcmp_zero_iff
          (min (fy_atom_data a1).length (fy_atom_data a2).length)
          (fy_atom_data a1) (fy_atom_data a2)
          (Nat.min_le_left _ _) (Nat.min_le_right _ _)).mp hm
        have e1 : (fy_atom_data a1).take
            (min (fy_atom_data a1).length (fy_atom_data a2).length) =
            fy_atom_data a1 :=
          List.take_of_length_le (by omega)
        have e2 : (fy_atom_data a2).take
            (min (fy_atom_data a1).length (fy_atom_data a2).length) =
            fy_atom_data a2 :=
          List.take_of_length_le (by omega)
        rw [e1, e2] at ht
        exact ht
      · intro _
        rfl
    · rw [if_neg hl]
      constructor
      · intro h0
        exfalso
        split at h0 <;> omega
      · intro hd
        exact absurd (by rw [hd]) hl
  · rw [if_pos (by simpa using hm)]
    constructor
    · intro h0
      exact absurd h0 hm
    · intro hd
      exfalso
      apply hm
      rw [hd]
      exact (fy_memcmp_zero_iff _ _ _ (Nat.min_le_left _ _)
        (Nat.min_le_right _ _)).mpr rfl

/-- Counterexample to C6's self-comparison clause: a direct-output
atom compared with itself (same object, `atom1 == atom2`) yields 1
(C `true`), not 0, despite its contents trivially equalling
themselves. -/
theorem fy_atom_cmp_self_not_zero :
    (mkDirectAtom [0x61]).direct_output = true ∧
    fy_atom_cmp (some (mkDirectAtom [0x61])) (some (mkDirectAtom [0x61])) true
      = 1 ∧ (1 : Int) ≠ 0 := by
  refine ⟨rfl, ?_, by decide⟩
  unfold fy_atom_cmp
  rw [if_pos rfl]

/-- Witness for the corrected C6 theorem at two concrete direct atoms. -/
theorem fy_atom_cmp_direct_spec_witness :
    (mkDirectAtom [0x61]).direct_output = true ∧
    (mkDirectAtom [0x61, 0x62]).direct_output = true ∧
    (fy_atom_cmp (some (mkDirectAtom [0x61]))
        (some (mkDirectAtom [0x61, 0x62])) false = 0 ↔
      fy_atom_data (mkDirectAtom [0x61]) =
        fy_atom_data (mkDirectAtom [0x61, 0x62])) :=
  ⟨rfl, rfl, (fy_atom_cmp_direct_spec _ _ rfl rfl).2.1⟩

theorem fy_atom_iter_line_cong3 (it : FyAtomIter) (X : List (List Nat))
    (rd : Nat) (v : Int) :
    fy_atom_iter_line { it with chunks := X, read := rd, unget_c := v } =
      ({ (fy_atom_iter_line it).1 with chunks := X, read := rd, unget_c := v },
       (fy_atom_iter_line it).2) := by
  unfold fy_atom_iter_line
  simp only []
  cases hc : it.current
  all_goals simp only [hc, Bool.not_false, Bool.not_true, FyAtomIter.li,
    FyAtomIter.setLi, Bool.false_eq_true, Bool.true_eq_false, if_true, if_false,
    ite_false, ite_true]
  all_goals split
  all_goals simp

theorem iterMeasure_cong3 (it : FyAtomIter) (X : List (List Nat)) (rd : Nat)
    (v : Int) :
    iterMeasure { it with chunks := X, read := rd, unget_c := v } =
      iterMeasure it := rfl

theorem fy_chomp_strip_loop_cong3 (it : FyAtomIter) (pending : Nat)
    (X : List (List Nat)) (rd : Nat) (v : Int) :
    fy_chomp_strip_loop { it with chunks := X, read := rd, unget_c := v } pending =
      ({ (fy_chomp_strip_loop it pending).1 with
         chunks := X, read := rd, unget_c := v },
       (fy_chomp_strip_loop it pending).2) := by
  have H : ∀ n it pending (X : List (List Nat)) (rd : Nat) (v : Int),
      iterMeasure it = n →
      fy_chomp_strip_loop { it with chunks := X, read := rd, unget_c := v }
        pending =
        ({ (fy_chomp_strip_loop it pending).1 with
           chunks := X, read := rd, unget_c := v },
         (fy_chomp_strip_loop it pending).2) := by
    intro n
    induction n using Nat.strong_induction_on with
    | _ n IH =>
      intro it pending X rd v hn
      rw [fy_chomp_strip_loop.eq_def]
      conv_rhs => rw [fy_chomp_strip_loop.eq_def]
      rw [fy_atom_iter_line_cong3]
      dsimp only []
      rcases hli : (fy_atom_iter_line it).2 with _ | li
      · rfl
      · dsimp only []
        simp only [iterMeasure_cong3]
        split
        · rename_i hlt
          rw [hn] at hlt
          rw [IH (iterMeasure (fy_atom_iter_line it).1) hlt _ _ _ _ _ rfl]
        · rfl
  exact H (iterMeasure it) it pending X rd v rfl

theorem fy_chomp_keep_loop_cong3 (it : FyAtomIter)
    (X : List (List Nat)) (rd : Nat) (v : Int) :
    fy_chomp_keep_loop { it with chunks := X, read := rd, unget_c := v } =
      ({ (fy_chomp_keep_loop it).1 with chunks := X, read := rd, unget_c := v },
       (fy_chomp_keep_loop it).2) := by
  have H : ∀ n it (X : List (List Nat)) (rd : Nat) (v : Int),
      iterMeasure it = n →
      fy_chomp_keep_loop { it with chunks := X, read := rd, unget_c := v } =
        ({ (fy_chomp_keep_loop it).1 with
           chunks := X, read := rd, unget_c := v },
         (fy_chomp_keep_loop it).2) := by
    intro n
    induction n using Nat.strong_induction_on with
    | _ n IH =>
      intro it X rd v hn
      rw [fy_chomp_keep_loop.eq_def]
      conv_rhs => rw [fy_chomp_keep_loop.eq_def]
      rw [fy_atom_iter_line_cong3]
      dsimp only []
      rcases hli : (fy_atom_iter_line it).2 with _ | li
      · rfl
      · dsimp only []
        simp only [iterMeasure_cong3]
        split
        · rename_i hlt
          rw [hn] at hlt
          rw [IH (iterMeasure (fy_atom_iter_line it).1) hlt _ _ _ _ rfl]
        · rfl
  exact H (iterMeasure it) it X rd v rfl

theorem fy_atom_iter_format_core_cong3 (it : FyAtomIter)
    (X : List (List Nat)) (rd : Nat) (v : Int) :
    fy_atom_iter_format_core { it with chunks := X, read := rd, unget_c := v } =
      ({ (fy_atom_iter_format_core it).1 with
         chunks := X, read := rd, unget_c := v },
       (fy_atom_iter_format_core it).2) := by
  unfold fy_atom_iter_format_core
  rw [fy_atom_iter_line_cong3]
  dsimp only
  rcases hli : (fy_atom_iter_line it).2 with _ | li
  · rfl
  · dsimp only []
    simp only [fy_chomp_strip_loop_cong3, fy_chomp_keep_loop_cong3]
    try dsimp only []
    repeat' split
    all_goals rfl

theorem fy_future_chunks_cong3 (it : FyAtomIter) (X : List (List Nat))
    (rd : Nat) (v : Int) :
    fy_future_chunks { it with chunks := X, read := rd, unget_c := v } =
      fy_future_chunks it := by
  have H : ∀ n it (X : List (List Nat)) (rd : Nat) (v : Int),
      (if it.done then 0 else 1) * (it.e + 2) + iterMeasure it = n →
      fy_future_chunks { it with chunks := X, read := rd, unget_c := v } =
        fy_future_chunks it := by
    intro n
    induction n using Nat.strong_induction_on with
    | _ n IH =>
      intro it X rd v hn
      rw [fy_future_chunks.eq_def]
      conv_rhs => rw [fy_future_chunks.eq_def]
      simp only [fy_atom_iter_format_eq, fy_atom_iter_format_core_cong3]
      try dsimp only
      simp only [iterMeasure_cong, iterMeasure_cong2, iterMeasure_cong3,
        fy_atom_iter_format_core_chunks, List.drop_left]
      split
      · rfl
      · rename_i hpos
        split
        · rename_i hg
          obtain ⟨hdone, he, hor⟩ := hg
          have hb : iterMeasure (fy_atom_iter_format_core it).1 ≤
              (fy_atom_iter_format_core it).1.e + 1 := by
            unfold iterMeasure
            omega
          have hm : (if (fy_atom_iter_format_core it).1.done then 0 else 1) *
              ((fy_atom_iter_format_core it).1.e + 2) +
              iterMeasure (fy_atom_iter_format_core it).1 < n := by
            rw [hdone] at hn
            rcases hor with h2 | h3
            · rw [h2]
              simp only [if_true]
              simp at hn
              omega
            · have hd2 : iterMeasure (fy_atom_iter_format_core it).1 <
                  iterMeasure it := h3
              rcases Bool.eq_false_or_eq_true (fy_atom_iter_format_core it).1.done
                with hdd | hdd
              all_goals rw [hdd]
              all_goals simp at hn ⊢
              all_goals omega
          rw [show fy_future_chunks { (fy_atom_iter_format_core it).1 with
                chunks := X ++ (fy_atom_iter_format_core it).2.1, read := rd,
                unget_c := v } =
              fy_future_chunks (fy_atom_iter_format_core it).1 from
            IH _ hm _ _ _ _ rfl]
          rw [show fy_future_chunks { (fy_atom_iter_format_core it).1 with
                chunks := it.chunks ++ (fy_atom_iter_format_core it).2.1,
                read := (fy_atom_iter_format_core it).1.read } =
              fy_future_chunks (fy_atom_iter_format_core it).1 from
            fy_future_chunks_cong _ _ _]
        · rfl
  exact H _ it X rd v rfl

theorem fy_future_chunks_unget (it : FyAtomIter) (v : Int) :
    fy_future_chunks { it with unget_c := v } = fy_future_chunks it :=
  fy_future_chunks_cong3 it it.chunks it.read v

theorem set_unget_self (it : FyAtomIter) (v : Int) (h : it.unget_c = v) :
    { it with unget_c := v } = it := by
  cases it
  simp_all

theorem iterStream_unget (it : FyAtomIter) (v : Int) :
    iterStream { it with unget_c := v } none = iterStream it none := by
  rw [iterStream_none, iterStream_none, fy_future_chunks_unget]

theorem fy_atom_iter_format_core_ret0_done (it : FyAtomIter) :
    (fy_atom_iter_format_core it).2.2 = 0 →
    (fy_atom_iter_format_core it).1.done = true := by
  unfold fy_atom_iter_format_core
  dsimp only
  rcases hli : (fy_atom_iter_line it).2 with _ | li
  · intro _
    rfl
  · dsimp only []
    repeat' split
    all_goals intro h0
    all_goals first | rfl | omega | assumption | simp_all
